import Mathlib

/-!
prompt-ci: a shallow embedding of the validation engine

Go strings that the program reads (fixture contents, suite fields) are modelled
as sequences of Unicode characters, that is as valid UTF-8 text.  Lengths and
slices that Go takes in bytes are taken on the UTF-8 encoding, and the messages
the program builds (which may be cut inside a multi-byte character by
`truncate`) are sequences of bytes.

Library code (the Unicode tables, `regexp.Compile`, the JSON and JSON-schema
packages, `filepath.Join`, the file system) is not part of the repository: it is
collected in the structure `Env` and the general results hold for every `Env`;
`filepath.Join` of Unix is modelled as well, for the results on the text of a path.
The regular expressions that are fixed in the source are modelled as
scanners with the leftmost-first, non-overlapping semantics of Go's `regexp`.
-/

namespace PromptCI

/-! ## Strings -/

/-- Text: a Go string holding valid UTF-8. -/
abbrev Str := List Char

/-- Byte strings: what the program prints into its messages. -/
abbrev Bytes := List UInt8

/-- UTF-8 encoding of a text. -/
def utf8 (s : Str) : Bytes :=
  s.flatMap String.utf8EncodeChar

/-- Go `len(s)`: the number of bytes of `s`. -/
def len (s : Str) : Nat :=
  (utf8 s).length

/-- The verb `%d` of `fmt.Sprintf` on a non-negative integer. -/
def fmtInt (n : Nat) : Bytes :=
  utf8 (Nat.toDigits 10 n)

/-- Go `unicode.IsSpace`: the Latin-1 switch and the `White_Space` table. -/
def unicodeIsSpace (r : Char) : Bool :=
  let n := r.toNat
  if n ≤ 0xFF then
    n = 0x09 || n = 0x0A || n = 0x0B || n = 0x0C || n = 0x0D || n = 0x20 || n = 0x85 || n = 0xA0
  else
    n = 0x1680 || (0x2000 ≤ n && n ≤ 0x200A) || n = 0x2028 || n = 0x2029 || n = 0x202F
      || n = 0x205F || n = 0x3000

/-- The class `\s` of Go's `regexp`: `[\t\n\f\r ]`. -/
def reSpace (r : Char) : Bool :=
  r = '\t' || r = '\n' || r = Char.ofNat 0x0C || r = '\r' || r = ' '

/-- Go `strings.TrimSpace`. -/
def TrimSpace (s : Str) : Str :=
  (s.dropWhile unicodeIsSpace).rdropWhile unicodeIsSpace

/-- Go `strings.FieldsFunc`: the maximal runs of characters that do not satisfy `f`. -/
def FieldsFunc (f : Char → Bool) : Str → List Str
  | [] => []
  | c :: cs =>
    if f c then FieldsFunc f cs
    else
      match cs with
      | [] => [[c]]
      | d :: _ =>
        if f d then [c] :: FieldsFunc f cs
        else
          match FieldsFunc f cs with
          | t :: ts => (c :: t) :: ts
          | [] => [[c]]

/-- Go `strings.HasPrefix`. -/
def HasPrefix (s p : Str) : Bool :=
  p.isPrefixOf s

/-- Go `strings.HasSuffix`. -/
def HasSuffix (s p : Str) : Bool :=
  p.isSuffixOf s

/-- Go `strings.Contains`. -/
def Contains (s sub : Str) : Bool :=
  decide (sub <:+: s)

/-! ## Go maps with string keys -/

/-- A Go `map[string]V`, as its lookup function. -/
abbrev GoMap (V : Type) := Str → Option V

/-- The empty map of `make`. -/
def GoMap.empty {V : Type} : GoMap V :=
  fun _ => none

/-- The assignment `m[k] = v`. -/
def GoMap.set {V : Type} (m : GoMap V) (k : Str) (v : V) : GoMap V :=
  fun x => if x = k then some v else m x

/-- The one-value index expression `m[k]` on a `map[string]bool`. -/
def GoMap.getBool (m : GoMap Bool) (k : Str) : Bool :=
  (m k).getD false

/-! ## Suite model (`internal/suite/types.go`) -/

/-- A value decoded into `interface{}` by the YAML loader. -/
inductive Value where
  | null
  | bool (b : Bool)
  | int (n : Int)
  | float (bits : Nat)
  | str (s : Str)
  | seq (xs : List Value)
  | map (kvs : List (Str × Value))
  | other (typeName : Str)

/-- Chunk of a document. -/
structure Chunk where
  ID : Str
  Text : Str

/-- Reference document. -/
structure Doc where
  ID : Str
  Title : Str
  Chunks : List Chunk

/-- Tool definition. -/
structure Tool where
  Name : Str
  Description : Str
  Args : List (Str × Value)
  Returns : List (Str × Value)

/-- Grounding configuration. -/
structure GroundingConfig where
  CitationFormat : Str
  ValidDocIDs : List Str
  ValidChunkIDs : List Str
  CitationPattern : Str

/-- Assertion of a case; `Weight` holds the bits of a float64 that is never read. -/
structure Assertion where
  Type_ : Str
  Expected : Value
  Weight : Nat

/-- Test case. -/
structure Case where
  ID : Str
  Prompt : Str
  Assertions : List Assertion

/-- The suite. -/
structure Suite where
  Name : Str
  Capability : Str
  Docs : List Doc
  Schemas : List (Str × List (Str × Value))
  Tools : List Tool
  Grounding : GroundingConfig
  Cases : List Case

/-- Case category, a Go string type. -/
abbrev CaseType := Str

def CaseTypeGrounding : CaseType := "grounding".toList
def CaseTypeSchema : CaseType := "schema".toList
def CaseTypeTool : CaseType := "tool".toList

/-- Result status, a Go string type. -/
abbrev Status := Str

def StatusPass : Status := "PASS".toList
def StatusFail : Status := "FAIL".toList
def StatusError : Status := "ERROR".toList
def StatusSkip : Status := "SKIP".toList

/-- Result of a case.  `DurationMS` (wall-clock time) and `Metrics` (never set by
the runner) are left out. -/
structure Result where
  ID : Str
  Status : Status
  Validator : Str
  FailureReasons : List Bytes
deriving DecidableEq

/-- `GetCaseType`: the byte slices `caseID[:n]` compared with the three prefixes. -/
def GetCaseType (caseID : Str) : CaseType :=
  if len caseID ≥ 9 ∧ (utf8 caseID).take 9 = utf8 "grounding".toList then CaseTypeGrounding
  else if len caseID ≥ 6 ∧ (utf8 caseID).take 6 = utf8 "schema".toList then CaseTypeSchema
  else if len caseID ≥ 4 ∧ (utf8 caseID).take 4 = utf8 "tool".toList then CaseTypeTool
  else CaseTypeGrounding

/-- `BuildDocIndex` (`internal/suite/parser.go`): doc id to the set of its chunk ids. -/
def BuildDocIndex (suite : Suite) : GoMap (GoMap Bool) :=
  suite.Docs.foldl
    (fun index doc =>
      let index := index.set doc.ID GoMap.empty
      doc.Chunks.foldl
        (fun index chunk =>
          match index doc.ID with
          | some chunks => index.set doc.ID (chunks.set chunk.ID true)
          | none => index)
        index)
    GoMap.empty

/-! ## Library environment -/

/-- The library functions and the file system the program runs against. -/
structure Env where
  /-- Go `unicode.IsPunct`. -/
  IsPunct : Char → Bool
  /-- Go `unicode.ToUpper`. -/
  ToUpper : Char → Char
  /-- Go `regexp.Compile`: the error text, or the `MatchString` of the compiled pattern. -/
  regexpCompile : Str → Except Str (Str → Bool)
  /-- Parsed JSON documents. -/
  JSONData : Type
  /-- Go `json.Unmarshal` into `interface{}`. -/
  jsonUnmarshal : Str → Except Str JSONData
  /-- Go `json.Marshal` of an expected value. -/
  jsonMarshal : Value → Except Str Str
  /-- Compiled JSON schemas. -/
  Schema : Type
  /-- `Compiler.AddResource` on the marshalled schema: its error, if any. -/
  schemaAddResource : Str → Option Str
  /-- `Compiler.Compile` of the added resource. -/
  schemaCompile : Str → Except Str Schema
  /-- `Schema.Validate`: its error, if any. -/
  schemaValidate : Schema → JSONData → Option Str
  /-- Go `filepath.Join`. -/
  filepathJoin : List Str → Str
  /-- Go `os.ReadFile`: the content of the file at a path, or the error text. -/
  readFile : Str → Except Str Str

/-! ## Grounding validator (`internal/validate/grounding.go`) -/

/-- Extracted citation. -/
structure Citation where
  DocID : Str
  ChunkID : Str
  Full : Str
deriving DecidableEq

/-- The class `[a-z0-9_\-]` of `citationRegex`. -/
def isDocIDChar (c : Char) : Bool :=
  ('a' ≤ c && c ≤ 'z') || ('0' ≤ c && c ≤ '9') || c = '_' || c = '-'

/-- The class `[1-9]` of `citationRegex`. -/
def isDigit19 (c : Char) : Bool :=
  '1' ≤ c && c ≤ '9'

/-- The class `[0-9]` of `citationRegex`. -/
def isDigit09 (c : Char) : Bool :=
  '0' ≤ c && c ≤ '9'

/-- Removes a literal from the front of a text. -/
def stripLiteral : Str → Str → Option Str
  | [], s => some s
  | _ :: _, [] => none
  | p :: ps, c :: cs => if c = p then stripLiteral ps cs else none

/-- A match of `citationRegex`, `\[doc:([a-z0-9_\-]+)#(c[1-9][0-9]*)\]`, that starts at
the first character of `s`.  The greedy runs need no backtracking: the character
that must follow each run (`#`, `]`) is outside the class of the run. -/
def matchCitationAt (s : Str) : Option Citation :=
  match stripLiteral "[doc:".toList s with
  | none => none
  | some r =>
    let doc := r.takeWhile isDocIDChar
    if doc = [] then none
    else
      match r.dropWhile isDocIDChar with
      | h :: c :: d :: r2 =>
        if h = '#' && c = 'c' && isDigit19 d then
          let ds := r2.takeWhile isDigit09
          match r2.dropWhile isDigit09 with
          | b :: _ =>
            if b = ']' then
              some
                { DocID := doc
                  ChunkID := 'c' :: d :: ds
                  Full := "[doc:".toList ++ doc ++ '#' :: 'c' :: d :: ds ++ [']'] }
            else none
          | [] => none
        else none
      | _ => none

/-- The scan of `citationRegex.FindAllStringSubmatch(content, -1)`: the leftmost match,
then the leftmost match after its end, and so on; `skip` counts the characters
of the last match that are still to be passed. -/
def findAllCitations : Nat → Str → List Citation
  | _, [] => []
  | skip + 1, _ :: cs => findAllCitations skip cs
  | 0, c :: cs =>
    match matchCitationAt (c :: cs) with
    | some cit => cit :: findAllCitations (cit.Full.length - 1) cs
    | none => findAllCitations 0 cs

/-- `extractCitations`. -/
def extractCitations (content : Str) : List Citation :=
  findAllCitations 0 content

/-- The scan of `citationRegex.ReplaceAllString(s, "")`. -/
def removeCitations : Nat → Str → Str
  | _, [] => []
  | skip + 1, _ :: cs => removeCitations skip cs
  | 0, c :: cs =>
    match matchCitationAt (c :: cs) with
    | some cit => removeCitations (cit.Full.length - 1) cs
    | none => c :: removeCitations 0 cs

/-- The scan of `Split` for the pattern `[.!?]\s+`: the pieces between matches, the
current piece first; `inSep` says that the characters read last belong to a
match whose `\s+` may still extend. -/
def splitSentenceEnds : Bool → Str → List Str
  | _, [] => [[]]
  | inSep, c :: cs =>
    if inSep && reSpace c then splitSentenceEnds true cs
    else if (c = '.' || c = '!' || c = '?') && (cs.head?.map reSpace).getD false then
      [] :: splitSentenceEnds true cs
    else
      match splitSentenceEnds false cs with
      | p :: ps => (c :: p) :: ps
      | [] => [[c]]

/-- `splitIntoSentences`. -/
def splitIntoSentences (content : Str) : List Str :=
  let parts := splitSentenceEnds false content
  parts.foldl
    (fun sentences part =>
      let part := TrimSpace part
      if part ≠ [] then sentences ++ [part] else sentences)
    []

/-- `countTokens`. -/
def countTokens (s : Str) : Nat :=
  (FieldsFunc (fun r => unicodeIsSpace r) s).length

/-- `containsCitation`: `citationRegex.MatchString`. -/
def containsCitation : Str → Bool
  | [] => false
  | c :: cs => (matchCitationAt (c :: cs)).isSome || containsCitation cs

/-- `isOnlyCitations`. -/
def isOnlyCitations (E : Env) (s : Str) : Bool :=
  let stripped := removeCitations 0 s
  let stripped := TrimSpace stripped
  stripped.all (fun r => !(!E.IsPunct r && !unicodeIsSpace r))

/-- Go `strings.ToUpper`. -/
def ToUpper (E : Env) (s : Str) : Str :=
  s.map E.ToUpper

/-- `isHeading`. -/
def isHeading (E : Env) (s : Str) : Bool :=
  let s := TrimSpace s
  if HasPrefix s "#".toList then true
  else if len s < 50 && ToUpper E s = s && !Contains s ".".toList then true
  else false

/-- `truncate`, on the bytes of its argument. -/
def truncate (s : Bytes) (maxLen : Nat) : Bytes :=
  if s.length ≤ maxLen then s else s.take maxLen ++ utf8 "...".toList

/-- The message for a citation of a doc that is not in the index. -/
def msgNonExistentDoc (cit : Citation) : Bytes :=
  utf8 "citation [doc:".toList ++ utf8 cit.DocID ++ utf8 "#".toList ++ utf8 cit.ChunkID
    ++ utf8 "] references non-existent doc '".toList ++ utf8 cit.DocID ++ utf8 "'".toList

/-- The message for a citation of a chunk that its doc does not have. -/
def msgNonExistentChunk (cit : Citation) : Bytes :=
  utf8 "citation [doc:".toList ++ utf8 cit.DocID ++ utf8 "#".toList ++ utf8 cit.ChunkID
    ++ utf8 "] references non-existent chunk '".toList ++ utf8 cit.ChunkID ++ utf8 "'".toList

/-- The message for a long sentence without citation. -/
def msgLacksCitation (tokens : Nat) (sentence : Str) : Bytes :=
  utf8 "sentence with ".toList ++ fmtInt tokens ++ utf8 " tokens lacks citation: '".toList
    ++ truncate (utf8 sentence) 50 ++ utf8 "'".toList

/-- `ValidateGroundingCitations`. -/
def ValidateGroundingCitations (E : Env) (content : Str) (s : Suite) : Bool × List Bytes :=
  let failures : List Bytes := []
  let docIndex := BuildDocIndex s
  let citations := extractCitations content
  let failures := citations.foldl
    (fun failures cit =>
      match docIndex cit.DocID with
      | none => failures ++ [msgNonExistentDoc cit]
      | some chunks =>
        if !chunks.getBool cit.ChunkID then failures ++ [msgNonExistentChunk cit]
        else failures)
    failures
  let sentences := splitIntoSentences content
  let failures := sentences.foldl
    (fun failures sentence =>
      if isOnlyCitations E sentence || isHeading E sentence then failures
      else
        let tokens := countTokens sentence
        if tokens ≥ 6 then
          if !containsCitation sentence then failures ++ [msgLacksCitation tokens sentence]
          else failures
        else failures)
    failures
  if failures.length > 0 then (false, failures) else (true, [])

/-! ## Assertion validators (`internal/validate`) -/

/-- The verb `%T` of `fmt.Sprintf`: the name of the dynamic type of a value. -/
def goTypeName : Value → Str
  | .null => "<nil>".toList
  | .bool _ => "bool".toList
  | .int _ => "int".toList
  | .float _ => "float64".toList
  | .str _ => "string".toList
  | .seq _ => "[]interface \x7b\x7d".toList
  | .map _ => "map[string]interface \x7b\x7d".toList
  | .other n => n

/-- `ValidateContains`. -/
def ValidateContains (content : Str) (expected : Value) : Bool × Bytes :=
  match expected with
  | .str expectedStr =>
    if Contains content expectedStr then (true, [])
    else
      (false, utf8 "content does not contain expected string '".toList ++ utf8 expectedStr
        ++ utf8 "'".toList)
  | _ => (false, utf8 "expected must be a string, got ".toList ++ utf8 (goTypeName expected))

/-- `ValidateExactMatch`. -/
def ValidateExactMatch (content : Str) (expected : Value) : Bool × Bytes :=
  match expected with
  | .str expectedStr =>
    if TrimSpace content = TrimSpace expectedStr then (true, [])
    else (false, utf8 "content does not exactly match expected".toList)
  | _ => (false, utf8 "expected must be a string, got ".toList ++ utf8 (goTypeName expected))

/-- `ValidateRegex`. -/
def ValidateRegex (E : Env) (content : Str) (expected : Value) : Bool × Bytes :=
  match expected with
  | .str pattern =>
    match E.regexpCompile pattern with
    | .error err =>
      (false, utf8 "invalid regex pattern '".toList ++ utf8 pattern ++ utf8 "': ".toList
        ++ utf8 err)
    | .ok re =>
      if re content then (true, [])
      else
        (false, utf8 "content does not match pattern '".toList ++ utf8 pattern
          ++ utf8 "'".toList)
  | _ =>
    (false, utf8 "expected must be a string pattern, got ".toList ++ utf8 (goTypeName expected))

/-- The opening brace. -/
def lbrace : Char := Char.ofNat 0x7B

/-- The closing brace. -/
def rbrace : Char := Char.ofNat 0x7D

/-- The depth-counting loop of `extractJSON`, from the position of the first opening
bracket: the span up to the bracket that brings the depth back to zero. -/
def scanSpan (op cl : Char) : Int → Str → Option Str
  | _, [] => none
  | depth, c :: cs =>
    if c = op then (scanSpan op cl (depth + 1) cs).map (fun r => c :: r)
    else if c = cl then
      if depth - 1 = 0 then some [c]
      else (scanSpan op cl (depth - 1) cs).map (fun r => c :: r)
    else (scanSpan op cl depth cs).map (fun r => c :: r)

/-- The text from the first occurrence of `op` on (`strings.Index`), if there is one. -/
def fromFirst (op : Char) (s : Str) : Option Str :=
  match s.dropWhile (fun c => c != op) with
  | [] => none
  | r => some r

/-- `extractJSON`. -/
def extractJSON (content : Str) : Str :=
  let content := TrimSpace content
  match (fromFirst lbrace content).bind (scanSpan lbrace rbrace 0) with
  | some span => span
  | none =>
    match (fromFirst '[' content).bind (scanSpan '[' ']' 0) with
    | some span => span
    | none => content

/-- `ValidateJSONSchema`. -/
def ValidateJSONSchema (E : Env) (content : Str) (expected : Value) : Bool × Bytes :=
  let jsonContent := extractJSON content
  if jsonContent = [] then (false, utf8 "no valid JSON found in content".toList)
  else
    match E.jsonUnmarshal jsonContent with
    | .error err => (false, utf8 "content is not valid JSON: ".toList ++ utf8 err)
    | .ok contentData =>
      match E.jsonMarshal expected with
      | .error err => (false, utf8 "failed to marshal schema: ".toList ++ utf8 err)
      | .ok schemaBytes =>
        match E.schemaAddResource schemaBytes with
        | some err => (false, utf8 "failed to add schema resource: ".toList ++ utf8 err)
        | none =>
          match E.schemaCompile schemaBytes with
          | .error err => (false, utf8 "failed to compile schema: ".toList ++ utf8 err)
          | .ok schema =>
            match E.schemaValidate schema contentData with
            | some err => (false, utf8 "JSON schema validation failed: ".toList ++ utf8 err)
            | none => (true, [])

/-- `ValidateAssertion`. -/
def ValidateAssertion (E : Env) (content : Str) (assertion : Assertion) (_s : Suite) :
    Bool × Bytes :=
  if assertion.Type_ = "contains".toList then ValidateContains content assertion.Expected
  else if assertion.Type_ = "regex".toList then ValidateRegex E content assertion.Expected
  else if assertion.Type_ = "json_schema".toList then
    ValidateJSONSchema E content assertion.Expected
  else if assertion.Type_ = "exact_match".toList then
    ValidateExactMatch content assertion.Expected
  else (false, utf8 "unknown assertion type: ".toList ++ utf8 assertion.Type_)

/-- `ValidateGrounding`. -/
def ValidateGrounding (E : Env) (content : Str) (s : Suite) : Bool × List Bytes :=
  ValidateGroundingCitations E content s

/-! ## Runner (`internal/runner`, `GetFixturePath` of `internal/suite/validate.go`) -/

/-- `GetFixturePath`. -/
def GetFixturePath (E : Env) (fixturesDir caseID : Str) : Str :=
  let caseType := GetCaseType caseID
  let (subdir, ext) :=
    if caseType = CaseTypeGrounding then ("grounding".toList, ".out.txt".toList)
    else if caseType = CaseTypeSchema then ("schema".toList, ".out.json".toList)
    else if caseType = CaseTypeTool then
      if HasSuffix caseID "_secret".toList || HasSuffix caseID "_behavior".toList then
        ("tool".toList, ".out.txt".toList)
      else ("tool".toList, ".out.json".toList)
    else ("grounding".toList, ".out.txt".toList)
  E.filepathJoin [fixturesDir, subdir, caseID ++ ext]

/-- `LoadFixture`: the content of the fixture, or the text of the wrapped error. -/
def LoadFixture (E : Env) (fixturesDir caseID : Str) : Except Bytes Str :=
  let path := GetFixturePath E fixturesDir caseID
  match E.readFile path with
  | .error err =>
    .error (utf8 "failed to read fixture ".toList ++ utf8 path ++ utf8 ": ".toList ++ utf8 err)
  | .ok data => .ok data

/-- `getValidatorType`. -/
def getValidatorType (c : Case) : Str :=
  let caseType := GetCaseType c.ID
  if caseType = CaseTypeGrounding then "grounding".toList
  else if caseType = CaseTypeSchema then "json_schema".toList
  else if caseType = CaseTypeTool then "tool".toList
  else if c.Assertions.any (fun a => a.Type_ = "json_schema".toList) then "json_schema".toList
  else "contains".toList

/-- `runCase`. -/
def runCase (E : Env) (c : Case) (s : Suite) (fixturesDir : Str) : Result :=
  match LoadFixture E fixturesDir c.ID with
  | .error err =>
    { ID := c.ID
      Status := StatusError
      Validator := getValidatorType c
      FailureReasons := [utf8 "fixture error: ".toList ++ err] }
  | .ok content =>
    let failures : List Bytes := []
    let failures := c.Assertions.foldl
      (fun failures assertion =>
        let r := ValidateAssertion E content assertion s
        if !r.1 then
          failures ++ [utf8 "[".toList ++ utf8 assertion.Type_ ++ utf8 "] ".toList ++ r.2]
        else failures)
      failures
    let caseType := GetCaseType c.ID
    let failures :=
      if caseType = CaseTypeGrounding then
        let g := ValidateGrounding E content s
        if !g.1 then
          g.2.foldl (fun failures f => failures ++ [utf8 "[grounding] ".toList ++ f]) failures
        else failures
      else failures
    let status := if failures.length > 0 then StatusFail else StatusPass
    { ID := c.ID
      Status := status
      Validator := getValidatorType c
      FailureReasons := failures }

/-- The loop of `RunSuite` over the cases that are left, with its two variables. -/
def runSuiteLoop (E : Env) (s : Suite) (fixturesDir : Str) (failFast : Bool) :
    List Case → List Result × Bool → List Result × Bool
  | [], acc => acc
  | c :: cs, (results, hasError) =>
    let result := runCase E c s fixturesDir
    let results := results ++ [result]
    let hasError := if result.Status = StatusError then true else hasError
    if failFast && (result.Status = StatusFail || result.Status = StatusError) then
      (results, hasError)
    else runSuiteLoop E s fixturesDir failFast cs (results, hasError)

/-- `RunSuite`. -/
def RunSuite (E : Env) (s : Suite) (fixturesDir : Str) (failFast : Bool) : List Result × Bool :=
  runSuiteLoop E s fixturesDir failFast s.Cases ([], false)

/-! ## Exit code of the run command (`cmd/prompt-ci/main.go`) -/

/-- The summary loop of `runRun`: the numbers of results with status `PASS`, `FAIL` and
`ERROR`. -/
def countStatuses (results : List Result) : Nat × Nat × Nat :=
  results.foldl
    (fun (acc : Nat × Nat × Nat) r =>
      if r.Status = StatusPass then (acc.1 + 1, acc.2.1, acc.2.2)
      else if r.Status = StatusFail then (acc.1, acc.2.1 + 1, acc.2.2)
      else if r.Status = StatusError then (acc.1, acc.2.1, acc.2.2 + 1)
      else acc)
    (0, 0, 0)

/-- The exit code `runRun` ends with once the reports are written: 2 if `hasError`,
else 1 if some result failed, else 0 (the `return nil`). -/
def runExitCode (results : List Result) (hasError : Bool) : Nat :=
  let failed := (countStatuses results).2.1
  if hasError then 2
  else if failed > 0 then 1
  else 0

/-! ## Suite validator (`internal/suite/validate.go`) -/

/-- `ValidationError`. -/
structure ValidationError where
  Errors : List Bytes
deriving DecidableEq

/-- `BuildSchemaIndex`. -/
def BuildSchemaIndex (suite : Suite) : GoMap Bool :=
  suite.Schemas.foldl (fun index kv => index.set kv.1 true) GoMap.empty

/-- `BuildToolIndex`. -/
def BuildToolIndex (suite : Suite) : GoMap Bool :=
  suite.Tools.foldl (fun index tool => index.set tool.Name true) GoMap.empty

/-- The class `[a-z0-9_]` of `caseIDPattern`. -/
def isCaseIDChar (c : Char) : Bool :=
  ('a' ≤ c && c ≤ 'z') || ('0' ≤ c && c ≤ '9') || c = '_'

/-- `caseIDPattern.MatchString` for `^[a-z0-9_]{1,32}$`: from the start of the text to
its end, between 1 and 32 characters of the class. -/
def caseIDPatternMatch (id : Str) : Bool :=
  decide (1 ≤ id.length) && decide (id.length ≤ 32) && id.all isCaseIDChar

/-- The prefix `case[<i>]` of the messages about a case. -/
def msgCase (caseIdx : Nat) : Bytes :=
  utf8 "case[".toList ++ fmtInt caseIdx ++ utf8 "]".toList

/-- The prefix `case[<i>] '<id>' assertion[<j>]` of the messages about an assertion. -/
def msgAssertion (caseIdx : Nat) (caseID : Str) (assertIdx : Nat) : Bytes :=
  msgCase caseIdx ++ utf8 " '".toList ++ utf8 caseID ++ utf8 "' assertion[".toList
    ++ fmtInt assertIdx ++ utf8 "]".toList

/-- The message for a case id that does not match the pattern. -/
def msgBadID (caseIdx : Nat) (caseID : Str) : Bytes :=
  msgCase caseIdx ++ utf8 ": id '".toList ++ utf8 caseID
    ++ utf8 "' does not match pattern ^[a-z0-9_]\x7b1,32\x7d$".toList

/-- The message for a case id that an earlier case has. -/
def msgDuplicateID (caseIdx : Nat) (caseID : Str) : Bytes :=
  msgCase caseIdx ++ utf8 ": duplicate case id '".toList ++ utf8 caseID ++ utf8 "'".toList

/-- The message for a case without assertions. -/
def msgNoAssertion (caseIdx : Nat) (caseID : Str) : Bytes :=
  msgCase caseIdx ++ utf8 " '".toList ++ utf8 caseID
    ++ utf8 "': must have at least one assertion".toList

/-- The message for an assertion of an unknown type. -/
def msgUnknownType (caseIdx : Nat) (caseID : Str) (assertIdx : Nat) (type : Str) : Bytes :=
  msgAssertion caseIdx caseID assertIdx ++ utf8 ": unknown type '".toList ++ utf8 type
    ++ utf8 "'".toList

/-- The message for an assertion without expected value. -/
def msgExpectedRequired (caseIdx : Nat) (caseID : Str) (assertIdx : Nat) : Bytes :=
  msgAssertion caseIdx caseID assertIdx ++ utf8 ": expected is required".toList

/-- The message for a missing fixture. -/
def msgFixtureNotFound (caseIdx : Nat) (caseID fixturePath : Str) : Bytes :=
  msgCase caseIdx ++ utf8 " '".toList ++ utf8 caseID ++ utf8 "': fixture file not found at ".toList
    ++ utf8 fixturePath

/-- The message for a valid doc id that no doc has. -/
def msgUnknownValidDoc (docID : Str) : Bytes :=
  utf8 "grounding: valid_doc_ids references non-existent doc '".toList ++ utf8 docID
    ++ utf8 "'".toList

/-- The message for an object schema that does not close its properties. -/
def msgAdditionalProperties (caseIdx : Nat) (caseID : Str) (assertIdx : Nat) : Bytes :=
  msgAssertion caseIdx caseID assertIdx
    ++ utf8 ": json_schema must have additionalProperties: false".toList

/-- The index expression `validTypes[t]` on the map literal of `validateAssertion`. -/
def validTypes (t : Str) : Bool :=
  t = "exact_match".toList || t = "contains".toList || t = "regex".toList
    || t = "json_schema".toList || t = "semantic_similarity".toList || t = "llm_judge".toList

/-- `validateAssertion`: the text of the error, if any. -/
def validateAssertion (a : Assertion) (caseIdx assertIdx : Nat) (caseID : Str)
    (_schemaIndex _toolIndex : GoMap Bool) : Option Bytes :=
  if !validTypes a.Type_ then some (msgUnknownType caseIdx caseID assertIdx a.Type_)
  else
    match a.Expected with
    | .null => some (msgExpectedRequired caseIdx caseID assertIdx)
    | _ => none

/-- `validateSchemaHasAdditionalPropertiesFalse`: the text of the error, if any. -/
def validateSchemaHasAdditionalPropertiesFalse (expected : Value) (caseIdx assertIdx : Nat)
    (caseID : Str) : Option Bytes :=
  match expected with
  | .map schema =>
    match schema.lookup "type".toList with
    | some schemaType =>
      match schemaType with
      | .str t =>
        if t = "object".toList then
          match schema.lookup "additionalProperties".toList with
          | some addProps =>
            match addProps with
            | .bool false => none
            | _ => some (msgAdditionalProperties caseIdx caseID assertIdx)
          | none => some (msgAdditionalProperties caseIdx caseID assertIdx)
        else none
      | _ => none
    | none => none
  | _ => none

/-- The loop of `ValidateSuite` over the assertions of a case, from index `j` on. -/
def validateAssertionsLoop (caseIdx : Nat) (caseID : Str) (schemaIndex toolIndex : GoMap Bool) :
    Nat → List Assertion → List Bytes → List Bytes
  | _, [], errors => errors
  | j, a :: rest, errors =>
    let errors :=
      match validateAssertion a caseIdx j caseID schemaIndex toolIndex with
      | some err => errors ++ [err]
      | none => errors
    validateAssertionsLoop caseIdx caseID schemaIndex toolIndex (j + 1) rest errors

/-- The first loop of `ValidateSuite` over the cases, from index `i` on, with the error
list and the map `caseIDs`.  `isNotExist path` is `os.IsNotExist` of the error of
`os.Stat(path)`. -/
def validateCasesLoop (E : Env) (isNotExist : Str → Bool) (fixturesDir : Str)
    (schemaIndex toolIndex : GoMap Bool) :
    Nat → List Case → List Bytes × GoMap Bool → List Bytes × GoMap Bool
  | _, [], st => st
  | i, c :: rest, (errors, caseIDs) =>
    let errors := if !caseIDPatternMatch c.ID then errors ++ [msgBadID i c.ID] else errors
    let errors := if caseIDs.getBool c.ID then errors ++ [msgDuplicateID i c.ID] else errors
    let caseIDs := caseIDs.set c.ID true
    let errors :=
      if c.Assertions.length = 0 then errors ++ [msgNoAssertion i c.ID] else errors
    let errors := validateAssertionsLoop i c.ID schemaIndex toolIndex 0 c.Assertions errors
    let fixturePath := GetFixturePath E fixturesDir c.ID
    let errors :=
      if isNotExist fixturePath then errors ++ [msgFixtureNotFound i c.ID fixturePath]
      else errors
    validateCasesLoop E isNotExist fixturesDir schemaIndex toolIndex (i + 1) rest
      (errors, caseIDs)

/-- The schema loop of `ValidateSuite` over the assertions of a case, from index `j` on. -/
def schemaAssertionsLoop (caseIdx : Nat) (caseID : Str) :
    Nat → List Assertion → List Bytes → List Bytes
  | _, [], errors => errors
  | j, a :: rest, errors =>
    let errors :=
      if a.Type_ = "json_schema".toList then
        match validateSchemaHasAdditionalPropertiesFalse a.Expected caseIdx j caseID with
        | some err => errors ++ [err]
        | none => errors
      else errors
    schemaAssertionsLoop caseIdx caseID (j + 1) rest errors

/-- The schema loop of `ValidateSuite` over the cases, from index `i` on. -/
def schemaCasesLoop : Nat → List Case → List Bytes → List Bytes
  | _, [], errors => errors
  | i, c :: rest, errors =>
    schemaCasesLoop (i + 1) rest (schemaAssertionsLoop i c.ID 0 c.Assertions errors)

/-- `ValidateSuite`: `none` for the nil error. -/
def ValidateSuite (E : Env) (isNotExist : Str → Bool) (suite : Suite) (fixturesDir : Str) :
    Option ValidationError :=
  let errors : List Bytes := []
  let errors := if suite.Name = [] then errors ++ [utf8 "suite_name is required".toList]
    else errors
  let errors :=
    if suite.Cases.length = 0 then
      errors ++ [utf8 "cases array must contain at least one test case".toList]
    else errors
  let docIndex := BuildDocIndex suite
  let schemaIndex := BuildSchemaIndex suite
  let toolIndex := BuildToolIndex suite
  let caseIDs : GoMap Bool := GoMap.empty
  let errors :=
    (validateCasesLoop E isNotExist fixturesDir schemaIndex toolIndex 0 suite.Cases
      (errors, caseIDs)).1
  let errors :=
    if suite.Grounding.CitationFormat ≠ [] then
      suite.Grounding.ValidDocIDs.foldl
        (fun errors docID =>
          match docIndex docID with
          | none => errors ++ [msgUnknownValidDoc docID]
          | some _ => errors)
        errors
    else errors
  let errors := schemaCasesLoop 0 suite.Cases errors
  if errors.length > 0 then some { Errors := errors } else none

/-! ## Specification-side definitions -/

/-- The reasons the resolution loop adds for one citation. -/
def resolveCitation (docIndex : GoMap (GoMap Bool)) (cit : Citation) : List Bytes :=
  match docIndex cit.DocID with
  | none => [msgNonExistentDoc cit]
  | some chunks => if chunks.getBool cit.ChunkID then [] else [msgNonExistentChunk cit]

/-- The unresolved-citation reasons of a content, in order of citation occurrence. -/
def unresolvedReasons (content : Str) (s : Suite) : List Bytes :=
  (extractCitations content).flatMap (resolveCitation (BuildDocIndex s))

/-- The reasons the sentence loop adds for one sentence. -/
def sentenceReasons (E : Env) (sentence : Str) : List Bytes :=
  if isOnlyCitations E sentence || isHeading E sentence then []
  else if 6 ≤ countTokens sentence ∧ containsCitation sentence = false then
    [msgLacksCitation (countTokens sentence) sentence]
  else []

/-- The uncited-long-sentence reasons of a content, in sentence order. -/
def uncitedReasons (E : Env) (content : Str) : List Bytes :=
  (splitIntoSentences content).flatMap (sentenceReasons E)

/-- Recognises the resolution reasons by the way their text starts. -/
def isResolutionReason (r : Bytes) : Bool :=
  (utf8 "citation ".toList).isPrefixOf r

/-- Recognises the reasons for an uncited long sentence by the way their text starts. -/
def isLacksCitationReason (r : Bytes) : Bool :=
  (utf8 "sentence ".toList).isPrefixOf r

/-- The last doc of a list that carries a given id. -/
def lastDocWithID (docs : List Doc) (id : Str) : Option Doc :=
  docs.reverse.find? (fun d => d.ID = id)

/-- Resolution of a citation as the suite's doc list decides it: against the last
doc that carries the cited id. -/
def specResolution (s : Suite) (cit : Citation) : List Bytes :=
  match lastDocWithID s.Docs cit.DocID with
  | none => [msgNonExistentDoc cit]
  | some doc =>
    if doc.Chunks.any (fun ch => ch.ID = cit.ChunkID) then [] else [msgNonExistentChunk cit]

/-- A sentence is not citation-only: once every citation match is removed, some
character is left that is neither punctuation nor white space. -/
def notCitationOnly (E : Env) (x : Str) : Bool :=
  (removeCitations 0 x).any (fun r => !E.IsPunct r && !unicodeIsSpace r)

/-- A sentence looks like a heading, with its length measured by `size`. -/
def looksLikeHeading (E : Env) (size : Str → Nat) (x : Str) : Bool :=
  x.head? = some '#' || (decide (size x < 50) && !x.contains '.' && ToUpper E x = x)

/-- The four conditions under which a sentence is reported as lacking a citation,
with the length of the heading test measured by `size`. -/
def mustCite (E : Env) (size : Str → Nat) (x : Str) : Bool :=
  notCitationOnly E x && !looksLikeHeading E size x && decide (6 ≤ countTokens x)
    && !containsCitation x

/-- A text of the citation grammar: `[doc:D#C]` with `D` a non-empty run over
`[a-z0-9_-]` and `C` the letter `c` followed by a digit from 1 to 9 and digits. -/
def IsCitationText (doc chunk full : Str) : Prop :=
  doc ≠ [] ∧ (∀ c ∈ doc, isDocIDChar c = true) ∧
    (∃ d ds, chunk = 'c' :: d :: ds ∧ isDigit19 d = true ∧ ∀ c ∈ ds, isDigit09 c = true) ∧
    full = "[doc:".toList ++ doc ++ "#".toList ++ chunk ++ "]".toList

/-! ## The library function `filepath.Join` on Unix -/

/-- The elements of a path: the texts between its separators `/`. -/
def pathElements : Str → List Str
  | [] => [[]]
  | c :: cs =>
    if c = '/' then [] :: pathElements cs
    else
      match pathElements cs with
      | e :: es => (c :: e) :: es
      | [] => [[c]]

/-- The loop of Go `filepath.Clean` over the elements of a path, with the elements
written so far and the number of leading `..` elements that cannot be taken back: an
empty element and `.` are dropped, `..` takes back the last element written when there
is one to take back, is written when the path is not rooted, and is dropped otherwise;
every other element is written. -/
def cleanElements (rooted : Bool) : List Str → List Str → Nat → List Str
  | [], out, _ => out
  | e :: es, out, dotdot =>
    if e = [] ∨ e = ".".toList then cleanElements rooted es out dotdot
    else if e = "..".toList then
      if out.length > dotdot then cleanElements rooted es out.dropLast dotdot
      else if !rooted then cleanElements rooted es (out ++ ["..".toList]) (dotdot + 1)
      else cleanElements rooted es out dotdot
    else cleanElements rooted es (out ++ [e]) dotdot

/-- Go `filepath.Clean` on Unix: the shortest equivalent path by lexical processing; the
empty result is written `.`. -/
def filepathClean (path : Str) : Str :=
  let rooted : Bool := path.head? = some '/'
  let out := cleanElements rooted (pathElements path) [] 0
  if rooted then '/' :: List.intercalate "/".toList out
  else if out.isEmpty then ".".toList
  else List.intercalate "/".toList out

/-- Go `filepath.Join` on Unix: the elements from the first non-empty one on, joined with
`/` and cleaned; the empty text when every element is empty. -/
def filepathJoinUnix (elem : List Str) : Str :=
  match elem.dropWhile (fun e => e.isEmpty) with
  | [] => []
  | rest => filepathClean (List.intercalate "/".toList rest)

/-! ## A sample environment for closed examples -/

/-- Go `unicode.IsPunct` on Latin-1; characters above U+00FF count as no punctuation. -/
def latin1IsPunct (c : Char) : Bool :=
  let n := c.toNat
  n = 0x21 || n = 0x22 || n = 0x23 || (0x25 ≤ n && n ≤ 0x2A) || (0x2C ≤ n && n ≤ 0x2F)
    || n = 0x3A || n = 0x3B || n = 0x3F || n = 0x40 || (0x5B ≤ n && n ≤ 0x5D) || n = 0x5F
    || n = 0x7B || n = 0x7D || n = 0xA1 || n = 0xA7 || n = 0xAB || n = 0xB6 || n = 0xB7
    || n = 0xBB || n = 0xBF

/-- Go `unicode.ToUpper` on Latin-1; characters above U+00FF are left as they are (which
is what Go does for the CJK ideographs of the examples). -/
def latin1ToUpper (c : Char) : Char :=
  let n := c.toNat
  if 0x61 ≤ n ∧ n ≤ 0x7A then Char.ofNat (n - 32)
  else if n = 0xB5 then Char.ofNat 0x39C
  else if 0xE0 ≤ n ∧ n ≤ 0xFE ∧ n ≠ 0xF7 then Char.ofNat (n - 32)
  else if n = 0xFF then Char.ofNat 0x178
  else c

/-- A file system with four fixtures. -/
def sampleFiles (path : Str) : Except Str Str :=
  if path = "fx/schema/schema_a.out.json".toList then .ok "ok".toList
  else if path = "fx/schema/schema_b.out.json".toList then .ok "no".toList
  else if path = "fx/schema/schema_c.out.json".toList then .ok "ok".toList
  else if path = "fx/grounding/grounding_a.out.txt".toList then
    .ok "the sky is blue and clear [doc:d1#c9]".toList
  else .error "no such file or directory".toList

/-- An environment for the closed examples: Latin-1 tables, `filepath.Join` of Unix, the
sample file system, and libraries that reject every pattern, document and schema. -/
def sampleEnv : Env where
  IsPunct := latin1IsPunct
  ToUpper := latin1ToUpper
  regexpCompile := fun _ => .error "unsupported".toList
  JSONData := Unit
  jsonUnmarshal := fun _ => .error "unsupported".toList
  jsonMarshal := fun _ => .error "unsupported".toList
  Schema := Unit
  schemaAddResource := fun _ => none
  schemaCompile := fun _ => .error "unsupported".toList
  schemaValidate := fun _ _ => none
  filepathJoin := filepathJoinUnix
  readFile := sampleFiles

/-- A suite with the given docs and cases and nothing else. -/
def sampleSuite (docs : List Doc) (cases : List Case) : Suite where
  Name := "sample".toList
  Capability := []
  Docs := docs
  Schemas := []
  Tools := []
  Grounding := ⟨[], [], [], []⟩
  Cases := cases

/-- The doc `d1` with the chunks `c1` and `c2`. -/
def docD1 : Doc where
  ID := "d1".toList
  Title := []
  Chunks := [⟨"c1".toList, []⟩, ⟨"c2".toList, []⟩]

/-- A case with one `contains` assertion for the text `ok`. -/
def caseContainsOk (id : Str) : Case where
  ID := id
  Prompt := []
  Assertions := [⟨"contains".toList, .str "ok".toList, 0⟩]

/-- The sentence `東京都 大阪府 京都府 北海道 神奈川 愛知県`: six tokens, 23 characters,
59 bytes. -/
def sixKanjiWords : Str :=
  "東京都 大阪府 京都府 北海道 神奈川 愛知県".toList

/-- The citation `[doc:D#cN]` with `D = doc` and `N` the digit `d` followed by `ds`. -/
def mkCitation (doc : Str) (d : Char) (ds : Str) : Citation where
  DocID := doc
  ChunkID := 'c' :: d :: ds
  Full := "[doc:".toList ++ doc ++ '#' :: 'c' :: d :: ds ++ [']']

/-- The parts of a citation follow the grammar: a non-empty doc id over `[a-z0-9_-]`, a
first digit from 1 to 9, and further digits. -/
def CitationParts (doc : Str) (d : Char) (ds : Str) : Prop :=
  doc ≠ [] ∧ (∀ c ∈ doc, isDocIDChar c = true) ∧ isDigit19 d = true ∧
    ∀ c ∈ ds, isDigit09 c = true

/-- The set of chunk ids of a doc, as `BuildDocIndex` fills it. -/
def chunkSet (d : Doc) : GoMap Bool :=
  d.Chunks.foldl (fun m ch => m.set ch.ID true) GoMap.empty

/-- A citation resolves: the last doc of the suite that carries the cited doc id has a
chunk with the cited chunk id. -/
def resolves (s : Suite) (cit : Citation) : Bool :=
  match lastDocWithID s.Docs cit.DocID with
  | none => false
  | some doc => doc.Chunks.any (fun ch => ch.ID = cit.ChunkID)

/-- Some doc of the suite carries the cited doc id and has a chunk with the cited chunk
id. -/
def resolvesSomewhere (s : Suite) (cit : Citation) : Bool :=
  s.Docs.any (fun d => d.ID = cit.DocID && d.Chunks.any (fun ch => ch.ID = cit.ChunkID))

/-- A content has a sentence end: a `.`, `!` or `?` that is followed by a character of the
class `\s`. -/
def hasSentenceEnd : Str → Bool
  | [] => false
  | c :: cs =>
    ((c = '.' || c = '!' || c = '?') && (cs.head?.map reSpace).getD false) || hasSentenceEnd cs

/-- A second doc with the id `d1`, whose only chunk is `c3`. -/
def docD1Again : Doc where
  ID := "d1".toList
  Title := []
  Chunks := [⟨"c3".toList, []⟩]

/-- The reasons of the failing assertions of a case on a content, in declaration order,
each as `[<type>] <reason>`. -/
def assertionReasons (E : Env) (content : Str) (c : Case) (s : Suite) : List Bytes :=
  (c.Assertions.filter (fun a => !(ValidateAssertion E content a s).1)).map
    (fun a => utf8 "[".toList ++ utf8 a.Type_ ++ utf8 "] ".toList
      ++ (ValidateAssertion E content a s).2)

/-- The failures of the grounding validator on a content, each after `[grounding] `. -/
def groundingReasons (E : Env) (content : Str) (s : Suite) : List Bytes :=
  (ValidateGroundingCitations E content s).2.map (fun f => utf8 "[grounding] ".toList ++ f)

/-- A result stops a fail-fast run: its status is `FAIL` or `ERROR`. -/
def stopsRun (r : Result) : Bool :=
  r.Status = StatusFail || r.Status = StatusError

/-- The shortest front part of a list of results that ends at the first result with
status `FAIL` or `ERROR`; the whole list if there is none. -/
def upToFirstFailure : List Result → List Result
  | [] => []
  | r :: rs => if stopsRun r then [r] else r :: upToFirstFailure rs

/-- The cases `schema_a`, `schema_b`, `schema_c`, whose fixtures in the sample file
system pass, fail and pass the assertion that the content contains `ok`. -/
def passFailPass : List Case :=
  [caseContainsOk "schema_a".toList, caseContainsOk "schema_b".toList,
    caseContainsOk "schema_c".toList]

/-- The grounding case `grounding_a` with one `contains` assertion for the text `ok`. -/
def caseGroundingA : Case :=
  caseContainsOk "grounding_a".toList

/-- The category of a case id by its first characters: `grounding`, else `schema`, else
`tool`, else the default `grounding`. -/
def categoryByPrefix (id : Str) : CaseType :=
  if "grounding".toList <+: id then CaseTypeGrounding
  else if "schema".toList <+: id then CaseTypeSchema
  else if "tool".toList <+: id then CaseTypeTool
  else CaseTypeGrounding

/-- The extension of the fixture of a case id: `.out.txt` for grounding cases and for
tool cases whose id ends in `_secret` or `_behavior`, `.out.json` otherwise. -/
def fixtureExt (id : Str) : Str :=
  if categoryByPrefix id = CaseTypeGrounding then ".out.txt".toList
  else if categoryByPrefix id = CaseTypeSchema then ".out.json".toList
  else if "_secret".toList <:+ id ∨ "_behavior".toList <:+ id then ".out.txt".toList
  else ".out.json".toList

/-- A result has status `ERROR`. -/
def isError (r : Result) : Bool :=
  r.Status = StatusError

/-- A result has status `FAIL`. -/
def isFail (r : Result) : Bool :=
  r.Status = StatusFail

/-- The missing files of the sample file system, as `os.Stat` sees them. -/
def sampleNotExist (path : Str) : Bool :=
  match sampleFiles path with
  | .ok _ => false
  | .error _ => true

/-- The grounding case `grounding_a` with one `contains` assertion for the text `sky`. -/
def caseGroundingSky : Case where
  ID := "grounding_a".toList
  Prompt := []
  Assertions := [⟨"contains".toList, .str "sky".toList, 0⟩]

/-- The error list of a validation result: empty for the nil error. -/
def validationErrors (r : Option ValidationError) : List Bytes :=
  match r with
  | none => []
  | some ve => ve.Errors

/-- An expected value is null. -/
def Value.isNull : Value → Bool
  | .null => true
  | _ => false

/-- A schema map is an object schema: its `type` entry is the string `object`. -/
def isObjectSchema (schema : List (Str × Value)) : Bool :=
  match schema.lookup "type".toList with
  | some (.str t) => t = "object".toList
  | _ => false

/-- A schema map closes its properties: its `additionalProperties` entry is the boolean
false. -/
def closesProperties (schema : List (Str × Value)) : Bool :=
  match schema.lookup "additionalProperties".toList with
  | some (.bool false) => true
  | _ => false

/-- An expected value breaks the additionalProperties rule: it is a map that is an object
schema and does not close its properties. -/
def breaksAdditionalPropertiesRule : Value → Bool
  | .map schema => isObjectSchema schema && !closesProperties schema
  | _ => false

/-- The violations of the header checks: suite name and number of cases. -/
def headerViolations (s : Suite) : List Bytes :=
  (if s.Name = [] then [utf8 "suite_name is required".toList] else []) ++
    (if s.Cases.isEmpty then [utf8 "cases array must contain at least one test case".toList]
      else [])

/-- The violation of one assertion: an unknown type, else a null expected value. -/
def assertionViolation (i : Nat) (caseID : Str) (j : Nat) (a : Assertion) : List Bytes :=
  if validTypes a.Type_ = false then [msgUnknownType i caseID j a.Type_]
  else if a.Expected.isNull then [msgExpectedRequired i caseID j]
  else []

/-- The violations of the assertions of a case, from index `j` on. -/
def assertionViolations (i : Nat) (caseID : Str) : Nat → List Assertion → List Bytes
  | _, [] => []
  | j, a :: rest => assertionViolation i caseID j a ++ assertionViolations i caseID (j + 1) rest

/-- The format violation of a case: its id does not match the pattern. -/
def formatViolation (i : Nat) (c : Case) : List Bytes :=
  if caseIDPatternMatch c.ID then [] else [msgBadID i c.ID]

/-- The duplicate violation of a case: an earlier case has its id. -/
def duplicateViolation (i : Nat) (earlier : List Str) (c : Case) : List Bytes :=
  if c.ID ∈ earlier then [msgDuplicateID i c.ID] else []

/-- The other violations of a case: no assertion, bad assertions, missing fixture. -/
def otherCaseViolations (E : Env) (isNotExist : Str → Bool) (dir : Str) (i : Nat) (c : Case) :
    List Bytes :=
  (if c.Assertions.isEmpty then [msgNoAssertion i c.ID] else []) ++
    assertionViolations i c.ID 0 c.Assertions ++
    (if isNotExist (GetFixturePath E dir c.ID) then
      [msgFixtureNotFound i c.ID (GetFixturePath E dir c.ID)]
    else [])

/-- The violations of the case at index `i`, given the ids of the cases before it. -/
def caseViolations (E : Env) (isNotExist : Str → Bool) (dir : Str) (i : Nat)
    (earlier : List Str) (c : Case) : List Bytes :=
  formatViolation i c ++ duplicateViolation i earlier c ++ otherCaseViolations E isNotExist dir i c

/-- Collects what `f` gives for each case, in order, from its index and the ids of the
cases before it. -/
def collectCases (f : Nat → List Str → Case → List Bytes) :
    Nat → List Str → List Case → List Bytes
  | _, _, [] => []
  | i, earlier, c :: rest => f i earlier c ++ collectCases f (i + 1) (earlier ++ [c.ID]) rest

/-- The violations of the grounding configuration: with a citation format, the valid doc
ids that no doc of the suite carries. -/
def groundingViolations (s : Suite) : List Bytes :=
  if s.Grounding.CitationFormat = [] then []
  else
    (s.Grounding.ValidDocIDs.filter (fun id => s.Docs.all (fun d => d.ID ≠ id))).map
      msgUnknownValidDoc

/-- The additionalProperties violation of one assertion: its type is `json_schema` and
its expected value breaks the rule. -/
def schemaViolation (i : Nat) (caseID : Str) (j : Nat) (a : Assertion) : List Bytes :=
  if a.Type_ = "json_schema".toList ∧ breaksAdditionalPropertiesRule a.Expected = true then
    [msgAdditionalProperties i caseID j]
  else []

/-- The additionalProperties violations of the assertions of a case, from index `j` on. -/
def schemaAssertionViolations (i : Nat) (caseID : Str) : Nat → List Assertion → List Bytes
  | _, [] => []
  | j, a :: rest => schemaViolation i caseID j a ++ schemaAssertionViolations i caseID (j + 1) rest

/-- The additionalProperties violations of the cases, from index `i` on. -/
def schemaViolations : Nat → List Case → List Bytes
  | _, [] => []
  | i, c :: rest => schemaAssertionViolations i c.ID 0 c.Assertions ++ schemaViolations (i + 1) rest

/-- Every violation of a suite, in the order of discovery. -/
def suiteViolations (E : Env) (isNotExist : Str → Bool) (s : Suite) (dir : Str) : List Bytes :=
  headerViolations s ++ collectCases (caseViolations E isNotExist dir) 0 [] s.Cases
    ++ groundingViolations s ++ schemaViolations 0 s.Cases

/-- The six recognised assertion types. -/
def recognisedTypes : List Str :=
  ["exact_match".toList, "contains".toList, "regex".toList, "json_schema".toList,
    "semantic_similarity".toList, "llm_judge".toList]

/-- A case id matches `^[a-z0-9_]{1,32}$`: between 1 and 32 characters, each a lower-case
letter, a digit or `_`. -/
def WellFormedID (id : Str) : Prop :=
  1 ≤ id.length ∧ id.length ≤ 32 ∧
    ∀ c ∈ id, ('a' ≤ c ∧ c ≤ 'z') ∨ ('0' ≤ c ∧ c ≤ '9') ∨ c = '_'

/-- The case `schema_a` with one assertion of the given type and expected value. -/
def caseSchemaA (type : Str) (expected : Value) : Case where
  ID := "schema_a".toList
  Prompt := []
  Assertions := [⟨type, expected, 0⟩]

/-- The schema `type: object`. -/
def schemaObjectOpen : Value :=
  .map [("type".toList, .str "object".toList)]

/-- The schema `type: object, additionalProperties: false`. -/
def schemaObjectClosed : Value :=
  .map [("type".toList, .str "object".toList), ("additionalProperties".toList, .bool false)]

/-- The schema `type: object, additionalProperties: true`. -/
def schemaObjectAllowing : Value :=
  .map [("type".toList, .str "object".toList), ("additionalProperties".toList, .bool true)]

/-- The schema `type: string`. -/
def schemaString : Value :=
  .map [("type".toList, .str "string".toList)]

/-- The duplicate violations of the cases whose id is `x`. -/
def duplicateViolationsOf (x : Str) (cases : List Case) : List Bytes :=
  collectCases (fun i earlier c => if c.ID = x then duplicateViolation i earlier c else [])
    0 [] cases

/-- A case with the id `Bad-ID` and one `contains` assertion for the text `ok`. -/
def caseBadID : Case :=
  caseContainsOk "Bad-ID".toList

/-- A validator result is a failure with an explanation: not passed, and a non-empty
reason. -/
def failsWithReason (r : Bool × Bytes) : Prop :=
  r.1 = false ∧ r.2 ≠ []

/-- The four assertion types `ValidateAssertion` has a validator for. -/
def validatedTypes : List Str :=
  ["contains".toList, "regex".toList, "json_schema".toList, "exact_match".toList]

/-- An assertion of the type `llm_judge` with a text as its expected value. -/
def assertionLLMJudge : Assertion :=
  ⟨"llm_judge".toList, .str "polite".toList, 0⟩

/-- A suite with the docs of the sample suites and every other field filled in: a name, a
capability, a schema, a tool, a grounding configuration with its own citation pattern,
and a case. -/
def suiteOtherFields (docs : List Doc) : Suite where
  Name := "other".toList
  Capability := "grounding".toList
  Docs := docs
  Schemas := [("answer".toList, [("type".toList, .str "object".toList)])]
  Tools := [⟨"search".toList, [], [], []⟩]
  Grounding := ⟨"(ref D/C)".toList, ["d7".toList], ["c9".toList], "\\(ref [a-z]+\\)".toList⟩
  Cases := [caseContainsOk "schema_a".toList]

/-- The running count of a text for a pair of brackets: the number of its opening
brackets minus the number of its closing brackets. -/
def bracketCount (op cl : Char) (s : Str) : Int :=
  (s.count op : Int) - (s.count cl : Int)

/-- A balanced span: a text that starts with the opening bracket and whose running
count returns to zero at its last character and at no earlier position. -/
def BalancedSpan (op cl : Char) (span : Str) : Prop :=
  span.head? = some op ∧ bracketCount op cl span = 0 ∧
    ∀ m, m < span.length → 0 < m → bracketCount op cl (span.take m) ≠ 0

/-- The first span of a text for a pair of brackets: the part of the text from its first
opening bracket to the earliest position where the running count, taken from that
bracket, returns to zero. -/
def IsFirstSpan (op cl : Char) (t span : Str) : Prop :=
  ∃ before after, t = before ++ span ++ after ∧ op ∉ before ∧ BalancedSpan op cl span

/-- A sentence separator: one of `.`, `!`, `?` followed by one or more characters of the
white-space class `\s` of the pattern. -/
def IsSeparator (sep : Str) : Prop :=
  ∃ p ws, sep = p :: ws ∧ (p = '.' ∨ p = '!' ∨ p = '?') ∧ ws ≠ [] ∧ ∀ c ∈ ws, reSpace c = true

/-- The pieces of a content between its separators, in order of appearance: the content
is its pieces with a separator between each two neighbours, no piece contains a
sentence end, and each separator takes all the white space that follows its
punctuation character. -/
inductive SplitsInto : Str → List Str → Prop
  | last (p : Str) : hasSentenceEnd p = false → SplitsInto p [p]
  | more (p sep rest : Str) (ps : List Str) : hasSentenceEnd p = false → IsSeparator sep →
      (rest.head?.map reSpace).getD false = false → SplitsInto rest ps →
      SplitsInto (p ++ sep ++ rest) (p :: ps)

/-- A plain path element: not empty, not `.` and not `..`. -/
def plainElement (e : Str) : Bool :=
  !e.isEmpty && e != ".".toList && e != "..".toList

/-- A clean root: plain elements separated by single `/`, possibly after one leading
`/` (so `fixtures`, `a/b` and `/srv/fx`, and not `./fixtures`, `fx/`, `/` or the empty
root). -/
def IsCleanRoot (root : Str) : Prop :=
  ∃ r, (root = r ∨ root = '/' :: r) ∧ ∀ e ∈ pathElements r, plainElement e = true

/-- A text has a `.`, `!` or `?` that is immediately followed by a white-space character
(white space of Unicode, the white space `TrimSpace` removes). -/
def hasPunctBeforeWhiteSpace : Str → Bool
  | [] => false
  | c :: cs =>
    ((c = '.' || c = '!' || c = '?') && (cs.head?.map unicodeIsSpace).getD false)
      || hasPunctBeforeWhiteSpace cs

/-- A content with four issues: a citation of a missing chunk in a long sentence, a long
sentence without citation, a citation of a missing doc in a short sentence, and another
long sentence without citation. -/
def fourIssues : Str :=
  ("the sky is blue and clear today [doc:d1#c9]. The grass is green and wet now. "
    ++ "see [doc:d9#c1] here. Water is wet and very cold indeed").toList

/-! ## General lemmas -/

theorem foldl_append_flatMap {α β : Type} (f : α → List β) (step : List β → α → List β)
    (l : List α) (init : List β) (h : ∀ acc x, x ∈ l → step acc x = acc ++ f x) :
    l.foldl step init = init ++ l.flatMap f := by
  induction l generalizing init with
  | nil => simp
  | cons a t ih =>
    rw [List.foldl_cons, h init a (List.mem_cons_self a t),
      ih _ (fun acc x hx => h acc x (List.mem_cons_of_mem a hx))]
    simp

theorem validateGroundingCitations_eq (E : Env) (content : Str) (s : Suite) :
    ValidateGroundingCitations E content s =
      (if (unresolvedReasons content s ++ uncitedReasons E content).length > 0 then
        (false, unresolvedReasons content s ++ uncitedReasons E content)
      else (true, [])) := by
  have h1 : ∀ init : List Bytes,
      (extractCitations content).foldl
        (fun failures cit =>
          match BuildDocIndex s cit.DocID with
          | none => failures ++ [msgNonExistentDoc cit]
          | some chunks =>
            if !chunks.getBool cit.ChunkID then failures ++ [msgNonExistentChunk cit]
            else failures) init
        = init ++ (extractCitations content).flatMap (resolveCitation (BuildDocIndex s)) := by
    intro init
    apply foldl_append_flatMap
    intro acc cit _
    unfold resolveCitation
    cases BuildDocIndex s cit.DocID with
    | none => rfl
    | some chunks => cases h : chunks.getBool cit.ChunkID <;> simp [h]
  have h2 : ∀ init : List Bytes,
      (splitIntoSentences content).foldl
        (fun failures sentence =>
          if isOnlyCitations E sentence || isHeading E sentence then failures
          else
            let tokens := countTokens sentence
            if tokens ≥ 6 then
              if !containsCitation sentence then failures ++ [msgLacksCitation tokens sentence]
              else failures
            else failures) init
        = init ++ (splitIntoSentences content).flatMap (sentenceReasons E) := by
    intro init
    apply foldl_append_flatMap
    intro acc x _
    unfold sentenceReasons
    by_cases hs : (isOnlyCitations E x || isHeading E x) = true
    · simp [hs]
    · by_cases ht : 6 ≤ countTokens x
      · cases hc : containsCitation x <;> simp [hs, ht, hc]
      · simp [hs, ht]
  unfold ValidateGroundingCitations
  simp only [h1, h2, List.nil_append]
  rfl

theorem all_dropWhile_of_imp {p q : Char → Bool} (h : ∀ c, p c = true → q c = true) (t : Str) :
    (t.dropWhile p).all q = t.all q := by
  induction t with
  | nil => rfl
  | cons a t ih =>
    by_cases ha : p a = true
    · simp only [List.dropWhile_cons, ha, if_true, ih, List.all_cons, h a ha, Bool.true_and]
    · simp [List.dropWhile_cons, ha]

theorem all_rdropWhile_of_imp {p q : Char → Bool} (h : ∀ c, p c = true → q c = true) (t : Str) :
    (t.rdropWhile p).all q = t.all q := by
  unfold List.rdropWhile
  rw [List.all_reverse, all_dropWhile_of_imp h, List.all_reverse]

theorem all_trimSpace {q : Char → Bool} (h : ∀ c, unicodeIsSpace c = true → q c = true)
    (t : Str) : (TrimSpace t).all q = t.all q := by
  unfold TrimSpace
  rw [all_rdropWhile_of_imp h, all_dropWhile_of_imp h]

theorem isOnlyCitations_eq (E : Env) (x : Str) :
    isOnlyCitations E x = !notCitationOnly E x := by
  unfold isOnlyCitations notCitationOnly
  simp only []
  rw [all_trimSpace]
  · simp [List.all_eq_not_any_not]
  · intro c hc
    simp [hc]

theorem dropWhile_of_prefix_dropWhile (p : Char → Bool) (t A : Str)
    (hA : A <+: t.dropWhile p) : A.dropWhile p = A := by
  cases A with
  | nil => rfl
  | cons a A' =>
    obtain ⟨r, hr⟩ := hA
    have hl2 : 0 < (t.dropWhile p).length := by rw [← hr]; simp
    have h0 := List.dropWhile_get_zero_not p t hl2
    have ha : (t.dropWhile p).get ⟨0, hl2⟩ = a := by
      simp only [List.get_eq_getElem]
      simp [← hr]
    rw [ha] at h0
    simp [List.dropWhile_cons, h0]

theorem trimSpace_idem (t : Str) : TrimSpace (TrimSpace t) = TrimSpace t := by
  unfold TrimSpace
  rw [dropWhile_of_prefix_dropWhile unicodeIsSpace t _ (List.rdropWhile_prefix _ _),
    List.rdropWhile_idempotent]



theorem splitIntoSentences_eq (content : Str) :
    splitIntoSentences content =
      (splitSentenceEnds false content).flatMap
        (fun part => if TrimSpace part ≠ [] then [TrimSpace part] else []) := by
  unfold splitIntoSentences
  simp only []
  rw [foldl_append_flatMap (fun part => if TrimSpace part ≠ [] then [TrimSpace part] else [])]
  · simp
  · intro acc x _
    by_cases h : TrimSpace x = [] <;> simp [h]

theorem mem_splitIntoSentences {content x : Str} (h : x ∈ splitIntoSentences content) :
    ∃ part ∈ splitSentenceEnds false content, x = TrimSpace part ∧ x ≠ [] := by
  rw [splitIntoSentences_eq, List.mem_flatMap] at h
  obtain ⟨part, hp, hx⟩ := h
  refine ⟨part, hp, ?_⟩
  by_cases hne : TrimSpace part = []
  · simp [hne] at hx
  · simp only [ne_eq, hne, not_false_eq_true, if_true, List.mem_singleton] at hx
    exact ⟨hx, hx ▸ hne⟩

theorem trimSpace_of_mem_sentences {content x : Str} (h : x ∈ splitIntoSentences content) :
    TrimSpace x = x := by
  obtain ⟨part, _, hx, _⟩ := mem_splitIntoSentences h
  rw [hx, trimSpace_idem]

theorem hasPrefix_hash (x : Str) : HasPrefix x "#".toList = decide (x.head? = some '#') := by
  cases x with
  | nil => rfl
  | cons a t =>
    by_cases h : a = '#'
    · subst h; simp [HasPrefix, List.isPrefixOf]
    · have h2 : ¬ '#' = a := fun e => h e.symm
      simp [HasPrefix, List.isPrefixOf, h, h2]

theorem contains_dot (x : Str) : Contains x ".".toList = x.contains '.' := by
  unfold Contains
  have : (".".toList <:+: x) ↔ '.' ∈ x := by
    show ['.'] <:+: x ↔ _
    constructor
    · rintro ⟨a, b, h⟩
      rw [← h]
      simp
    · intro h
      obtain ⟨a, b, h⟩ := List.append_of_mem h
      exact ⟨a, b, by simp [h]⟩
  simp only [this]
  cases h : x.contains '.'
  · have : ¬ '.' ∈ x := by simpa using h
    simp [this]
  · have : '.' ∈ x := by simpa using h
    simp [this]

theorem isHeading_eq (E : Env) (x : Str) (hx : TrimSpace x = x) :
    isHeading E x = looksLikeHeading E len x := by
  unfold isHeading looksLikeHeading
  simp only [hx, hasPrefix_hash, contains_dot]
  by_cases h1 : x.head? = some '#'
  · simp [h1]
  · by_cases h2 : len x < 50 <;> by_cases h3 : ToUpper E x = x <;>
      cases h4 : x.contains '.' <;> simp [h1, h2, h3, h4]



theorem flatMap_ite_singleton {α β : Type} (p : α → Bool) (g : α → β) (l : List α) :
    l.flatMap (fun x => if p x = true then [g x] else []) = (l.filter p).map g := by
  induction l with
  | nil => rfl
  | cons a t ih =>
    cases h : p a <;> simp [List.filter_cons, h, ih]

theorem sentenceReasons_eq (E : Env) (x : Str) (hx : TrimSpace x = x) :
    sentenceReasons E x =
      if mustCite E len x = true then [msgLacksCitation (countTokens x) x] else [] := by
  unfold sentenceReasons mustCite
  rw [isOnlyCitations_eq, isHeading_eq E x hx]
  cases notCitationOnly E x <;> cases looksLikeHeading E len x <;>
    cases containsCitation x <;> by_cases h : 6 ≤ countTokens x <;> simp [h]

theorem uncitedReasons_eq (E : Env) (content : Str) :
    uncitedReasons E content =
      ((splitIntoSentences content).filter (mustCite E len)).map
        (fun x => msgLacksCitation (countTokens x) x) := by
  unfold uncitedReasons
  rw [← flatMap_ite_singleton]
  have : ∀ l : List Str, (∀ x ∈ l, TrimSpace x = x) →
      l.flatMap (sentenceReasons E) =
        l.flatMap (fun x =>
          if mustCite E len x = true then [msgLacksCitation (countTokens x) x] else []) := by
    intro l hl
    induction l with
    | nil => rfl
    | cons a t ih =>
      simp only [List.flatMap_cons]
      rw [sentenceReasons_eq E a (hl a (List.mem_cons_self a t)),
        ih (fun x hx => hl x (List.mem_cons_of_mem a hx))]
  exact this _ (fun x hx => trimSpace_of_mem_sentences hx)

theorem isLacks_msgLacksCitation (n : Nat) (x : Str) :
    isLacksCitationReason (msgLacksCitation n x) = true := by
  unfold isLacksCitationReason msgLacksCitation
  have e : utf8 "sentence with ".toList = utf8 "sentence ".toList ++ utf8 "with ".toList := by
    decide
  rw [e, List.isPrefixOf_iff_prefix]
  simp only [List.append_assoc]
  exact List.prefix_append _ _

theorem isResolution_msgLacksCitation (n : Nat) (x : Str) :
    isResolutionReason (msgLacksCitation n x) = false := by
  unfold isResolutionReason msgLacksCitation
  have e1 : utf8 "sentence with ".toList = (115 : UInt8) :: utf8 "entence with ".toList := by
    decide
  have e2 : utf8 "citation ".toList = (99 : UInt8) :: utf8 "itation ".toList := by decide
  rw [e1, e2]
  simp [List.isPrefixOf]

theorem isLacks_msgNonExistentDoc (cit : Citation) :
    isLacksCitationReason (msgNonExistentDoc cit) = false := by
  unfold isLacksCitationReason msgNonExistentDoc
  have e1 : utf8 "citation [doc:".toList = (99 : UInt8) :: utf8 "itation [doc:".toList := by
    decide
  have e2 : utf8 "sentence ".toList = (115 : UInt8) :: utf8 "entence ".toList := by decide
  rw [e1, e2]
  simp [List.isPrefixOf]

theorem isLacks_msgNonExistentChunk (cit : Citation) :
    isLacksCitationReason (msgNonExistentChunk cit) = false := by
  unfold isLacksCitationReason msgNonExistentChunk
  have e1 : utf8 "citation [doc:".toList = (99 : UInt8) :: utf8 "itation [doc:".toList := by
    decide
  have e2 : utf8 "sentence ".toList = (115 : UInt8) :: utf8 "entence ".toList := by decide
  rw [e1, e2]
  simp [List.isPrefixOf]

theorem isResolution_msgNonExistentDoc (cit : Citation) :
    isResolutionReason (msgNonExistentDoc cit) = true := by
  unfold isResolutionReason msgNonExistentDoc
  have e : utf8 "citation [doc:".toList = utf8 "citation ".toList ++ utf8 "[doc:".toList := by
    decide
  rw [e, List.isPrefixOf_iff_prefix]
  simp only [List.append_assoc]
  exact List.prefix_append _ _

theorem isResolution_msgNonExistentChunk (cit : Citation) :
    isResolutionReason (msgNonExistentChunk cit) = true := by
  unfold isResolutionReason msgNonExistentChunk
  have e : utf8 "citation [doc:".toList = utf8 "citation ".toList ++ utf8 "[doc:".toList := by
    decide
  rw [e, List.isPrefixOf_iff_prefix]
  simp only [List.append_assoc]
  exact List.prefix_append _ _

theorem mem_resolveCitation {idx : GoMap (GoMap Bool)} {cit : Citation} {r : Bytes}
    (h : r ∈ resolveCitation idx cit) : r = msgNonExistentDoc cit ∨ r = msgNonExistentChunk cit := by
  unfold resolveCitation at h
  cases hi : idx cit.DocID with
  | none => simp [hi] at h; exact Or.inl h
  | some chunks =>
    cases hc : chunks.getBool cit.ChunkID
    · simp [hi, hc] at h; exact Or.inr h
    · simp [hi, hc] at h

theorem filter_isLacks_unresolved (content : Str) (s : Suite) :
    (unresolvedReasons content s).filter isLacksCitationReason = [] := by
  rw [List.filter_eq_nil_iff]
  intro r hr
  unfold unresolvedReasons at hr
  rw [List.mem_flatMap] at hr
  obtain ⟨cit, _, hr⟩ := hr
  rcases mem_resolveCitation hr with h | h <;> rw [h]
  · simp [isLacks_msgNonExistentDoc]
  · simp [isLacks_msgNonExistentChunk]

theorem filter_isLacks_uncited (E : Env) (content : Str) :
    (uncitedReasons E content).filter isLacksCitationReason = uncitedReasons E content := by
  rw [List.filter_eq_self]
  intro r hr
  rw [uncitedReasons_eq, List.mem_map] at hr
  obtain ⟨x, _, hx⟩ := hr
  rw [← hx]
  exact isLacks_msgLacksCitation _ _

theorem validateGroundingCitations_snd (E : Env) (content : Str) (s : Suite) :
    (ValidateGroundingCitations E content s).2 =
      unresolvedReasons content s ++ uncitedReasons E content := by
  rw [validateGroundingCitations_eq]
  cases h : unresolvedReasons content s ++ uncitedReasons E content with
  | nil => simp
  | cons a t => simp

/-- C1 (as amended): the reasons for a sentence that lacks a citation are exactly, in
sentence order, one per sentence of `splitIntoSentences content` that is not
citation-only, does not look like a heading (it does not start with `#`, and it is
not the case that it is under 50 bytes in UTF-8, has no `.` and equals its own
upper-casing), has at least 6 tokens and contains no citation match. -/
theorem C1_lacks_citation_reasons (E : Env) (content : Str) (s : Suite) :
    (ValidateGroundingCitations E content s).2.filter isLacksCitationReason =
      ((splitIntoSentences content).filter (mustCite E len)).map
        (fun x => msgLacksCitation (countTokens x) x) := by
  rw [validateGroundingCitations_snd, List.filter_append, filter_isLacks_unresolved,
    filter_isLacks_uncited, List.nil_append, uncitedReasons_eq]

/-- C1 (counterexample): with the heading test counting characters, a sentence of 23
characters and 59 bytes, all caseless, is exempt by the claim and reported by the
validator. -/
theorem C1_counterexample_length_in_characters :
    (ValidateGroundingCitations sampleEnv sixKanjiWords (sampleSuite [] [])).2.filter
        isLacksCitationReason ≠
      ((splitIntoSentences sixKanjiWords).filter (mustCite sampleEnv List.length)).map
        (fun x => msgLacksCitation (countTokens x) x) := by
  decide
theorem fieldsFunc_cons (f : Char → Bool) (c : Char) (cs : Str) :
    FieldsFunc f (c :: cs) =
      if f c then FieldsFunc f cs
      else
        match cs with
        | [] => [[c]]
        | d :: _ =>
          if f d then [c] :: FieldsFunc f cs
          else
            match FieldsFunc f cs with
            | t :: ts => (c :: t) :: ts
            | [] => [[c]] := by
  cases cs <;> rfl

theorem fieldsFunc_nil (f : Char → Bool) : FieldsFunc f [] = [] := rfl

theorem fieldsFunc_ne_nil (f : Char → Bool) (c : Char) (cs : Str) (hc : f c = false) :
    FieldsFunc f (c :: cs) ≠ [] := by
  rw [fieldsFunc_cons]
  simp only [hc, Bool.false_eq_true, if_false]
  cases cs with
  | nil => simp
  | cons d ds =>
    simp only []
    split
    · simp
    · split <;> simp

theorem fieldsFunc_length_cons (f : Char → Bool) (c : Char) (cs : Str) :
    (FieldsFunc f cs).length ≤ (FieldsFunc f (c :: cs)).length := by
  rw [fieldsFunc_cons]
  by_cases hc : f c = true
  · simp [hc]
  · simp only [hc, if_false]
    cases cs with
    | nil => simp [fieldsFunc_nil]
    | cons d ds =>
      simp only []
      by_cases hd : f d = true
      · simp [hd]
      · simp only [hd, if_false]
        cases h : FieldsFunc f (d :: ds) with
        | nil => simp
        | cons t ts => simp

theorem fieldsFunc_length_append (f : Char → Bool) (s t : Str) :
    (FieldsFunc f s).length ≤ (FieldsFunc f (s ++ t)).length := by
  induction s with
  | nil => simp [fieldsFunc_nil]
  | cons c cs ih =>
    by_cases hc : f c = true
    · rw [List.cons_append, fieldsFunc_cons f c cs, fieldsFunc_cons f c (cs ++ t)]
      simp only [hc, if_true]; exact ih
    · have hc' : f c = false := by simpa using hc
      cases cs with
      | nil =>
        have h1 := fieldsFunc_ne_nil f c t hc'
        have h2 : FieldsFunc f [c] = [[c]] := by rw [fieldsFunc_cons]; simp [hc']
        rw [h2]
        cases e : FieldsFunc f ([c] ++ t) with
        | nil => exact absurd e h1
        | cons a as => simp
      | cons d ds =>
        rw [List.cons_append, List.cons_append, fieldsFunc_cons f c (d :: ds),
          fieldsFunc_cons f c (d :: (ds ++ t))]
        simp only [hc, if_false]
        by_cases hd : f d = true
        · simp only [hd, if_true, List.length_cons]
          exact Nat.succ_le_succ ih
        · simp only [hd, if_false]
          have hd' : f d = false := by simpa using hd
          have h1 := fieldsFunc_ne_nil f d ds hd'
          have h2 := fieldsFunc_ne_nil f d (ds ++ t) hd'
          cases e1 : FieldsFunc f (d :: ds) with
          | nil => exact absurd e1 h1
          | cons a as =>
            cases e2 : FieldsFunc f (d :: (ds ++ t)) with
            | nil => exact absurd e2 h2
            | cons b bs =>
              have := ih
              simp only [List.cons_append, e1, e2, List.length_cons] at this
              simpa using this

theorem fieldsFunc_length_of_isInfix (f : Char → Bool) {x s : Str} (h : x <:+: s) :
    (FieldsFunc f x).length ≤ (FieldsFunc f s).length := by
  obtain ⟨a, b, rfl⟩ := h
  have h1 : (FieldsFunc f x).length ≤ (FieldsFunc f (x ++ b)).length :=
    fieldsFunc_length_append f x b
  have h2 : ∀ a : Str, (FieldsFunc f (x ++ b)).length ≤ (FieldsFunc f (a ++ (x ++ b))).length := by
    intro a
    induction a with
    | nil => simp
    | cons c cs ih => exact Nat.le_trans ih (fieldsFunc_length_cons f c _)
  rw [List.append_assoc]
  exact Nat.le_trans h1 (h2 a)

theorem countTokens_le_of_isInfix {x s : Str} (h : x <:+: s) : countTokens x ≤ countTokens s :=
  fieldsFunc_length_of_isInfix _ h

theorem trimSpace_isInfix (s : Str) : TrimSpace s <:+: s := by
  unfold TrimSpace
  exact (List.rdropWhile_prefix _ _).isInfix.trans (List.dropWhile_suffix _).isInfix

theorem splitSentenceEnds_pieces (b : Bool) (s : Str) :
    ∃ p ps, splitSentenceEnds b s = p :: ps ∧ (b = false → p <+: s) ∧ p <:+: s ∧
      ∀ q ∈ ps, q <:+: s := by
  induction s generalizing b with
  | nil => exact ⟨[], [], rfl, fun _ => List.prefix_refl _, List.infix_refl _, by simp⟩
  | cons c cs ih =>
    rw [splitSentenceEnds]
    by_cases h1 : (b && reSpace c) = true
    · obtain ⟨p, ps, e, _, hp, hq⟩ := ih true
      have hb : b = true := by
        cases b
        · simp at h1
        · rfl
      refine ⟨p, ps, by simp [h1, e], ?_, ?_, ?_⟩
      · intro hf; simp [hb] at hf
      · exact hp.trans (List.suffix_cons c cs).isInfix
      · intro q hq'; exact (hq q hq').trans (List.suffix_cons c cs).isInfix
    · rw [if_neg h1]
      by_cases h2 : ((c = '.' || c = '!' || c = '?') && (cs.head?.map reSpace).getD false) = true
      · obtain ⟨p, ps, e, _, hp, hq⟩ := ih true
        refine ⟨[], p :: ps, by rw [if_pos h2, e], fun _ => List.nil_prefix,
          List.nil_infix, ?_⟩
        intro q hq'
        rcases List.mem_cons.mp hq' with h | h
        · rw [h]; exact hp.trans (List.suffix_cons c cs).isInfix
        · exact (hq q h).trans (List.suffix_cons c cs).isInfix
      · rw [if_neg h2]
        obtain ⟨p, ps, e, hpre, _, hq⟩ := ih false
        refine ⟨c :: p, ps, by simp [e], ?_, ?_, ?_⟩
        · intro _
          obtain ⟨r, hr⟩ := hpre rfl
          exact ⟨r, by simp [hr]⟩
        · obtain ⟨r, hr⟩ := hpre rfl
          exact (List.IsPrefix.isInfix ⟨r, by simp [hr]⟩)
        · intro q hq'; exact (hq q hq').trans (List.suffix_cons c cs).isInfix

theorem infix_of_mem_sentences {content x : Str} (h : x ∈ splitIntoSentences content) :
    x <:+: content := by
  obtain ⟨part, hp, hx, _⟩ := mem_splitIntoSentences h
  obtain ⟨p, ps, e, _, hp1, hq⟩ := splitSentenceEnds_pieces false content
  rw [e] at hp
  rw [hx]
  rcases List.mem_cons.mp hp with h | h
  · rw [h]; exact (trimSpace_isInfix p).trans hp1
  · exact (trimSpace_isInfix part).trans (hq part h)

theorem findAllCitations_eq_nil (s : Str) (h : containsCitation s = false) (k : Nat) :
    findAllCitations k s = [] := by
  induction s generalizing k with
  | nil => cases k <;> rfl
  | cons c cs ih =>
    rw [containsCitation, Bool.or_eq_false_iff] at h
    cases k with
    | zero =>
      rw [findAllCitations]
      have : matchCitationAt (c :: cs) = none := by
        cases hm : matchCitationAt (c :: cs) with
        | none => rfl
        | some v => rw [hm] at h; simp at h
      simp only [this]
      exact ih h.2 0
    | succ k =>
      rw [findAllCitations]
      exact ih h.2 k

/-- C3: a content with at most 5 tokens and no citation occurrence passes grounding with
no failure reason, however it is segmented into sentences. -/
theorem C3_short_uncited_content_passes (E : Env) (content : Str) (s : Suite)
    (h5 : countTokens content ≤ 5) (hc : containsCitation content = false) :
    ValidateGroundingCitations E content s = (true, []) := by
  have h1 : unresolvedReasons content s = [] := by
    unfold unresolvedReasons extractCitations
    rw [findAllCitations_eq_nil content hc 0]
    rfl
  have h2 : uncitedReasons E content = [] := by
    unfold uncitedReasons
    rw [List.flatMap_eq_nil_iff]
    intro x hx
    have hle : countTokens x ≤ 5 :=
      Nat.le_trans (countTokens_le_of_isInfix (infix_of_mem_sentences hx)) h5
    have : ¬ 6 ≤ countTokens x := by omega
    unfold sentenceReasons
    simp [this]
  rw [validateGroundingCitations_eq, h1, h2]
  rfl

/-- C3 (witness): the five-token content `the sky is very blue`, and the empty content. -/
theorem C3_short_uncited_content_passes_witness :
    countTokens "the sky is very blue".toList ≤ 5 ∧
      ValidateGroundingCitations sampleEnv "the sky is very blue".toList (sampleSuite [] [])
        = (true, []) ∧
      ValidateGroundingCitations sampleEnv [] (sampleSuite [] []) = (true, []) :=
  ⟨by decide,
    C3_short_uncited_content_passes sampleEnv _ _ (by decide) (by decide),
    C3_short_uncited_content_passes sampleEnv _ _ (by decide) (by decide)⟩
/-- C2 (as amended): for every suite, a content that is a single sentence with exactly 6
tokens and no citation occurrence, and that is neither citation-only nor heading-like,
fails grounding. -/
theorem C2_six_token_uncited_sentence_fails (E : Env) (content x : Str) (s : Suite)
    (h1 : splitIntoSentences content = [x]) (h6 : countTokens x = 6)
    (hc : containsCitation x = false) (hn : notCitationOnly E x = true)
    (hh : looksLikeHeading E len x = false) :
    (ValidateGroundingCitations E content s).1 = false := by
  have hm : mustCite E len x = true := by
    unfold mustCite
    simp [hn, hh, h6, hc]
  have hu : uncitedReasons E content = [msgLacksCitation (countTokens x) x] := by
    rw [uncitedReasons_eq, h1]
    simp [List.filter_cons, hm]
  rw [validateGroundingCitations_eq, hu]
  simp

/-- C2 (witness): the sentence `the sky is blue and clear`. -/
theorem C2_six_token_uncited_sentence_fails_witness :
    splitIntoSentences "the sky is blue and clear".toList = ["the sky is blue and clear".toList] ∧
      countTokens "the sky is blue and clear".toList = 6 ∧
      (ValidateGroundingCitations sampleEnv "the sky is blue and clear".toList
        (sampleSuite [] [])).1 = false :=
  ⟨by decide, by decide,
    C2_six_token_uncited_sentence_fails sampleEnv "the sky is blue and clear".toList
      "the sky is blue and clear".toList (sampleSuite [] []) (by decide) (by decide) (by decide)
      (by decide) (by decide)⟩

/-- C2 (counterexample): the content `A B C D E F` is a single sentence with exactly 6
tokens and no citation occurrence, and it passes grounding: it is all upper case, under
50 bytes and has no `.`, so the heading test exempts it. -/
theorem C2_counterexample_upper_case_sentence :
    splitIntoSentences "A B C D E F".toList = ["A B C D E F".toList] ∧
      countTokens "A B C D E F".toList = 6 ∧
      containsCitation "A B C D E F".toList = false ∧
      (ValidateGroundingCitations sampleEnv "A B C D E F".toList (sampleSuite [] [])).1 = true := by
  decide
theorem char_le_iff (a b : Char) : a ≤ b ↔ a.toNat ≤ b.toNat := by
  rfl

theorem char_eq_iff (a b : Char) : a = b ↔ a.toNat = b.toNat := by
  constructor
  · intro h; rw [h]
  · intro h
    apply Char.ext
    apply UInt32.ext
    exact h

theorem isDocIDChar_not_space (c : Char) (h : isDocIDChar c = true) : unicodeIsSpace c = false := by
  unfold isDocIDChar at h
  unfold unicodeIsSpace
  simp only [Bool.or_eq_true, Bool.and_eq_true, decide_eq_true_eq, char_le_iff, char_eq_iff] at h
  have e1 : 'a'.toNat = 97 := by decide
  have e2 : 'z'.toNat = 122 := by decide
  have e3 : '0'.toNat = 48 := by decide
  have e4 : '9'.toNat = 57 := by decide
  have e5 : '_'.toNat = 95 := by decide
  have e6 : '-'.toNat = 45 := by decide
  rw [e1, e2, e3, e4, e5, e6] at h
  have : c.toNat ≤ 0xFF := by omega
  simp only [this, if_true]
  simp only [Bool.or_eq_false_iff, decide_eq_false_iff_not]
  omega

theorem stripLiteral_eq_some (p s r : Str) : stripLiteral p s = some r ↔ s = p ++ r := by
  induction p generalizing s with
  | nil => simp [stripLiteral, eq_comm]
  | cons a p ih =>
    cases s with
    | nil => simp [stripLiteral]
    | cons c cs =>
      by_cases h : c = a
      · subst h; simp [stripLiteral, ih]
      · simp [stripLiteral, h]

theorem matchCitationAt_eq_some {s : Str} {cit : Citation} (h : matchCitationAt s = some cit) :
    ∃ doc d ds rest, CitationParts doc d ds ∧ s = (mkCitation doc d ds).Full ++ rest ∧
      cit = mkCitation doc d ds := by
  unfold matchCitationAt at h
  split at h
  · exact absurd h (by simp)
  · rename_i r hr
    rw [stripLiteral_eq_some] at hr
    simp only [] at h
    split at h
    · exact absurd h (by simp)
    · rename_i hdoc
      split at h
      · rename_i hh c d r2 hdrop
        split at h
        · rename_i hcond
          simp only [Bool.and_eq_true, decide_eq_true_eq] at hcond
          obtain ⟨⟨h1, h2⟩, h3⟩ := hcond
          split at h
          · rename_i b rest hdrop2
            split at h
            · rename_i hb
              refine ⟨r.takeWhile isDocIDChar, d, r2.takeWhile isDigit09, rest, ?_, ?_, ?_⟩
              · exact ⟨hdoc, fun c hc => List.mem_takeWhile_imp hc, h3,
                  fun c hc => List.mem_takeWhile_imp hc⟩
              · have e1 := List.takeWhile_append_dropWhile isDocIDChar r
                have e2 := List.takeWhile_append_dropWhile isDigit09 r2
                rw [hdrop] at e1
                rw [hdrop2] at e2
                subst h1 h2 hb
                rw [hr]
                simp only [mkCitation, List.append_assoc, List.cons_append, List.nil_append]
                rw [e2, e1]
              · simp only [Option.some.injEq] at h
                rw [← h]
                rfl
            · exact absurd h (by simp)
          · exact absurd h (by simp)
        · exact absurd h (by simp)
      · exact absurd h (by simp)

theorem matchCitationAt_full_append {doc : Str} {d : Char} {ds : Str}
    (hp : CitationParts doc d ds) (rest : Str) :
    matchCitationAt ((mkCitation doc d ds).Full ++ rest) = some (mkCitation doc d ds) := by
  obtain ⟨hne, hdoc, hd, hds⟩ := hp
  have hs : stripLiteral "[doc:".toList ((mkCitation doc d ds).Full ++ rest)
      = some (doc ++ '#' :: 'c' :: d :: (ds ++ ']' :: rest)) := by
    rw [stripLiteral_eq_some]
    simp [mkCitation]
  have ht : (doc ++ '#' :: 'c' :: d :: (ds ++ ']' :: rest)).takeWhile isDocIDChar = doc := by
    rw [List.takeWhile_append_of_pos hdoc]
    simp [List.takeWhile_cons, show isDocIDChar '#' = false by decide]
  have hdr : (doc ++ '#' :: 'c' :: d :: (ds ++ ']' :: rest)).dropWhile isDocIDChar
      = '#' :: 'c' :: d :: (ds ++ ']' :: rest) := by
    rw [List.dropWhile_append_of_pos hdoc]
    simp [List.dropWhile_cons, show isDocIDChar '#' = false by decide]
  have ht2 : (ds ++ ']' :: rest).takeWhile isDigit09 = ds := by
    rw [List.takeWhile_append_of_pos hds]
    simp [List.takeWhile_cons, show isDigit09 ']' = false by decide]
  have hdr2 : (ds ++ ']' :: rest).dropWhile isDigit09 = ']' :: rest := by
    rw [List.dropWhile_append_of_pos hds]
    simp [List.dropWhile_cons, show isDigit09 ']' = false by decide]
  unfold matchCitationAt
  rw [hs]
  simp only [ht, hdr, ht2, hdr2, hne, if_false, hd]
  simp [mkCitation]
theorem head_of_matchCitationAt {t : Str} {cit : Citation} (h : matchCitationAt t = some cit) :
    ∃ r, t = '[' :: r := by
  obtain ⟨doc, d, ds, rest, _, ht, _⟩ := matchCitationAt_eq_some h
  exact ⟨"doc:".toList ++ doc ++ '#' :: 'c' :: d :: ds ++ [']'] ++ rest, by
    rw [ht]; simp [mkCitation]⟩

theorem containsCitation_cons (c : Char) (cs : Str) :
    containsCitation (c :: cs) = ((matchCitationAt (c :: cs)).isSome || containsCitation cs) :=
  rfl

theorem containsCitation_iff (s : Str) :
    containsCitation s = true ↔ ∃ t cit, t <:+ s ∧ matchCitationAt t = some cit := by
  induction s with
  | nil =>
    constructor
    · intro h; exact absurd h (by simp [containsCitation])
    · rintro ⟨t, cit, ht, hm⟩
      have : t = [] := List.suffix_nil.mp ht
      subst this
      obtain ⟨r, hr⟩ := head_of_matchCitationAt hm
      exact absurd hr (by simp)
  | cons c cs ih =>
    rw [containsCitation_cons, Bool.or_eq_true, ih]
    constructor
    · rintro (h | ⟨t, cit, ht, hm⟩)
      · obtain ⟨cit, hc⟩ := Option.isSome_iff_exists.mp h
        exact ⟨c :: cs, cit, List.suffix_refl _, hc⟩
      · exact ⟨t, cit, ht.trans (List.suffix_cons c cs), hm⟩
    · rintro ⟨t, cit, ht, hm⟩
      rcases List.suffix_cons_iff.mp ht with h | h
      · left; rw [← h, hm]; rfl
      · right; exact ⟨t, cit, h, hm⟩

theorem mem_findAllCitations {s : Str} {k : Nat} {cit : Citation}
    (h : cit ∈ findAllCitations k s) : ∃ t, t <:+ s ∧ matchCitationAt t = some cit := by
  induction s generalizing k with
  | nil => cases k <;> simp [findAllCitations] at h
  | cons c cs ih =>
    cases k with
    | succ k =>
      rw [findAllCitations] at h
      obtain ⟨t, ht, hm⟩ := ih h
      exact ⟨t, ht.trans (List.suffix_cons c cs), hm⟩
    | zero =>
      rw [findAllCitations] at h
      cases hm : matchCitationAt (c :: cs) with
      | none =>
        rw [hm] at h
        obtain ⟨t, ht, hm'⟩ := ih h
        exact ⟨t, ht.trans (List.suffix_cons c cs), hm'⟩
      | some v =>
        rw [hm] at h
        rcases List.mem_cons.mp h with h | h
        · exact ⟨c :: cs, List.suffix_refl _, by rw [hm, h]⟩
        · obtain ⟨t, ht, hm'⟩ := ih h
          exact ⟨t, ht.trans (List.suffix_cons c cs), hm'⟩

theorem isCitationText_of_match {t : Str} {cit : Citation} (h : matchCitationAt t = some cit) :
    IsCitationText cit.DocID cit.ChunkID cit.Full := by
  obtain ⟨doc, d, ds, rest, ⟨hne, hdoc, hd, hds⟩, _, hc⟩ := matchCitationAt_eq_some h
  subst hc
  exact ⟨hne, hdoc, ⟨d, ds, rfl, hd, hds⟩, by simp [mkCitation]⟩

theorem matchCitationAt_leading_zero (doc rest : Str) (hdoc : ∀ c ∈ doc, isDocIDChar c = true) :
    matchCitationAt ("[doc:".toList ++ doc ++ '#' :: 'c' :: '0' :: rest) = none := by
  have hs : stripLiteral "[doc:".toList ("[doc:".toList ++ doc ++ '#' :: 'c' :: '0' :: rest)
      = some (doc ++ '#' :: 'c' :: '0' :: rest) := by
    rw [stripLiteral_eq_some]
    simp
  have hdr : (doc ++ '#' :: 'c' :: '0' :: rest).dropWhile isDocIDChar
      = '#' :: 'c' :: '0' :: rest := by
    rw [List.dropWhile_append_of_pos hdoc]
    simp [List.dropWhile_cons, show isDocIDChar '#' = false by decide]
  unfold matchCitationAt
  rw [hs]
  simp only [hdr]
  split
  · rfl
  · simp [show isDigit19 '0' = false by decide]

theorem isDocIDChar_ne_bracket (c : Char) (h : isDocIDChar c = true) : c ≠ '[' := by
  intro e
  subst e
  exact absurd h (by decide)

theorem isDigit09_ne_bracket (c : Char) (h : isDigit09 c = true) : c ≠ '[' := by
  intro e
  subst e
  exact absurd h (by decide)

theorem containsCitation_leading_zero (doc ds : Str) (hdoc : ∀ c ∈ doc, isDocIDChar c = true)
    (hds : ∀ c ∈ ds, isDigit09 c = true) :
    containsCitation ("[doc:".toList ++ doc ++ "#c0".toList ++ ds ++ "]".toList) = false := by
  cases hcc : containsCitation ("[doc:".toList ++ doc ++ "#c0".toList ++ ds ++ "]".toList) with
  | false => rfl
  | true =>
    exfalso
    obtain ⟨t, cit, ht, hm⟩ := (containsCitation_iff _).mp hcc
    have hS : "[doc:".toList ++ doc ++ "#c0".toList ++ ds ++ "]".toList
        = '[' :: ("doc:".toList ++ doc ++ "#c0".toList ++ ds ++ "]".toList) := by simp
    have hS2 : "[doc:".toList ++ doc ++ "#c0".toList ++ ds ++ "]".toList
        = "[doc:".toList ++ doc ++ '#' :: 'c' :: '0' :: (ds ++ "]".toList) := by simp
    obtain ⟨r, hr⟩ := head_of_matchCitationAt hm
    rw [hS] at ht
    rcases List.suffix_cons_iff.mp ht with h | h
    · rw [h, ← hS, hS2, matchCitationAt_leading_zero doc _ hdoc] at hm
      exact absurd hm (by simp)
    · have hmem : '[' ∈ "doc:".toList ++ doc ++ "#c0".toList ++ ds ++ "]".toList := by
        obtain ⟨pre, hpre⟩ := h
        rw [← hpre, hr]
        simp
      simp only [List.mem_append] at hmem
      rcases hmem with (((h1 | h1) | h1) | h1) | h1
      · exact absurd h1 (by decide)
      · exact isDocIDChar_ne_bracket _ (hdoc _ h1) rfl
      · exact absurd h1 (by decide)
      · exact isDigit09_ne_bracket _ (hds _ h1) rfl
      · exact absurd h1 (by decide)

/-- C6: every citation that `extractCitations` returns has the text `[doc:D#C]` with `D`
a non-empty run over `[a-z0-9_-]`, `C` the letter `c` followed by a digit from 1 to 9
and further digits, `DocID = D` and `ChunkID = C`.  A near-match whose chunk id starts
with `c0` (such as `c0` and `c01`) is not extracted and is no citation match, so a
sentence that holds only such a near-match gets no unresolved-citation reason and is
reported as lacking a citation. -/
theorem C6_extracted_citations_follow_grammar :
    (∀ (content : Str) (cit : Citation), cit ∈ extractCitations content →
        IsCitationText cit.DocID cit.ChunkID cit.Full) ∧
      (∀ doc ds : Str, (∀ c ∈ doc, isDocIDChar c = true) → (∀ c ∈ ds, isDigit09 c = true) →
        extractCitations ("[doc:".toList ++ doc ++ "#c0".toList ++ ds ++ "]".toList) = [] ∧
        containsCitation ("[doc:".toList ++ doc ++ "#c0".toList ++ ds ++ "]".toList) = false) ∧
      extractCitations "[doc:d1#c0]".toList = [] ∧
      extractCitations "[doc:d1#c01]".toList = [] ∧
      (∀ s : Suite,
        ValidateGroundingCitations sampleEnv "the sky is blue and clear [doc:d1#c01]".toList s =
          (false, [msgLacksCitation 7 "the sky is blue and clear [doc:d1#c01]".toList])) := by
  refine ⟨?_, ?_, by decide, by decide, ?_⟩
  · intro content cit h
    obtain ⟨t, _, hm⟩ := mem_findAllCitations h
    exact isCitationText_of_match hm
  · intro doc ds hdoc hds
    have hc := containsCitation_leading_zero doc ds hdoc hds
    exact ⟨findAllCitations_eq_nil _ hc 0, hc⟩
  · intro s
    rw [validateGroundingCitations_eq]
    have h1 : unresolvedReasons "the sky is blue and clear [doc:d1#c01]".toList s = [] := by
      unfold unresolvedReasons
      rw [show extractCitations "the sky is blue and clear [doc:d1#c01]".toList = [] by decide]
      rfl
    have h2 : uncitedReasons sampleEnv "the sky is blue and clear [doc:d1#c01]".toList
        = [msgLacksCitation 7 "the sky is blue and clear [doc:d1#c01]".toList] := by decide
    rw [h1, h2]
    rfl

/-- C6 (witness): the citation extracted from `see [doc:d1#c12] here`. -/
theorem C6_extracted_citations_follow_grammar_witness :
    IsCitationText "d1".toList "c12".toList "[doc:d1#c12]".toList :=
  C6_extracted_citations_follow_grammar.1 "see [doc:d1#c12] here".toList
    ⟨"d1".toList, "c12".toList, "[doc:d1#c12]".toList⟩ (by decide)
theorem chunkFold_getBool (chunks : List Chunk) (m : GoMap Bool) (c : Str) :
    (chunks.foldl (fun m ch => m.set ch.ID true) m).getBool c =
      (chunks.any (fun ch => ch.ID = c) || m.getBool c) := by
  induction chunks generalizing m with
  | nil => simp
  | cons ch t ih =>
    rw [List.foldl_cons, ih]
    by_cases h : c = ch.ID
    · subst h; simp [GoMap.getBool, GoMap.set]
    · have h' : ¬ ch.ID = c := fun e => h e.symm
      simp [GoMap.getBool, GoMap.set, h, h']

theorem chunkSet_getBool (d : Doc) (c : Str) :
    (chunkSet d).getBool c = d.Chunks.any (fun ch => ch.ID = c) := by
  unfold chunkSet
  rw [chunkFold_getBool]
  simp [GoMap.getBool, GoMap.empty]

theorem buildDocIndex_inner (id0 : Str) (chunks : List Chunk) (idx : GoMap (GoMap Bool))
    (m : GoMap Bool) (h : idx id0 = some m) (x : Str) :
    chunks.foldl
        (fun index chunk =>
          match index id0 with
          | some chunks => index.set id0 (chunks.set chunk.ID true)
          | none => index)
        idx x
      = if x = id0 then some (chunks.foldl (fun m ch => m.set ch.ID true) m) else idx x := by
  induction chunks generalizing idx m with
  | nil =>
    by_cases hx : x = id0
    · simp [hx, h]
    · simp [hx]
  | cons ch t ih =>
    rw [List.foldl_cons, List.foldl_cons]
    simp only [h]
    rw [ih (idx.set id0 (m.set ch.ID true)) (m.set ch.ID true) (by simp [GoMap.set])]
    by_cases hx : x = id0
    · simp [hx]
    · simp [hx, GoMap.set]

theorem buildDocIndex_outer (docs : List Doc) (idx : GoMap (GoMap Bool)) (x : Str) :
    docs.foldl
        (fun index doc =>
          let index := index.set doc.ID GoMap.empty
          doc.Chunks.foldl
            (fun index chunk =>
              match index doc.ID with
              | some chunks => index.set doc.ID (chunks.set chunk.ID true)
              | none => index)
            index)
        idx x
      = match lastDocWithID docs x with
        | some d => some (chunkSet d)
        | none => idx x := by
  induction docs generalizing idx with
  | nil => rfl
  | cons d ds ih =>
    rw [List.foldl_cons, ih]
    unfold lastDocWithID
    rw [List.reverse_cons, List.find?_append]
    cases hl : ds.reverse.find? (fun d => decide (d.ID = x)) with
    | some d' => simp
    | none =>
      simp only [Option.none_or]
      rw [buildDocIndex_inner d.ID d.Chunks _ GoMap.empty (by simp [GoMap.set])]
      by_cases hx : x = d.ID
      · subst hx; simp [chunkSet]
      · have hx' : ¬ d.ID = x := fun e => hx e.symm
        simp [hx, hx', GoMap.set]

theorem buildDocIndex_apply (s : Suite) (x : Str) :
    BuildDocIndex s x = (lastDocWithID s.Docs x).map chunkSet := by
  unfold BuildDocIndex
  rw [buildDocIndex_outer]
  cases lastDocWithID s.Docs x <;> rfl

theorem resolveCitation_buildDocIndex (s : Suite) (cit : Citation) :
    resolveCitation (BuildDocIndex s) cit = specResolution s cit := by
  unfold resolveCitation specResolution
  rw [buildDocIndex_apply]
  cases lastDocWithID s.Docs cit.DocID with
  | none => rfl
  | some d => simp only [Option.map_some', chunkSet_getBool]

theorem unresolvedReasons_eq (content : Str) (s : Suite) :
    unresolvedReasons content s = (extractCitations content).flatMap (specResolution s) := by
  unfold unresolvedReasons
  congr 1
  funext cit
  exact resolveCitation_buildDocIndex s cit

theorem filter_isResolution_unresolved (content : Str) (s : Suite) :
    (unresolvedReasons content s).filter isResolutionReason = unresolvedReasons content s := by
  rw [List.filter_eq_self]
  intro r hr
  unfold unresolvedReasons at hr
  rw [List.mem_flatMap] at hr
  obtain ⟨cit, _, hr⟩ := hr
  rcases mem_resolveCitation hr with h | h <;> rw [h]
  · exact isResolution_msgNonExistentDoc cit
  · exact isResolution_msgNonExistentChunk cit

theorem filter_isResolution_uncited (E : Env) (content : Str) :
    (uncitedReasons E content).filter isResolutionReason = [] := by
  rw [List.filter_eq_nil_iff]
  intro r hr
  rw [uncitedReasons_eq, List.mem_map] at hr
  obtain ⟨x, _, hx⟩ := hr
  rw [← hx]
  simp [isResolution_msgLacksCitation]

/-- C5 (as amended): the resolution reasons of `ValidateGroundingCitations` are exactly one
per citation occurrence that does not resolve, in order of occurrence and with repeated
occurrences counted separately: a non-existent-doc reason when no doc of the suite
carries the cited doc id, and otherwise, with the last doc of the suite that carries
that id deciding, a non-existent-chunk reason when that doc has no chunk with the cited
chunk id, and no reason when it has one.  Against the doc `d1` with chunks `c1`, `c2`:
`[doc:d1#c1]` yields no reason, `[doc:d1#c9]` the non-existent-chunk reason and
`[doc:d9#c1]` the non-existent-doc reason. -/
theorem C5_one_reason_per_unresolved_citation :
    (∀ (E : Env) (content : Str) (s : Suite),
        (ValidateGroundingCitations E content s).2.filter isResolutionReason =
          (extractCitations content).flatMap (specResolution s)) ∧
      (∀ (s : Suite) (cit : Citation),
        (lastDocWithID s.Docs cit.DocID = none ↔ ∀ d ∈ s.Docs, d.ID ≠ cit.DocID)) ∧
      (∀ E : Env,
        ValidateGroundingCitations E "[doc:d1#c1]".toList (sampleSuite [docD1] []) = (true, []) ∧
        ValidateGroundingCitations E "[doc:d1#c9]".toList (sampleSuite [docD1] []) =
          (false, [msgNonExistentChunk ⟨"d1".toList, "c9".toList, "[doc:d1#c9]".toList⟩]) ∧
        ValidateGroundingCitations E "[doc:d9#c1]".toList (sampleSuite [docD1] []) =
          (false, [msgNonExistentDoc ⟨"d9".toList, "c1".toList, "[doc:d9#c1]".toList⟩])) := by
  refine ⟨?_, ?_, ?_⟩
  · intro E content s
    rw [validateGroundingCitations_snd, List.filter_append, filter_isResolution_unresolved,
      filter_isResolution_uncited, List.append_nil, unresolvedReasons_eq]
  · intro s cit
    unfold lastDocWithID
    simp
  · intro E
    refine ⟨?_, ?_, ?_⟩ <;> rfl

/-- C5 (counterexample): in a suite whose docs are `d1` with chunks `c1`, `c2` and then
`d1` again with chunk `c3`, the citation `[doc:d1#c1]` names a doc and a chunk that both
exist, and it gets a non-existent-chunk reason. -/
theorem C5_counterexample_repeated_doc_id :
    resolvesSomewhere (sampleSuite [docD1, docD1Again] [])
        ⟨"d1".toList, "c1".toList, "[doc:d1#c1]".toList⟩ = true ∧
      (ValidateGroundingCitations sampleEnv "[doc:d1#c1]".toList
          (sampleSuite [docD1, docD1Again] [])).2.filter isResolutionReason =
        [msgNonExistentChunk ⟨"d1".toList, "c1".toList, "[doc:d1#c1]".toList⟩] := by
  decide
theorem splitSentenceEnds_of_no_end (content : Str) (h : hasSentenceEnd content = false) :
    splitSentenceEnds false content = [content] := by
  induction content with
  | nil => rfl
  | cons c cs ih =>
    rw [hasSentenceEnd, Bool.or_eq_false_iff] at h
    rw [splitSentenceEnds, if_neg (by simp), if_neg (by simp [h.1]), ih h.2]

theorem unicodeIsSpace_ne_bracket (c : Char) (h : unicodeIsSpace c = true) : c ≠ '[' := by
  intro e
  subst e
  exact absurd h (by decide)

theorem containsCitation_dropWhile_space (s : Str) :
    containsCitation (s.dropWhile unicodeIsSpace) = containsCitation s := by
  induction s with
  | nil => rfl
  | cons c cs ih =>
    by_cases hc : unicodeIsSpace c = true
    · rw [List.dropWhile_cons_of_pos hc, ih, containsCitation_cons]
      cases hm : matchCitationAt (c :: cs) with
      | none => simp
      | some cit =>
        obtain ⟨r, hr⟩ := head_of_matchCitationAt hm
        exact absurd (List.cons.inj hr).1 (unicodeIsSpace_ne_bracket c hc)
    · rw [List.dropWhile_cons_of_neg hc]

theorem isDigit09_not_space (c : Char) (h : isDigit09 c = true) : unicodeIsSpace c = false := by
  unfold isDigit09 at h
  unfold unicodeIsSpace
  simp only [Bool.and_eq_true, decide_eq_true_eq, char_le_iff] at h
  have e3 : '0'.toNat = 48 := by decide
  have e4 : '9'.toNat = 57 := by decide
  rw [e3, e4] at h
  have : c.toNat ≤ 0xFF := by omega
  simp only [this, if_true]
  simp only [Bool.or_eq_false_iff, decide_eq_false_iff_not]
  omega

theorem isDigit19_not_space (c : Char) (h : isDigit19 c = true) : unicodeIsSpace c = false := by
  unfold isDigit19 at h
  unfold unicodeIsSpace
  simp only [Bool.and_eq_true, decide_eq_true_eq, char_le_iff] at h
  have e3 : '1'.toNat = 49 := by decide
  have e4 : '9'.toNat = 57 := by decide
  rw [e3, e4] at h
  have : c.toNat ≤ 0xFF := by omega
  simp only [this, if_true]
  simp only [Bool.or_eq_false_iff, decide_eq_false_iff_not]
  omega

theorem citation_full_not_space {doc : Str} {d : Char} {ds : Str} (hp : CitationParts doc d ds)
    (c : Char) (hc : c ∈ (mkCitation doc d ds).Full) : unicodeIsSpace c = false := by
  obtain ⟨_, hdoc, hd, hds⟩ := hp
  simp only [mkCitation, List.mem_append, List.mem_cons, List.mem_singleton] at hc
  rcases hc with ((h | h) | h) | h
  · have : ∀ x ∈ "[doc:".toList, unicodeIsSpace x = false := by decide
    exact this c h
  · exact isDocIDChar_not_space c (hdoc c h)
  · rcases h with h | h | h | h
    · subst h; decide
    · subst h; decide
    · subst h; exact isDigit19_not_space _ hd
    · exact isDigit09_not_space c (hds c h)
  · rcases h with h | h
    · subst h; decide
    · exact absurd h (List.not_mem_nil c)

theorem prefix_of_append_spaces {full rest u w : Str} (e : full ++ rest = u ++ w)
    (hf : ∀ c ∈ full, unicodeIsSpace c = false) (hw : ∀ c ∈ w, unicodeIsSpace c = true) :
    ∃ r, u = full ++ r := by
  rcases List.append_eq_append_iff.mp e with ⟨a, h1, _⟩ | ⟨a, h1, h2⟩
  · exact ⟨a, h1⟩
  · cases a with
    | nil => exact ⟨[], by simp [h1]⟩
    | cons x xs =>
      exfalso
      have hx1 : x ∈ full := by rw [h1]; simp
      have hx2 : x ∈ w := by rw [h2]; simp
      have := hf x hx1
      rw [hw x hx2] at this
      exact absurd this (by simp)

theorem containsCitation_of_append_spaces (u w : Str) (hw : ∀ c ∈ w, unicodeIsSpace c = true)
    (h : containsCitation (u ++ w) = true) : containsCitation u = true := by
  obtain ⟨t, cit, ht, hm⟩ := (containsCitation_iff _).mp h
  obtain ⟨doc, d, ds, rest, hp, hfull, hcit⟩ := matchCitationAt_eq_some hm
  obtain ⟨pre, hpre⟩ := ht
  rcases List.append_eq_append_iff.mp hpre with ⟨a, h1, h2⟩ | ⟨a, h1, h2⟩
  · -- the match starts inside `u`
    rw [hfull] at h2
    obtain ⟨r, hr⟩ := prefix_of_append_spaces h2 (citation_full_not_space hp) hw
    refine (containsCitation_iff _).mpr ⟨a, mkCitation doc d ds, ⟨pre, h1.symm⟩, ?_⟩
    rw [hr]
    exact matchCitationAt_full_append hp r
  · -- the match starts inside `w`
    exfalso
    obtain ⟨r, hr⟩ := head_of_matchCitationAt hm
    have hmem : '[' ∈ w := by rw [h2, hr]; simp
    exact unicodeIsSpace_ne_bracket _ (hw _ hmem) rfl

theorem rdropWhile_append_rest (p : Char → Bool) (s : Str) :
    ∃ w, s = s.rdropWhile p ++ w ∧ ∀ c ∈ w, p c = true := by
  induction s using List.reverseRecOn with
  | nil => exact ⟨[], by simp, by simp⟩
  | append_singleton t a ih =>
    by_cases ha : p a = true
    · obtain ⟨w, hw1, hw2⟩ := ih
      rw [List.rdropWhile_concat_pos _ _ _ ha]
      refine ⟨w ++ [a], ?_, ?_⟩
      · rw [← List.append_assoc, ← hw1]
      · intro c hc
        rcases List.mem_append.mp hc with h | h
        · exact hw2 c h
        · rw [List.mem_singleton.mp h]; exact ha
    · rw [List.rdropWhile_concat_neg _ _ _ ha]
      exact ⟨[], by simp, by simp⟩

theorem containsCitation_trimSpace (s : Str) (h : containsCitation s = true) :
    containsCitation (TrimSpace s) = true := by
  unfold TrimSpace
  obtain ⟨w, hw1, hw2⟩ := rdropWhile_append_rest unicodeIsSpace (s.dropWhile unicodeIsSpace)
  apply containsCitation_of_append_spaces _ w hw2
  rw [← hw1, containsCitation_dropWhile_space]
  exact h

/-- C4 (as amended): a content that forms a single sentence (no `.`, `!` or `?` followed
by white space), contains at least one citation occurrence, and all of whose citation
occurrences resolve (the last doc of the suite that carries the cited doc id has the
cited chunk) passes grounding, whatever its token count. -/
theorem C4_cited_single_sentence_passes (E : Env) (content : Str) (s : Suite)
    (h1 : hasSentenceEnd content = false) (hc : containsCitation content = true)
    (hr : ∀ cit ∈ extractCitations content, resolves s cit = true) :
    ValidateGroundingCitations E content s = (true, []) := by
  have hu : unresolvedReasons content s = [] := by
    rw [unresolvedReasons_eq, List.flatMap_eq_nil_iff]
    intro cit hcit
    have := hr cit hcit
    unfold resolves at this
    unfold specResolution
    cases hl : lastDocWithID s.Docs cit.DocID with
    | none => rw [hl] at this; exact absurd this (by simp)
    | some d =>
      rw [hl] at this
      have h2 : d.Chunks.any (fun ch => decide (ch.ID = cit.ChunkID)) = true := this
      simp only [h2, if_true]
  have hs : uncitedReasons E content = [] := by
    unfold uncitedReasons
    rw [splitIntoSentences_eq, splitSentenceEnds_of_no_end content h1, List.flatMap_singleton]
    have ht := containsCitation_trimSpace content hc
    have hne : TrimSpace content ≠ [] := by
      intro e
      rw [e] at ht
      exact absurd ht (by simp [containsCitation])
    simp only [ne_eq, hne, not_false_eq_true, if_true, List.flatMap_singleton]
    unfold sentenceReasons
    simp [ht]
  rw [validateGroundingCitations_eq, hu, hs]
  rfl

/-- C4 (witness): a 6-token sentence followed by ` [doc:d1#c1]`, against the doc `d1` with
chunks `c1` and `c2`. -/
theorem C4_cited_single_sentence_passes_witness :
    countTokens "the sky is blue and clear".toList = 6 ∧
      ValidateGroundingCitations sampleEnv "the sky is blue and clear [doc:d1#c1]".toList
        (sampleSuite [docD1] []) = (true, []) :=
  ⟨by decide,
    C4_cited_single_sentence_passes sampleEnv "the sky is blue and clear [doc:d1#c1]".toList
      (sampleSuite [docD1] []) (by decide) (by decide) (by decide)⟩

/-- C4 (counterexample): against the docs `d1` (chunks `c1`, `c2`) and `d1` again (chunk
`c3`), the single sentence `the sky is blue and clear [doc:d1#c1]` cites a doc and a
chunk that both exist in the suite, and it fails grounding. -/
theorem C4_counterexample_repeated_doc_id :
    hasSentenceEnd "the sky is blue and clear [doc:d1#c1]".toList = false ∧
      containsCitation "the sky is blue and clear [doc:d1#c1]".toList = true ∧
      (∀ cit ∈ extractCitations "the sky is blue and clear [doc:d1#c1]".toList,
        resolvesSomewhere (sampleSuite [docD1, docD1Again] []) cit = true) ∧
      (ValidateGroundingCitations sampleEnv "the sky is blue and clear [doc:d1#c1]".toList
        (sampleSuite [docD1, docD1Again] [])).1 = false := by
  decide
theorem validateGroundingCitations_passed (E : Env) (content : Str) (s : Suite)
    (h : (ValidateGroundingCitations E content s).1 = true) :
    (ValidateGroundingCitations E content s).2 = [] := by
  rw [validateGroundingCitations_eq] at h ⊢
  cases hl : unresolvedReasons content s ++ uncitedReasons E content with
  | nil => simp
  | cons a t => rw [hl] at h; simp at h

theorem getCaseType_cases (id : Str) :
    GetCaseType id = CaseTypeGrounding ∨ GetCaseType id = CaseTypeSchema ∨
      GetCaseType id = CaseTypeTool := by
  unfold GetCaseType
  split
  · exact Or.inl rfl
  · split
    · exact Or.inr (Or.inl rfl)
    · split
      · exact Or.inr (Or.inr rfl)
      · exact Or.inl rfl

theorem getValidatorType_of_id (c c' : Case) (h : c'.ID = c.ID) :
    getValidatorType c' = getValidatorType c := by
  unfold getValidatorType
  rw [h]
  rcases getCaseType_cases c.ID with e | e | e <;> rw [e] <;> rfl

theorem runCase_error (E : Env) (c : Case) (s : Suite) (dir : Str) (err : Bytes)
    (h : LoadFixture E dir c.ID = .error err) :
    runCase E c s dir =
      { ID := c.ID, Status := StatusError, Validator := getValidatorType c,
        FailureReasons := [utf8 "fixture error: ".toList ++ err] } := by
  unfold runCase
  rw [h]

theorem foldl_append_map {α β : Type} (g : α → β) (l : List α) (init : List β) :
    l.foldl (fun acc x => acc ++ [g x]) init = init ++ l.map g := by
  induction l generalizing init with
  | nil => simp
  | cons a t ih => rw [List.foldl_cons, ih]; simp

theorem runCase_ok (E : Env) (c : Case) (s : Suite) (dir content : Str)
    (h : LoadFixture E dir c.ID = .ok content) :
    runCase E c s dir =
      { ID := c.ID
        Status :=
          if (assertionReasons E content c s ++
              (if GetCaseType c.ID = CaseTypeGrounding then groundingReasons E content s
                else [])).length > 0
          then StatusFail else StatusPass
        Validator := getValidatorType c
        FailureReasons := assertionReasons E content c s ++
          (if GetCaseType c.ID = CaseTypeGrounding then groundingReasons E content s else []) } := by
  have ha : c.Assertions.foldl
      (fun failures assertion =>
        let r := ValidateAssertion E content assertion s
        if !r.1 then
          failures ++ [utf8 "[".toList ++ utf8 assertion.Type_ ++ utf8 "] ".toList ++ r.2]
        else failures) ([] : List Bytes)
      = assertionReasons E content c s := by
    rw [foldl_append_flatMap (fun a =>
      if (!(ValidateAssertion E content a s).1) = true then
        [utf8 "[".toList ++ utf8 a.Type_ ++ utf8 "] ".toList
          ++ (ValidateAssertion E content a s).2]
      else [])]
    · rw [List.nil_append, flatMap_ite_singleton]
      rfl
    · intro acc a _
      cases hv : (ValidateAssertion E content a s).1 <;> simp [hv]
  have hg : (if GetCaseType c.ID = CaseTypeGrounding then
        (let g := ValidateGrounding E content s
         if !g.1 then
           g.2.foldl (fun failures f => failures ++ [utf8 "[grounding] ".toList ++ f])
             (assertionReasons E content c s)
         else assertionReasons E content c s)
      else assertionReasons E content c s)
      = assertionReasons E content c s ++
          (if GetCaseType c.ID = CaseTypeGrounding then groundingReasons E content s else []) := by
    by_cases hc : GetCaseType c.ID = CaseTypeGrounding
    · simp only [hc, if_true]
      unfold groundingReasons ValidateGrounding
      cases hp : (ValidateGroundingCitations E content s).1
      · simp only [Bool.not_false, if_true]
        exact foldl_append_map _ _ _
      · have := validateGroundingCitations_passed E content s hp
        simp [this]
    · simp [hc]
  unfold runCase
  rw [h]
  simp only [ha, hg]
theorem runCase_id (E : Env) (c : Case) (s : Suite) (dir : Str) :
    (runCase E c s dir).ID = c.ID := by
  cases h : LoadFixture E dir c.ID with
  | error err => rw [runCase_error E c s dir err h]
  | ok content => rw [runCase_ok E c s dir content h]

theorem runCase_error_fields (E : Env) (c : Case) (s : Suite) (dir : Str) (err : Bytes)
    (h : LoadFixture E dir c.ID = .error err) :
    (runCase E c s dir).Status = StatusError ∧
      (runCase E c s dir).FailureReasons = [utf8 "fixture error: ".toList ++ err] := by
  rw [runCase_error E c s dir err h]
  exact ⟨rfl, rfl⟩

theorem runCase_ok_fields (E : Env) (c : Case) (s : Suite) (dir content : Str)
    (h : LoadFixture E dir c.ID = .ok content) :
    (runCase E c s dir).FailureReasons = assertionReasons E content c s ++
        (if GetCaseType c.ID = CaseTypeGrounding then groundingReasons E content s else []) ∧
      ((runCase E c s dir).FailureReasons = [] → (runCase E c s dir).Status = StatusPass) ∧
      ((runCase E c s dir).FailureReasons ≠ [] → (runCase E c s dir).Status = StatusFail) := by
  rw [runCase_ok E c s dir content h]
  refine ⟨rfl, ?_, ?_⟩
  · intro e
    simp only [] at e ⊢
    rw [e]
    rfl
  · intro e
    simp only [] at e ⊢
    cases hl : assertionReasons E content c s ++
        (if GetCaseType c.ID = CaseTypeGrounding then groundingReasons E content s else []) with
    | nil => exact absurd hl e
    | cons a t => simp

theorem runCase_status (E : Env) (c : Case) (s : Suite) (dir : Str) :
    ((runCase E c s dir).Status = StatusPass ↔ (runCase E c s dir).FailureReasons = []) ∧
      (runCase E c s dir).Status ≠ StatusSkip := by
  cases h : LoadFixture E dir c.ID with
  | error err =>
    obtain ⟨h1, h2⟩ := runCase_error_fields E c s dir err h
    rw [h1, h2]
    exact ⟨⟨fun e => absurd e (by decide), fun e => absurd e (by simp)⟩, by decide⟩
  | ok content =>
    obtain ⟨_, h2, h3⟩ := runCase_ok_fields E c s dir content h
    by_cases hl : (runCase E c s dir).FailureReasons = []
    · rw [h2 hl]
      exact ⟨⟨fun _ => hl, fun _ => rfl⟩, by decide⟩
    · rw [h3 hl]
      exact ⟨⟨fun e => absurd e (by decide), fun e => absurd e hl⟩, by decide⟩

theorem runSuiteLoop_fst_all (E : Env) (s : Suite) (dir : Str) (cs : List Case)
    (res : List Result) (he : Bool) :
    (runSuiteLoop E s dir false cs (res, he)).1 = res ++ cs.map (fun c => runCase E c s dir) := by
  induction cs generalizing res he with
  | nil => simp [runSuiteLoop]
  | cons c t ih =>
    rw [runSuiteLoop]
    simp only [Bool.false_and, Bool.false_eq_true, if_false]
    rw [ih]
    simp

theorem runSuiteLoop_fst_failFast (E : Env) (s : Suite) (dir : Str) (cs : List Case)
    (res : List Result) (he : Bool) :
    (runSuiteLoop E s dir true cs (res, he)).1 =
      res ++ upToFirstFailure (cs.map (fun c => runCase E c s dir)) := by
  induction cs generalizing res he with
  | nil => simp [runSuiteLoop, upToFirstFailure]
  | cons c t ih =>
    rw [runSuiteLoop, List.map_cons, upToFirstFailure]
    simp only [Bool.true_and]
    by_cases hstop : stopsRun (runCase E c s dir) = true
    · have hstop' := hstop
      unfold stopsRun at hstop'
      rw [if_pos hstop', if_pos hstop]
    · have hstop' := hstop
      unfold stopsRun at hstop'
      rw [if_neg hstop', if_neg hstop, ih]
      simp

theorem upToFirstFailure_isPrefix (l : List Result) : upToFirstFailure l <+: l := by
  induction l with
  | nil => exact List.prefix_refl _
  | cons r rs ih =>
    rw [upToFirstFailure]
    split
    · exact ⟨rs, rfl⟩
    · obtain ⟨t, ht⟩ := ih
      exact ⟨t, by rw [List.cons_append, ht]⟩

theorem upToFirstFailure_dropLast (l : List Result) :
    ∀ r ∈ (upToFirstFailure l).dropLast, stopsRun r = false := by
  induction l with
  | nil => intro r hr; simp [upToFirstFailure] at hr
  | cons a rs ih =>
    intro r hr
    rw [upToFirstFailure] at hr
    by_cases ha : stopsRun a = true
    · rw [if_pos ha] at hr
      simp at hr
    · rw [if_neg ha] at hr
      cases hu : upToFirstFailure rs with
      | nil => rw [hu] at hr; simp at hr
      | cons b bs =>
        rw [hu, List.dropLast_cons₂] at hr
        rcases List.mem_cons.mp hr with h | h
        · rw [h]; simpa using ha
        · rw [hu] at ih; exact ih r h

theorem upToFirstFailure_getLast (l : List Result) (h : upToFirstFailure l ≠ l) :
    ∃ r, (upToFirstFailure l).getLast? = some r ∧ stopsRun r = true := by
  induction l with
  | nil => exact absurd rfl h
  | cons a rs ih =>
    rw [upToFirstFailure] at h ⊢
    by_cases ha : stopsRun a = true
    · rw [if_pos ha]
      exact ⟨a, rfl, ha⟩
    · rw [if_neg ha] at h ⊢
      have h' : upToFirstFailure rs ≠ rs := fun e => h (by rw [e])
      obtain ⟨r, hr, hs⟩ := ih h'
      refine ⟨r, ?_, hs⟩
      cases hu : upToFirstFailure rs with
      | nil => rw [hu] at hr; simp at hr
      | cons b bs => rw [hu] at hr; rw [List.getLast?_cons_cons]; exact hr

theorem runSuite_fst (E : Env) (s : Suite) (dir : Str) (failFast : Bool) :
    (RunSuite E s dir failFast).1 =
      if failFast then upToFirstFailure (s.Cases.map (fun c => runCase E c s dir))
      else s.Cases.map (fun c => runCase E c s dir) := by
  unfold RunSuite
  cases failFast
  · rw [runSuiteLoop_fst_all]; simp
  · rw [runSuiteLoop_fst_failFast]; simp

theorem mem_runSuite (E : Env) (s : Suite) (dir : Str) (failFast : Bool) (r : Result)
    (h : r ∈ (RunSuite E s dir failFast).1) : ∃ c ∈ s.Cases, r = runCase E c s dir := by
  rw [runSuite_fst] at h
  have h2 : r ∈ s.Cases.map (fun c => runCase E c s dir) := by
    cases failFast
    · simpa using h
    · exact (upToFirstFailure_isPrefix _).subset h
  obtain ⟨c, hc, e⟩ := List.mem_map.mp h2
  exact ⟨c, hc, e.symm⟩

/-- C8: `runCase` yields status `ERROR` iff the fixture load failed, and then the failure
list has exactly one element and the result does not depend on the assertions of the
case or on the suite; otherwise the status is `PASS` iff the failure list is empty and
`FAIL` iff it is not.  Over all results of a run, the status is `PASS` iff the failure
list is empty, and no result has status `SKIP`. -/
theorem C8_status_of_a_case (E : Env) (c : Case) (s : Suite) (dir : Str) :
    ((runCase E c s dir).Status = StatusError ↔ ∃ err, LoadFixture E dir c.ID = .error err) ∧
      (∀ err, LoadFixture E dir c.ID = .error err →
        (runCase E c s dir).FailureReasons = [utf8 "fixture error: ".toList ++ err] ∧
        ∀ (c' : Case) (s' : Suite), c'.ID = c.ID → runCase E c' s' dir = runCase E c s dir) ∧
      (∀ content, LoadFixture E dir c.ID = .ok content →
        ((runCase E c s dir).Status = StatusPass ↔ (runCase E c s dir).FailureReasons = []) ∧
        ((runCase E c s dir).Status = StatusFail ↔ (runCase E c s dir).FailureReasons ≠ [])) ∧
      ((runCase E c s dir).Status = StatusPass ↔ (runCase E c s dir).FailureReasons = []) ∧
      (runCase E c s dir).Status ≠ StatusSkip ∧
      (∀ failFast, ∀ r ∈ (RunSuite E s dir failFast).1,
        (r.Status = StatusPass ↔ r.FailureReasons = []) ∧ r.Status ≠ StatusSkip) := by
  refine ⟨?_, ?_, ?_, (runCase_status E c s dir).1, (runCase_status E c s dir).2, ?_⟩
  · cases h : LoadFixture E dir c.ID with
    | error err =>
      exact ⟨fun _ => ⟨err, rfl⟩, fun _ => (runCase_error_fields E c s dir err h).1⟩
    | ok content =>
      obtain ⟨_, h2, h3⟩ := runCase_ok_fields E c s dir content h
      constructor
      · intro e
        exfalso
        by_cases hl : (runCase E c s dir).FailureReasons = []
        · rw [h2 hl] at e; exact absurd e (by decide)
        · rw [h3 hl] at e; exact absurd e (by decide)
      · rintro ⟨err, he⟩
        exact absurd he (by simp)
  · intro err h
    refine ⟨(runCase_error_fields E c s dir err h).2, ?_⟩
    intro c' s' hid
    have h' : LoadFixture E dir c'.ID = .error err := by rw [hid]; exact h
    rw [runCase_error E c s dir err h, runCase_error E c' s' dir err h', hid,
      getValidatorType_of_id c c' hid]
  · intro content h
    obtain ⟨_, h2, h3⟩ := runCase_ok_fields E c s dir content h
    by_cases hl : (runCase E c s dir).FailureReasons = []
    · rw [h2 hl]
      exact ⟨⟨fun _ => hl, fun _ => rfl⟩, ⟨fun e => absurd e (by decide), fun e => absurd hl e⟩⟩
    · rw [h3 hl]
      exact ⟨⟨fun e => absurd e (by decide), fun e => absurd e hl⟩, ⟨fun _ => hl, fun _ => rfl⟩⟩
  · intro failFast r hr
    obtain ⟨c0, _, e⟩ := mem_runSuite E s dir failFast r hr
    rw [e]
    exact runCase_status E c0 s dir

/-- C8 (witness): in the sample file system the fixture of `schema_x` is missing and the
fixture of `schema_b` fails its assertion. -/
theorem C8_status_of_a_case_witness :
    (runCase sampleEnv (caseContainsOk "schema_x".toList) (sampleSuite [] []) "fx".toList).Status
        = StatusError ∧
      (runCase sampleEnv (caseContainsOk "schema_b".toList) (sampleSuite [] []) "fx".toList).Status
        = StatusFail ∧
      ((runCase sampleEnv (caseContainsOk "schema_a".toList) (sampleSuite [] [])
          "fx".toList).Status = StatusPass ↔
        (runCase sampleEnv (caseContainsOk "schema_a".toList) (sampleSuite [] [])
          "fx".toList).FailureReasons = []) :=
  ⟨by decide, by decide,
    (C8_status_of_a_case sampleEnv (caseContainsOk "schema_a".toList) (sampleSuite [] [])
      "fx".toList).2.2.2.1⟩
theorem assertionReasons_eq_nil_iff (E : Env) (content : Str) (c : Case) (s : Suite) :
    assertionReasons E content c s = [] ↔
      ∀ a ∈ c.Assertions, (ValidateAssertion E content a s).1 = true := by
  unfold assertionReasons
  rw [List.map_eq_nil_iff, List.filter_eq_nil_iff]
  constructor
  · intro h a ha
    have := h a ha
    simpa using this
  · intro h a ha
    simp [h a ha]

/-- C9: for a case whose fixture loads, the failure list of `runCase` is, for each
assertion of the case in declaration order whose validator fails, the text
`[<type>] <reason>` (every assertion is evaluated), followed by the failures of the
grounding validator, each after `[grounding] `, if and only if `GetCaseType` of the
case id is grounding.  For the other cases the grounding validator adds nothing: the
failure list holds the assertion reasons only, the status is `PASS` iff every assertion
passes, and the result is the same for every suite. -/
theorem C9_failure_reasons_of_a_case (E : Env) (c : Case) (s : Suite) (dir content : Str)
    (h : LoadFixture E dir c.ID = .ok content) :
    (runCase E c s dir).FailureReasons =
        assertionReasons E content c s ++
          (if GetCaseType c.ID = CaseTypeGrounding then groundingReasons E content s else []) ∧
      (GetCaseType c.ID ≠ CaseTypeGrounding →
        (runCase E c s dir).FailureReasons = assertionReasons E content c s ∧
        ((runCase E c s dir).Status = StatusPass ↔
          ∀ a ∈ c.Assertions, (ValidateAssertion E content a s).1 = true) ∧
        ∀ s' : Suite, runCase E c s' dir = runCase E c s dir) := by
  obtain ⟨h1, _, _⟩ := runCase_ok_fields E c s dir content h
  refine ⟨h1, ?_⟩
  intro hg
  have h2 : (runCase E c s dir).FailureReasons = assertionReasons E content c s := by
    rw [h1, if_neg hg, List.append_nil]
  refine ⟨h2, ?_, ?_⟩
  · rw [(runCase_status E c s dir).1, h2, assertionReasons_eq_nil_iff]
  · intro s'
    rw [runCase_ok E c s dir content h, runCase_ok E c s' dir content h]
    simp only [if_neg hg]
    rfl

/-- C9 (witness): the grounding case `grounding_a`, whose fixture
`the sky is blue and clear [doc:d1#c9]` fails its assertion and cites a missing chunk. -/
theorem C9_failure_reasons_of_a_case_witness :
    (runCase sampleEnv caseGroundingA (sampleSuite [docD1] []) "fx".toList).FailureReasons =
      [utf8 "[contains] content does not contain expected string 'ok'".toList,
        utf8 "[grounding] citation [doc:d1#c9] references non-existent chunk 'c9'".toList] ∧
      (runCase sampleEnv caseGroundingA (sampleSuite [docD1] []) "fx".toList).FailureReasons =
        assertionReasons sampleEnv "the sky is blue and clear [doc:d1#c9]".toList caseGroundingA
            (sampleSuite [docD1] []) ++
          (if GetCaseType caseGroundingA.ID = CaseTypeGrounding then
            groundingReasons sampleEnv "the sky is blue and clear [doc:d1#c9]".toList
              (sampleSuite [docD1] [])
          else []) :=
  ⟨by decide,
    (C9_failure_reasons_of_a_case sampleEnv caseGroundingA (sampleSuite [docD1] []) "fx".toList
      "the sky is blue and clear [doc:d1#c9]".toList rfl).1⟩

/-- C10: `RunSuite` returns its results in case declaration order, the i-th result
carrying the id of the i-th case.  Without fail-fast there is exactly one result per
case.  With fail-fast the results are those of the shortest front part of the cases
that ends at the first case whose status is `FAIL` or `ERROR`, or of all cases if there
is none.  Cases that pass, fail and pass yield two results with fail-fast and three
without. -/
theorem C10_results_in_declaration_order (E : Env) (s : Suite) (dir : Str) :
    (RunSuite E s dir false).1 = s.Cases.map (fun c => runCase E c s dir) ∧
      (RunSuite E s dir false).1.length = s.Cases.length ∧
      (RunSuite E s dir true).1 = upToFirstFailure (s.Cases.map (fun c => runCase E c s dir)) ∧
      (∀ failFast,
        (RunSuite E s dir failFast).1 =
            (s.Cases.take (RunSuite E s dir failFast).1.length).map (fun c => runCase E c s dir) ∧
          (RunSuite E s dir failFast).1.map (fun r => r.ID) =
            (s.Cases.take (RunSuite E s dir failFast).1.length).map (fun c => c.ID)) ∧
      (∀ l : List Result,
        upToFirstFailure l <+: l ∧
          (∀ r ∈ (upToFirstFailure l).dropLast, r.Status ≠ StatusFail ∧ r.Status ≠ StatusError) ∧
          (upToFirstFailure l ≠ l →
            ∃ r, (upToFirstFailure l).getLast? = some r ∧
              (r.Status = StatusFail ∨ r.Status = StatusError))) ∧
      ((RunSuite sampleEnv (sampleSuite [] passFailPass) "fx".toList true).1.map
          (fun r => (r.ID, r.Status)) =
        [("schema_a".toList, StatusPass), ("schema_b".toList, StatusFail)]) ∧
      ((RunSuite sampleEnv (sampleSuite [] passFailPass) "fx".toList false).1.map
          (fun r => (r.ID, r.Status)) =
        [("schema_a".toList, StatusPass), ("schema_b".toList, StatusFail),
          ("schema_c".toList, StatusPass)]) := by
  have hpre : ∀ failFast, (RunSuite E s dir failFast).1 <+:
      s.Cases.map (fun c => runCase E c s dir) := by
    intro failFast
    rw [runSuite_fst]
    cases failFast
    · exact List.prefix_refl _
    · exact upToFirstFailure_isPrefix _
  have htake : ∀ failFast, (RunSuite E s dir failFast).1 =
      (s.Cases.take (RunSuite E s dir failFast).1.length).map (fun c => runCase E c s dir) := by
    intro failFast
    have := List.prefix_iff_eq_take.mp (hpre failFast)
    rw [List.map_take]
    exact this
  refine ⟨?_, ?_, ?_, ?_, ?_, by decide, by decide⟩
  · rw [runSuite_fst]; rfl
  · rw [runSuite_fst]; simp
  · rw [runSuite_fst]; rfl
  · intro failFast
    refine ⟨htake failFast, ?_⟩
    conv_lhs => rw [htake failFast]
    rw [List.map_map]
    apply List.map_congr_left
    intro c _
    exact runCase_id E c s dir
  · intro l
    refine ⟨upToFirstFailure_isPrefix l, ?_, ?_⟩
    · intro r hr
      have := upToFirstFailure_dropLast l r hr
      unfold stopsRun at this
      simpa using this
    · intro hne
      obtain ⟨r, hr, hs⟩ := upToFirstFailure_getLast l hne
      refine ⟨r, hr, ?_⟩
      unfold stopsRun at hs
      simpa using hs

/-- C19: `ValidateExactMatch` passes iff the expected value is text and the content, with
leading and trailing white space removed, equals the expected text with leading and
trailing white space removed; a pass has the empty reason, and a non-text expected
value fails with a non-empty reason.  So `"  foo "` matches `foo`, and `foo bar`, `Foo`
and `f oo` do not. -/
theorem C19_exact_match (content : Str) (expected : Value) :
    ((ValidateExactMatch content expected).1 = true ↔
        ∃ e, expected = .str e ∧ TrimSpace content = TrimSpace e) ∧
      ((ValidateExactMatch content expected).1 = true →
        (ValidateExactMatch content expected).2 = []) ∧
      ((∀ e, expected ≠ .str e) →
        (ValidateExactMatch content expected).1 = false ∧
          (ValidateExactMatch content expected).2 ≠ []) ∧
      (ValidateExactMatch "  foo ".toList (.str "foo".toList)).1 = true ∧
      (ValidateExactMatch "foo bar".toList (.str "foo".toList)).1 = false ∧
      (ValidateExactMatch "Foo".toList (.str "foo".toList)).1 = false ∧
      (ValidateExactMatch "f oo".toList (.str "foo".toList)).1 = false := by
  have hne : utf8 "expected must be a string, got ".toList ++ utf8 (goTypeName expected) ≠ [] := by
    intro e
    exact absurd (List.append_eq_nil.mp e).1 (by decide)
  refine ⟨?_, ?_, ?_, by decide, by decide, by decide, by decide⟩
  · cases expected with
    | str e =>
      by_cases h : TrimSpace content = TrimSpace e
      · simp [ValidateExactMatch, h]
      · simp [ValidateExactMatch, h]
    | _ => simp [ValidateExactMatch]
  · cases expected with
    | str e =>
      by_cases h : TrimSpace content = TrimSpace e
      · simp [ValidateExactMatch, h]
      · simp [ValidateExactMatch, h]
    | _ => simp [ValidateExactMatch]
  · intro h
    cases expected with
    | str e => exact absurd rfl (h e)
    | _ => exact ⟨rfl, hne⟩

/-- C20: `ValidateContains` passes iff the expected value is text that occurs in the
content as a contiguous run of characters, compared exactly (so the empty text passes
for every content); a pass has the empty reason, and a non-text expected value fails
with a non-empty reason.  So `hello world` contains `world`, and `hello` does not
contain `World`. -/
theorem C20_contains (content : Str) (expected : Value) :
    ((ValidateContains content expected).1 = true ↔
        ∃ e, expected = .str e ∧ ∃ before after, content = before ++ e ++ after) ∧
      (ValidateContains content (.str [])).1 = true ∧
      ((ValidateContains content expected).1 = true →
        (ValidateContains content expected).2 = []) ∧
      ((∀ e, expected ≠ .str e) →
        (ValidateContains content expected).1 = false ∧
          (ValidateContains content expected).2 ≠ []) ∧
      (ValidateContains "hello world".toList (.str "world".toList)).1 = true ∧
      (ValidateContains "hello".toList (.str "World".toList)).1 = false := by
  have hne : utf8 "expected must be a string, got ".toList ++ utf8 (goTypeName expected) ≠ [] := by
    intro e
    exact absurd (List.append_eq_nil.mp e).1 (by decide)
  have hinf : ∀ e : Str, e <:+: content ↔ ∃ before after, content = before ++ e ++ after := by
    intro e
    constructor
    · rintro ⟨a, b, h⟩; exact ⟨a, b, h.symm⟩
    · rintro ⟨a, b, h⟩; exact ⟨a, b, h.symm⟩
  refine ⟨?_, ?_, ?_, ?_, by decide, by decide⟩
  · cases expected with
    | str e =>
      by_cases h : e <:+: content
      · simp only [ValidateContains, Contains, h, decide_True, if_true, true_iff]
        exact ⟨e, rfl, (hinf e).mp h⟩
      · simp only [ValidateContains, Contains, h, decide_False, Bool.false_eq_true, if_false,
          false_iff]
        rintro ⟨e', he, hx⟩
        cases he
        exact h ((hinf e).mpr hx)
    | _ => simp [ValidateContains]
  · have : ([] : Str) <:+: content := List.nil_infix
    simp [ValidateContains, Contains, this]
  · cases expected with
    | str e =>
      by_cases h : e <:+: content
      · simp [ValidateContains, Contains, h]
      · simp [ValidateContains, Contains, h]
    | _ => simp [ValidateContains]
  · intro h
    cases expected with
    | str e => exact absurd rfl (h e)
    | _ => exact ⟨rfl, hne⟩
set_option maxRecDepth 100000 in
theorem uint8_or_c0_fin : ∀ n : Fin 256, 128 ≤ (UInt8.mk ⟨n⟩ ||| 0xc0).toNat := by decide

theorem uint8_or_c0 (y : UInt8) : 128 ≤ (y ||| 0xc0).toNat := by
  obtain ⟨⟨n⟩⟩ := y
  exact uint8_or_c0_fin n

set_option maxRecDepth 100000 in
theorem uint8_or_e0_fin : ∀ n : Fin 256, 128 ≤ (UInt8.mk ⟨n⟩ ||| 0xe0).toNat := by decide

theorem uint8_or_e0 (y : UInt8) : 128 ≤ (y ||| 0xe0).toNat := by
  obtain ⟨⟨n⟩⟩ := y
  exact uint8_or_e0_fin n

set_option maxRecDepth 100000 in
theorem uint8_or_f0_fin : ∀ n : Fin 256, 128 ≤ (UInt8.mk ⟨n⟩ ||| 0xf0).toNat := by decide

theorem uint8_or_f0 (y : UInt8) : 128 ≤ (y ||| 0xf0).toNat := by
  obtain ⟨⟨n⟩⟩ := y
  exact uint8_or_f0_fin n

theorem utf8_cons (c : Char) (s : Str) : utf8 (c :: s) = String.utf8EncodeChar c ++ utf8 s := by
  simp [utf8]

theorem utf8_nil : utf8 [] = [] := rfl

theorem utf8EncodeChar_head (c : Char) :
    ∃ b rest, String.utf8EncodeChar c = b :: rest ∧
      (b.toNat < 128 → rest = [] ∧ b.toNat = c.toNat) := by
  unfold String.utf8EncodeChar
  simp only []
  split
  · rename_i h
    refine ⟨_, _, rfl, fun _ => ⟨rfl, ?_⟩⟩
    have h' : c.val.toNat ≤ 127 := h
    show c.val.toNat % 256 = c.val.toNat
    omega
  · split
    · refine ⟨_, _, rfl, fun hb => ?_⟩
      exact absurd hb (Nat.not_lt.mpr (uint8_or_c0 _))
    · split
      · refine ⟨_, _, rfl, fun hb => ?_⟩
        exact absurd hb (Nat.not_lt.mpr (uint8_or_e0 _))
      · refine ⟨_, _, rfl, fun hb => ?_⟩
        exact absurd hb (Nat.not_lt.mpr (uint8_or_f0 _))

theorem utf8EncodeChar_ascii (a : Char) (h : a.toNat < 128) :
    String.utf8EncodeChar a = [a.val.toUInt8] ∧ a.val.toUInt8.toNat = a.toNat := by
  unfold String.utf8EncodeChar
  have h1 : a.val ≤ 0x7f := by
    show a.val.toNat ≤ 127
    have : a.val.toNat = a.toNat := rfl
    omega
  simp only [h1, if_true, true_and]
  show a.val.toNat % 256 = a.val.toNat
  have : a.val.toNat = a.toNat := rfl
  omega

theorem utf8_isPrefix_iff (p s : Str) (hp : ∀ a ∈ p, a.toNat < 128) :
    utf8 p <+: utf8 s ↔ p <+: s := by
  induction p generalizing s with
  | nil => simp [utf8_nil]
  | cons a p ih =>
    have ha := utf8EncodeChar_ascii a (hp a (List.mem_cons_self a p))
    have hp' : ∀ x ∈ p, x.toNat < 128 := fun x hx => hp x (List.mem_cons_of_mem a hx)
    cases s with
    | nil =>
      rw [utf8_cons, ha.1, utf8_nil]
      simp
    | cons c s =>
      rw [utf8_cons, utf8_cons, ha.1]
      obtain ⟨b, rest, hb, hb2⟩ := utf8EncodeChar_head c
      rw [hb]
      constructor
      · intro h
        have hh : a.val.toUInt8 = b ∧ utf8 p <+: rest ++ utf8 s := by
          simpa [List.cons_prefix_cons] using h
        have hlt : b.toNat < 128 := by rw [← hh.1, ha.2]; exact hp a (List.mem_cons_self a p)
        obtain ⟨hrest, hbc⟩ := hb2 hlt
        have hac : a = c := by
          rw [char_eq_iff, ← ha.2, hh.1, hbc]
        have h2 := hh.2
        rw [hrest, List.nil_append] at h2
        rw [hac, List.cons_prefix_cons]
        exact ⟨rfl, (ih s hp').mp h2⟩
      · intro h
        rw [List.cons_prefix_cons] at h
        obtain ⟨hac, hps⟩ := h
        subst hac
        rw [ha.1] at hb
        have hb' : a.val.toUInt8 = b ∧ rest = [] := by
          simpa using hb
        rw [← hb'.1, hb'.2]
        simp only [List.singleton_append, List.nil_append, List.cons_prefix_cons, true_and]
        exact (ih s hp').mpr hps

theorem utf8_take_eq_iff (p s : Str) (hp : ∀ a ∈ p, a.toNat < 128) :
    (len s ≥ p.length ∧ (utf8 s).take p.length = utf8 p) ↔ p <+: s := by
  have hl : (utf8 p).length = p.length := by
    clear s
    induction p with
    | nil => rfl
    | cons a p ih =>
      rw [utf8_cons, List.length_append,
        (utf8EncodeChar_ascii a (hp a (List.mem_cons_self a p))).1,
        ih (fun x hx => hp x (List.mem_cons_of_mem a hx))]
      simp only [List.length_cons, List.length_nil]
      omega
  rw [← utf8_isPrefix_iff p s hp, List.prefix_iff_eq_take, hl]
  constructor
  · rintro ⟨_, h⟩; exact h.symm
  · intro h
    refine ⟨?_, h.symm⟩
    have := congrArg List.length h
    rw [hl, List.length_take] at this
    unfold len
    exact inf_eq_left.mp this.symm
theorem getCaseType_eq (id : Str) : GetCaseType id = categoryByPrefix id := by
  unfold GetCaseType categoryByPrefix
  have h9 := utf8_take_eq_iff "grounding".toList id (by decide)
  have h6 := utf8_take_eq_iff "schema".toList id (by decide)
  have h4 := utf8_take_eq_iff "tool".toList id (by decide)
  have e9 : "grounding".toList.length = 9 := rfl
  have e6 : "schema".toList.length = 6 := rfl
  have e4 : "tool".toList.length = 4 := rfl
  rw [e9] at h9
  rw [e6] at h6
  rw [e4] at h4
  simp only [h9, h6, h4]

theorem categoryByPrefix_cases (id : Str) :
    categoryByPrefix id = CaseTypeGrounding ∨ categoryByPrefix id = CaseTypeSchema ∨
      categoryByPrefix id = CaseTypeTool := by
  rw [← getCaseType_eq]
  exact getCaseType_cases id

/-- C17: `GetCaseType` is a total function that returns, for every string, exactly one of
the three distinct categories: grounding if the id starts with `grounding`, otherwise
schema if it starts with `schema`, otherwise tool if it starts with `tool`, otherwise
grounding; so also for the empty id and for ids shorter than every prefix. -/
theorem C17_case_type_by_prefix (id : Str) :
    GetCaseType id =
        (if "grounding".toList <+: id then CaseTypeGrounding
        else if "schema".toList <+: id then CaseTypeSchema
        else if "tool".toList <+: id then CaseTypeTool
        else CaseTypeGrounding) ∧
      (GetCaseType id = CaseTypeGrounding ∨ GetCaseType id = CaseTypeSchema ∨
        GetCaseType id = CaseTypeTool) ∧
      (CaseTypeGrounding ≠ CaseTypeSchema ∧ CaseTypeGrounding ≠ CaseTypeTool ∧
        CaseTypeSchema ≠ CaseTypeTool) ∧
      GetCaseType [] = CaseTypeGrounding ∧
      GetCaseType "to".toList = CaseTypeGrounding ∧
      GetCaseType "case_a".toList = CaseTypeGrounding ∧
      GetCaseType "grounding".toList = CaseTypeGrounding ∧
      GetCaseType "schema_x".toList = CaseTypeSchema ∧
      GetCaseType "tool_x".toList = CaseTypeTool :=
  ⟨getCaseType_eq id, getCaseType_cases id, by decide, by decide, by decide, by decide,
    by decide, by decide, by decide⟩

theorem hasSuffix_iff (s p : Str) : HasSuffix s p = true ↔ p <:+ s := by
  unfold HasSuffix
  exact List.isSuffixOf_iff_suffix

theorem getFixturePath_eq (E : Env) (root id : Str) :
    GetFixturePath E root id =
      E.filepathJoin [root, categoryByPrefix id, id ++ fixtureExt id] := by
  unfold GetFixturePath fixtureExt
  simp only [getCaseType_eq]
  rcases categoryByPrefix_cases id with h | h | h
  · rw [h]; rfl
  · rw [h]; rfl
  · rw [h]
    have e1 : ¬ CaseTypeTool = CaseTypeGrounding := by decide
    have e2 : ¬ CaseTypeTool = CaseTypeSchema := by decide
    simp only [e1, e2, if_false, if_true]
    by_cases hs : "_secret".toList <:+ id ∨ "_behavior".toList <:+ id
    · have : (HasSuffix id "_secret".toList || HasSuffix id "_behavior".toList) = true := by
        rw [Bool.or_eq_true, hasSuffix_iff, hasSuffix_iff]; exact hs
      rw [if_pos this, if_pos hs]
      rfl
    · have : ¬ (HasSuffix id "_secret".toList || HasSuffix id "_behavior".toList) = true := by
        rw [Bool.or_eq_true, hasSuffix_iff, hasSuffix_iff]; exact hs
      rw [if_neg this, if_neg hs]
      rfl

theorem runSuiteLoop_snd_all (E : Env) (s : Suite) (dir : Str) (cs : List Case)
    (res : List Result) (he : Bool) :
    (runSuiteLoop E s dir false cs (res, he)).2 =
      (he || (cs.map (fun c => runCase E c s dir)).any isError) := by
  induction cs generalizing res he with
  | nil => simp [runSuiteLoop]
  | cons c t ih =>
    rw [runSuiteLoop]
    simp only [Bool.false_and, Bool.false_eq_true, if_false]
    rw [ih, List.map_cons, List.any_cons]
    unfold isError
    by_cases h : (runCase E c s dir).Status = StatusError
    · simp [h]
    · simp [h]

theorem runSuiteLoop_snd_failFast (E : Env) (s : Suite) (dir : Str) (cs : List Case)
    (res : List Result) (he : Bool) :
    (runSuiteLoop E s dir true cs (res, he)).2 =
      (he || (upToFirstFailure (cs.map (fun c => runCase E c s dir))).any isError) := by
  induction cs generalizing res he with
  | nil => simp [runSuiteLoop, upToFirstFailure]
  | cons c t ih =>
    rw [runSuiteLoop, List.map_cons, upToFirstFailure]
    simp only [Bool.true_and]
    by_cases hstop : stopsRun (runCase E c s dir) = true
    · have hstop' := hstop
      unfold stopsRun at hstop'
      rw [if_pos hstop', if_pos hstop]
      unfold isError
      by_cases h : (runCase E c s dir).Status = StatusError
      · simp [h]
      · simp [h]
    · have hstop' := hstop
      unfold stopsRun at hstop'
      rw [if_neg hstop', if_neg hstop, ih, List.any_cons]
      unfold isError
      by_cases h : (runCase E c s dir).Status = StatusError
      · simp [h]
      · simp [h]

theorem runSuite_snd (E : Env) (s : Suite) (dir : Str) (failFast : Bool) :
    (RunSuite E s dir failFast).2 = (RunSuite E s dir failFast).1.any isError := by
  rw [runSuite_fst]
  unfold RunSuite
  cases failFast
  · rw [runSuiteLoop_snd_all]; simp
  · rw [runSuiteLoop_snd_failFast]; simp

theorem countStatuses_failed (results : List Result) (acc : Nat × Nat × Nat) :
    (results.foldl
        (fun (acc : Nat × Nat × Nat) r =>
          if r.Status = StatusPass then (acc.1 + 1, acc.2.1, acc.2.2)
          else if r.Status = StatusFail then (acc.1, acc.2.1 + 1, acc.2.2)
          else if r.Status = StatusError then (acc.1, acc.2.1, acc.2.2 + 1)
          else acc)
        acc).2.1 = acc.2.1 + results.countP isFail := by
  induction results generalizing acc with
  | nil => simp
  | cons r t ih =>
    rw [List.foldl_cons, ih, List.countP_cons]
    by_cases h1 : r.Status = StatusPass
    · have h2 : ¬ r.Status = StatusFail := by rw [h1]; decide
      have h2' : ¬ isFail r = true := by unfold isFail; simpa using h2
      rw [if_pos h1, if_neg h2']
      rfl
    · by_cases h2 : r.Status = StatusFail
      · have h2' : isFail r = true := by unfold isFail; simpa using h2
        rw [if_neg h1, if_pos h2, if_pos h2']
        show acc.2.1 + 1 + _ = _
        omega
      · have h2' : ¬ isFail r = true := by unfold isFail; simpa using h2
        by_cases h3 : r.Status = StatusError
        · rw [if_neg h1, if_neg h2, if_pos h3, if_neg h2']
          rfl
        · rw [if_neg h1, if_neg h2, if_neg h3, if_neg h2']
          rfl

theorem runExitCode_eq (results : List Result) (hasError : Bool) :
    runExitCode results hasError =
      if hasError then 2 else if results.any isFail then 1 else 0 := by
  unfold runExitCode countStatuses
  rw [countStatuses_failed]
  simp only [Nat.zero_add]
  cases hasError
  · simp only [Bool.false_eq_true, if_false]
    by_cases h : results.any isFail = true
    · have : results.countP isFail > 0 := by
        rw [gt_iff_lt, List.countP_pos_iff]
        simpa using h
      simp [h, this]
    · have : ¬ results.countP isFail > 0 := by
        rw [gt_iff_lt, List.countP_pos_iff]
        simpa using h
      rw [if_neg this, if_neg h]
  · simp

theorem status_of_mem_runSuite (E : Env) (s : Suite) (dir : Str) (failFast : Bool) (r : Result)
    (h : r ∈ (RunSuite E s dir failFast).1) :
    r.Status = StatusPass ∨ r.Status = StatusFail ∨ r.Status = StatusError := by
  obtain ⟨c, _, e⟩ := mem_runSuite E s dir failFast r h
  rw [e]
  cases hl : LoadFixture E dir c.ID with
  | error err => exact Or.inr (Or.inr (runCase_error_fields E c s dir err hl).1)
  | ok content =>
    obtain ⟨_, h2, h3⟩ := runCase_ok_fields E c s dir content hl
    by_cases hf : (runCase E c s dir).FailureReasons = []
    · exact Or.inl (h2 hf)
    · exact Or.inr (Or.inl (h3 hf))

theorem upToFirstFailure_of_no_stop (l : List Result) (h : ∀ r ∈ l, stopsRun r = false) :
    upToFirstFailure l = l := by
  induction l with
  | nil => rfl
  | cons a t ih =>
    rw [upToFirstFailure, if_neg (by simp [h a (List.mem_cons_self a t)]),
      ih (fun r hr => h r (List.mem_cons_of_mem a hr))]

/-- C11: the boolean of `RunSuite` is true iff some emitted result has status `ERROR`; the
exit code the run command derives is 2 if some emitted result has status `ERROR`,
otherwise 1 if some emitted result has status `FAIL`, otherwise 0; and it is 0 exactly
when every emitted result has status `PASS`. -/
theorem C11_error_flag_and_exit_code (E : Env) (s : Suite) (dir : Str) (failFast : Bool) :
    ((RunSuite E s dir failFast).2 = true ↔
        ∃ r ∈ (RunSuite E s dir failFast).1, r.Status = StatusError) ∧
      runExitCode (RunSuite E s dir failFast).1 (RunSuite E s dir failFast).2 =
        (if ∃ r ∈ (RunSuite E s dir failFast).1, r.Status = StatusError then 2
        else if ∃ r ∈ (RunSuite E s dir failFast).1, r.Status = StatusFail then 1
        else 0) ∧
      (runExitCode (RunSuite E s dir failFast).1 (RunSuite E s dir failFast).2 = 0 ↔
        ∀ r ∈ (RunSuite E s dir failFast).1, r.Status = StatusPass) := by
  have hE : (RunSuite E s dir failFast).1.any isError = true ↔
      ∃ r ∈ (RunSuite E s dir failFast).1, r.Status = StatusError := by
    rw [List.any_eq_true]
    simp [isError]
  have hF : (RunSuite E s dir failFast).1.any isFail = true ↔
      ∃ r ∈ (RunSuite E s dir failFast).1, r.Status = StatusFail := by
    rw [List.any_eq_true]
    simp [isFail]
  have hcode : runExitCode (RunSuite E s dir failFast).1 (RunSuite E s dir failFast).2 =
      (if ∃ r ∈ (RunSuite E s dir failFast).1, r.Status = StatusError then 2
      else if ∃ r ∈ (RunSuite E s dir failFast).1, r.Status = StatusFail then 1
      else 0) := by
    rw [runExitCode_eq, runSuite_snd]
    by_cases h1 : ∃ r ∈ (RunSuite E s dir failFast).1, r.Status = StatusError
    · rw [if_pos (hE.mpr h1), if_pos h1]
    · rw [if_neg (fun h => h1 (hE.mp h)), if_neg h1]
      by_cases h2 : ∃ r ∈ (RunSuite E s dir failFast).1, r.Status = StatusFail
      · rw [if_pos (hF.mpr h2), if_pos h2]
      · rw [if_neg (fun h => h2 (hF.mp h)), if_neg h2]
  refine ⟨?_, hcode, ?_⟩
  · rw [runSuite_snd]; exact hE
  · rw [hcode]
    constructor
    · intro h r hr
      by_cases h1 : ∃ r ∈ (RunSuite E s dir failFast).1, r.Status = StatusError
      · rw [if_pos h1] at h; exact absurd h (by decide)
      · rw [if_neg h1] at h
        by_cases h2 : ∃ r ∈ (RunSuite E s dir failFast).1, r.Status = StatusFail
        · rw [if_pos h2] at h; exact absurd h (by decide)
        · rcases status_of_mem_runSuite E s dir failFast r hr with hp | hf | he
          · exact hp
          · exact absurd ⟨r, hr, hf⟩ h2
          · exact absurd ⟨r, hr, he⟩ h1
    · intro h
      have h1 : ¬ ∃ r ∈ (RunSuite E s dir failFast).1, r.Status = StatusError := by
        rintro ⟨r, hr, he⟩
        rw [h r hr] at he
        exact absurd he (by decide)
      have h2 : ¬ ∃ r ∈ (RunSuite E s dir failFast).1, r.Status = StatusFail := by
        rintro ⟨r, hr, he⟩
        rw [h r hr] at he
        exact absurd he (by decide)
      rw [if_neg h1, if_neg h2]

theorem runSuite_flag_iff (E : Env) (s : Suite) (dir : Str) (failFast : Bool) :
    (RunSuite E s dir failFast).2 = true ↔
      ∃ r ∈ (RunSuite E s dir failFast).1, r.Status = StatusError := by
  rw [runSuite_snd, List.any_eq_true]
  simp [isError]

theorem runExitCode_zero_of_all_pass (results : List Result) (hasError : Bool)
    (hb : hasError = false) (h : ∀ r ∈ results, r.Status = StatusPass) :
    runExitCode results hasError = 0 := by
  rw [runExitCode_eq, hb]
  have : ¬ results.any isFail = true := by
    rw [List.any_eq_true]
    rintro ⟨r, hr, hf⟩
    unfold isFail at hf
    rw [h r hr] at hf
    exact absurd hf (by decide)
  simp [this]

theorem groundingReasons_eq_nil (E : Env) (content : Str) (s : Suite)
    (h : (ValidateGroundingCitations E content s).1 = true) :
    groundingReasons E content s = [] := by
  unfold groundingReasons
  rw [validateGroundingCitations_passed E content s h]
  rfl

/-- C12 (as amended): for every suite that `ValidateSuite` accepts and for which the
fixture of every case loads, passes every assertion of the case and, when the case is
of the grounding category, passes the grounding validator, `RunSuite` returns one
result per case, every status is `PASS`, the error flag is false and the derived exit
code is 0. -/
theorem C12_round_trip_all_pass (E : Env) (isNotExist : Str → Bool) (s : Suite) (dir : Str)
    (failFast : Bool) (_hv : ValidateSuite E isNotExist s dir = none)
    (hc : ∀ c ∈ s.Cases, ∃ content, LoadFixture E dir c.ID = .ok content ∧
      (∀ a ∈ c.Assertions, (ValidateAssertion E content a s).1 = true) ∧
      (GetCaseType c.ID = CaseTypeGrounding → (ValidateGrounding E content s).1 = true)) :
    (∀ r ∈ (RunSuite E s dir failFast).1, r.Status = StatusPass) ∧
      (RunSuite E s dir failFast).1.length = s.Cases.length ∧
      (RunSuite E s dir failFast).2 = false ∧
      runExitCode (RunSuite E s dir failFast).1 (RunSuite E s dir failFast).2 = 0 := by
  have hpass : ∀ c ∈ s.Cases, (runCase E c s dir).Status = StatusPass := by
    intro c hcm
    obtain ⟨content, hl, ha, hg⟩ := hc c hcm
    obtain ⟨h1, h2, _⟩ := runCase_ok_fields E c s dir content hl
    apply h2
    rw [h1, (assertionReasons_eq_nil_iff E content c s).mpr ha, List.nil_append]
    by_cases hgc : GetCaseType c.ID = CaseTypeGrounding
    · rw [if_pos hgc]
      exact groundingReasons_eq_nil E content s (hg hgc)
    · rw [if_neg hgc]
  have hall : ∀ r ∈ s.Cases.map (fun c => runCase E c s dir), r.Status = StatusPass := by
    intro r hr
    obtain ⟨c, hcm, e⟩ := List.mem_map.mp hr
    rw [← e]
    exact hpass c hcm
  have hres : (RunSuite E s dir failFast).1 = s.Cases.map (fun c => runCase E c s dir) := by
    rw [runSuite_fst]
    cases failFast
    · rfl
    · simp only [if_true]
      apply upToFirstFailure_of_no_stop
      intro r hr
      unfold stopsRun
      rw [hall r hr]
      decide
  have h1 : ∀ r ∈ (RunSuite E s dir failFast).1, r.Status = StatusPass := by
    rw [hres]; exact hall
  refine ⟨h1, by rw [hres, List.length_map], ?_, ?_⟩
  · cases hb : (RunSuite E s dir failFast).2 with
    | false => rfl
    | true =>
      obtain ⟨r, hr, he⟩ := (runSuite_flag_iff E s dir failFast).mp hb
      rw [h1 r hr] at he
      exact absurd he (by decide)
  · apply runExitCode_zero_of_all_pass _ _ _ h1
    cases hb : (RunSuite E s dir failFast).2 with
    | false => rfl
    | true =>
      obtain ⟨r, hr, he⟩ := (runSuite_flag_iff E s dir failFast).mp hb
      rw [h1 r hr] at he
      exact absurd he (by decide)

/-- C12 (witness): the suite of the single case `schema_a`, whose fixture `ok` passes its
assertion. -/
theorem C12_round_trip_all_pass_witness :
    ValidateSuite sampleEnv sampleNotExist
        (sampleSuite [] [caseContainsOk "schema_a".toList]) "fx".toList = none ∧
      (RunSuite sampleEnv (sampleSuite [] [caseContainsOk "schema_a".toList]) "fx".toList
        false).1.length = 1 ∧
      runExitCode
        (RunSuite sampleEnv (sampleSuite [] [caseContainsOk "schema_a".toList]) "fx".toList
          false).1
        (RunSuite sampleEnv (sampleSuite [] [caseContainsOk "schema_a".toList]) "fx".toList
          false).2 = 0 :=
  have h := C12_round_trip_all_pass sampleEnv sampleNotExist
    (sampleSuite [] [caseContainsOk "schema_a".toList]) "fx".toList false (by decide)
    (by
      intro c hcm
      have : c = caseContainsOk "schema_a".toList := by simpa [sampleSuite] using hcm
      subst this
      exact ⟨"ok".toList, rfl, by decide, by decide⟩)
  ⟨by decide, h.2.1, h.2.2.2⟩

/-- C12 (counterexample): the suite of the single case `grounding_a` is accepted by
`ValidateSuite`, and its fixture `the sky is blue and clear [doc:d1#c9]` loads and
passes the one assertion of the case; the grounding validator, which `runCase` runs for
grounding cases, rejects the citation, so the status is `FAIL` and the exit code is 1. -/
theorem C12_counterexample_grounding_case_fails :
    ValidateSuite sampleEnv sampleNotExist (sampleSuite [] [caseGroundingSky]) "fx".toList
        = none ∧
      (∀ c ∈ (sampleSuite [] [caseGroundingSky]).Cases, ∀ a ∈ c.Assertions,
        (ValidateAssertion sampleEnv "the sky is blue and clear [doc:d1#c9]".toList a
          (sampleSuite [] [caseGroundingSky])).1 = true) ∧
      (RunSuite sampleEnv (sampleSuite [] [caseGroundingSky]) "fx".toList false).1.map
          (fun r => r.Status) = [StatusFail] ∧
      runExitCode
        (RunSuite sampleEnv (sampleSuite [] [caseGroundingSky]) "fx".toList false).1
        (RunSuite sampleEnv (sampleSuite [] [caseGroundingSky]) "fx".toList false).2 = 1 := by
  decide

theorem validateAssertion_step (a : Assertion) (i j : Nat) (id : Str) (si ti : GoMap Bool)
    (errors : List Bytes) :
    (match validateAssertion a i j id si ti with
      | some err => errors ++ [err]
      | none => errors) = errors ++ assertionViolation i id j a := by
  unfold validateAssertion assertionViolation
  cases hv : validTypes a.Type_
  · simp
  · cases he : a.Expected <;> simp [Value.isNull]

theorem validateAssertionsLoop_eq (i : Nat) (id : Str) (si ti : GoMap Bool) (j : Nat)
    (as : List Assertion) (errors : List Bytes) :
    validateAssertionsLoop i id si ti j as errors = errors ++ assertionViolations i id j as := by
  induction as generalizing j errors with
  | nil => simp [validateAssertionsLoop, assertionViolations]
  | cons a rest ih =>
    rw [validateAssertionsLoop, assertionViolations]
    simp only [validateAssertion_step]
    rw [ih, List.append_assoc]

theorem validateCasesLoop_eq (E : Env) (isNotExist : Str → Bool) (dir : Str)
    (si ti : GoMap Bool) (i : Nat) (cs : List Case) (errors : List Bytes) (caseIDs : GoMap Bool)
    (earlier : List Str) (hseen : ∀ x, caseIDs.getBool x = decide (x ∈ earlier)) :
    (validateCasesLoop E isNotExist dir si ti i cs (errors, caseIDs)).1 =
      errors ++ collectCases (caseViolations E isNotExist dir) i earlier cs := by
  induction cs generalizing i errors caseIDs earlier with
  | nil => simp [validateCasesLoop, collectCases]
  | cons c rest ih =>
    rw [validateCasesLoop, collectCases]
    simp only [validateAssertionsLoop_eq]
    have hseen' : ∀ x, (caseIDs.set c.ID true).getBool x = decide (x ∈ earlier ++ [c.ID]) := by
      intro x
      by_cases hx : x = c.ID
      · subst hx; simp [GoMap.getBool, GoMap.set]
      · have := hseen x
        simp only [GoMap.getBool] at this
        simp [GoMap.getBool, GoMap.set, hx, this]
    rw [ih _ _ _ _ hseen']
    unfold caseViolations formatViolation duplicateViolation otherCaseViolations
    have hd : caseIDs.getBool c.ID = decide (c.ID ∈ earlier) := hseen c.ID
    have hl : (c.Assertions.length = 0) ↔ c.Assertions.isEmpty = true := by
      cases c.Assertions <;> simp
    by_cases h1 : caseIDPatternMatch c.ID = true <;> by_cases h2 : c.ID ∈ earlier <;>
      by_cases h3 : c.Assertions.isEmpty = true <;>
      by_cases h4 : isNotExist (GetFixturePath E dir c.ID) = true <;>
      simp [h1, h2, h3, h4, hd, hl]

theorem groundingLoop_eq (s : Suite) (errors : List Bytes) :
    (if s.Grounding.CitationFormat ≠ [] then
        s.Grounding.ValidDocIDs.foldl
          (fun errors docID =>
            match BuildDocIndex s docID with
            | none => errors ++ [msgUnknownValidDoc docID]
            | some _ => errors)
          errors
      else errors) = errors ++ groundingViolations s := by
  unfold groundingViolations
  by_cases h : s.Grounding.CitationFormat = []
  · simp [h]
  · simp only [ne_eq, h, not_false_eq_true, if_true, if_false]
    rw [foldl_append_flatMap (fun docID =>
      if s.Docs.all (fun d => d.ID ≠ docID) = true then [msgUnknownValidDoc docID] else [])]
    · rw [flatMap_ite_singleton]
    · intro acc docID _
      rw [buildDocIndex_apply]
      have hnone : lastDocWithID s.Docs docID = none ↔ s.Docs.all (fun d => d.ID ≠ docID) = true := by
        unfold lastDocWithID
        simp
      cases hl : lastDocWithID s.Docs docID with
      | none =>
        rw [if_pos (hnone.mp hl)]
        rfl
      | some d =>
        have : ¬ s.Docs.all (fun d => d.ID ≠ docID) = true := by
          intro e
          have := hnone.mpr e
          rw [hl] at this
          exact absurd this (by simp)
        rw [if_neg this]
        simp

theorem schemaCheck_aux (ty ap : Option Value) (msg : Bytes) :
    (match ty with
      | some schemaType =>
        match schemaType with
        | Value.str t =>
          if t = "object".toList then
            match ap with
            | some addProps =>
              match addProps with
              | Value.bool false => none
              | _ => some msg
            | none => some msg
          else none
        | _ => none
      | none => none) =
      if ((match ty with
            | some (Value.str t) => decide (t = "object".toList)
            | _ => false) &&
          !match ap with
            | some (Value.bool false) => true
            | _ => false) = true then some msg
      else none := by
  cases ty with
  | none => simp
  | some v =>
    cases v with
    | str t =>
      by_cases hobj : t = "object".toList
      · simp only [hobj, if_true, decide_True, Bool.true_and]
        cases ap with
        | none => simp
        | some w =>
          cases w with
          | bool b => cases b <;> simp
          | _ => simp
      · have hd : decide (t = "object".toList) = false := by simpa using hobj
        simp only [hd, Bool.false_and, Bool.false_eq_true, if_false]
        rw [if_neg hobj]
    | _ => simp

theorem validateSchema_eq (expected : Value) (i j : Nat) (id : Str) :
    validateSchemaHasAdditionalPropertiesFalse expected i j id =
      if breaksAdditionalPropertiesRule expected = true then
        some (msgAdditionalProperties i id j)
      else none := by
  cases expected with
  | map schema =>
    exact schemaCheck_aux (schema.lookup "type".toList)
      (schema.lookup "additionalProperties".toList) (msgAdditionalProperties i id j)
  | _ => rfl

theorem schemaStep_eq (i : Nat) (id : Str) (j : Nat) (a : Assertion) (errors : List Bytes) :
    (if a.Type_ = "json_schema".toList then
        match validateSchemaHasAdditionalPropertiesFalse a.Expected i j id with
        | some err => errors ++ [err]
        | none => errors
      else errors) = errors ++ schemaViolation i id j a := by
  unfold schemaViolation
  by_cases ht : a.Type_ = "json_schema".toList
  · rw [if_pos ht, validateSchema_eq]
    by_cases hb : breaksAdditionalPropertiesRule a.Expected = true
    · rw [if_pos hb, if_pos ⟨ht, hb⟩]
    · rw [if_neg hb, if_neg (fun h => hb h.2), List.append_nil]
  · rw [if_neg ht, if_neg (fun h => ht h.1), List.append_nil]

theorem schemaAssertionsLoop_eq (i : Nat) (id : Str) (j : Nat) (as : List Assertion)
    (errors : List Bytes) :
    schemaAssertionsLoop i id j as errors = errors ++ schemaAssertionViolations i id j as := by
  induction as generalizing j errors with
  | nil => simp [schemaAssertionsLoop, schemaAssertionViolations]
  | cons a rest ih =>
    rw [schemaAssertionsLoop, schemaAssertionViolations]
    simp only [schemaStep_eq]
    rw [ih, List.append_assoc]

theorem schemaCasesLoop_eq (i : Nat) (cs : List Case) (errors : List Bytes) :
    schemaCasesLoop i cs errors = errors ++ schemaViolations i cs := by
  induction cs generalizing i errors with
  | nil => simp [schemaCasesLoop, schemaViolations]
  | cons c rest ih =>
    rw [schemaCasesLoop, schemaViolations, ih, schemaAssertionsLoop_eq, List.append_assoc]

theorem validateSuite_eq (E : Env) (isNotExist : Str → Bool) (s : Suite) (dir : Str) :
    ValidateSuite E isNotExist s dir =
      if (suiteViolations E isNotExist s dir).length > 0 then
        some { Errors := suiteViolations E isNotExist s dir }
      else none := by
  have hh : (if s.Cases.length = 0 then
        (if s.Name = [] then ([] : List Bytes) ++ [utf8 "suite_name is required".toList] else [])
          ++ [utf8 "cases array must contain at least one test case".toList]
      else (if s.Name = [] then ([] : List Bytes) ++ [utf8 "suite_name is required".toList]
        else [])) = headerViolations s := by
    unfold headerViolations
    cases s.Cases <;> by_cases hn : s.Name = [] <;> simp [hn]
  unfold ValidateSuite
  simp only [hh]
  rw [validateCasesLoop_eq E isNotExist dir _ _ 0 s.Cases _ GoMap.empty []
    (by intro x; simp [GoMap.getBool, GoMap.empty])]
  simp only [groundingLoop_eq, schemaCasesLoop_eq]
  rfl

theorem validationErrors_eq (E : Env) (isNotExist : Str → Bool) (s : Suite) (dir : Str) :
    validationErrors (ValidateSuite E isNotExist s dir) = suiteViolations E isNotExist s dir := by
  rw [validateSuite_eq]
  cases h : suiteViolations E isNotExist s dir with
  | nil => rfl
  | cons a t => simp [validationErrors]

theorem validateSuite_eq_none_iff (E : Env) (isNotExist : Str → Bool) (s : Suite) (dir : Str) :
    ValidateSuite E isNotExist s dir = none ↔ suiteViolations E isNotExist s dir = [] := by
  rw [validateSuite_eq]
  cases h : suiteViolations E isNotExist s dir with
  | nil => simp
  | cons a t => simp
theorem caseIDPatternMatch_iff (id : Str) : caseIDPatternMatch id = true ↔ WellFormedID id := by
  unfold caseIDPatternMatch WellFormedID isCaseIDChar
  simp only [Bool.and_eq_true, decide_eq_true_eq, List.all_eq_true, Bool.or_eq_true]
  constructor
  · rintro ⟨⟨h1, h2⟩, h3⟩
    exact ⟨h1, h2, fun c hc => by have := h3 c hc; tauto⟩
  · rintro ⟨h1, h2, h3⟩
    exact ⟨⟨h1, h2⟩, fun c hc => by have := h3 c hc; tauto⟩

theorem validTypes_iff (t : Str) : validTypes t = true ↔ t ∈ recognisedTypes := by
  unfold validTypes recognisedTypes
  simp only [Bool.or_eq_true, decide_eq_true_eq, List.mem_cons, List.mem_singleton,
    List.not_mem_nil, or_false, or_assoc]

theorem isNull_eq_false_iff (v : Value) : v.isNull = false ↔ v ≠ .null := by
  cases v <;> simp [Value.isNull]

theorem assertionViolation_eq_nil_iff (i : Nat) (id : Str) (j : Nat) (a : Assertion) :
    assertionViolation i id j a = [] ↔ a.Type_ ∈ recognisedTypes ∧ a.Expected ≠ .null := by
  unfold assertionViolation
  rw [← validTypes_iff, ← isNull_eq_false_iff]
  cases hv : validTypes a.Type_ <;> cases hn : a.Expected.isNull <;> simp

theorem assertionViolations_eq_nil_iff (i : Nat) (id : Str) (j : Nat) (as : List Assertion) :
    assertionViolations i id j as = [] ↔
      ∀ a ∈ as, a.Type_ ∈ recognisedTypes ∧ a.Expected ≠ .null := by
  induction as generalizing j with
  | nil => simp [assertionViolations]
  | cons a rest ih =>
    rw [assertionViolations, List.append_eq_nil, assertionViolation_eq_nil_iff, ih]
    simp

theorem caseViolations_eq_nil_iff (E : Env) (isNotExist : Str → Bool) (dir : Str) (i : Nat)
    (earlier : List Str) (c : Case) :
    caseViolations E isNotExist dir i earlier c = [] ↔
      WellFormedID c.ID ∧ c.ID ∉ earlier ∧ c.Assertions ≠ [] ∧
        (∀ a ∈ c.Assertions, a.Type_ ∈ recognisedTypes ∧ a.Expected ≠ .null) ∧
        isNotExist (GetFixturePath E dir c.ID) = false := by
  unfold caseViolations formatViolation duplicateViolation otherCaseViolations
  rw [← caseIDPatternMatch_iff, ← assertionViolations_eq_nil_iff i c.ID 0]
  have hl : c.Assertions.isEmpty = true ↔ c.Assertions = [] := List.isEmpty_iff
  by_cases h1 : caseIDPatternMatch c.ID = true <;> by_cases h2 : c.ID ∈ earlier <;>
    by_cases h3 : c.Assertions = [] <;>
    by_cases h4 : isNotExist (GetFixturePath E dir c.ID) = true <;>
    simp [h1, h2, h3, h4, hl]

theorem collectCases_eq_nil_iff (f : Nat → List Str → Case → List Bytes) (i : Nat)
    (earlier : List Str) (cs : List Case) :
    collectCases f i earlier cs = [] ↔
      ∀ pre c post, cs = pre ++ c :: post →
        f (i + pre.length) (earlier ++ pre.map (fun c => c.ID)) c = [] := by
  induction cs generalizing i earlier with
  | nil =>
    simp only [collectCases, true_iff]
    intro pre c post h
    exact absurd h (by simp)
  | cons c0 rest ih =>
    rw [collectCases, List.append_eq_nil, ih]
    constructor
    · rintro ⟨h0, hrest⟩ pre c post hsplit
      cases pre with
      | nil =>
        simp only [List.nil_append, List.cons.injEq] at hsplit
        obtain ⟨e, _⟩ := hsplit
        subst e
        simpa using h0
      | cons p pre' =>
        simp only [List.cons_append, List.cons.injEq] at hsplit
        obtain ⟨e, hs⟩ := hsplit
        subst e
        have := hrest pre' c post hs
        simp only [List.map_cons, List.length_cons]
        rw [show i + (pre'.length + 1) = i + 1 + pre'.length by omega]
        simpa [List.append_assoc] using this
    · intro h
      refine ⟨by simpa using h [] c0 rest rfl, ?_⟩
      intro pre c post hsplit
      have := h (c0 :: pre) c post (by rw [hsplit]; rfl)
      simp only [List.map_cons, List.length_cons] at this
      rw [show i + (pre.length + 1) = i + 1 + pre.length by omega] at this
      simpa [List.append_assoc] using this

theorem nodup_ids_iff_split (cs : List Case) (earlier : List Str) :
    ((cs.map (fun c => c.ID)).Nodup ∧ ∀ c ∈ cs, c.ID ∉ earlier) ↔
      ∀ pre c post, cs = pre ++ c :: post → c.ID ∉ earlier ++ pre.map (fun c => c.ID) := by
  induction cs generalizing earlier with
  | nil =>
    simp only [List.map_nil, List.nodup_nil, List.not_mem_nil, false_implies, implies_true,
      and_self, true_iff]
    intro pre c post h
    exact absurd h (by simp)
  | cons a rest ih =>
    constructor
    · rintro ⟨hnd, hdis⟩ pre x post hsplit
      cases pre with
      | nil =>
        simp only [List.nil_append, List.cons.injEq] at hsplit
        rw [List.map_nil, List.append_nil, ← hsplit.1]
        exact hdis a (List.mem_cons_self a rest)
      | cons p pre' =>
        simp only [List.cons_append, List.cons.injEq] at hsplit
        obtain ⟨e, hs⟩ := hsplit
        subst e
        rw [List.map_cons, List.nodup_cons] at hnd
        have h2 : (rest.map (fun c => c.ID)).Nodup ∧ ∀ y ∈ rest, y.ID ∉ earlier ++ [a.ID] := by
          refine ⟨hnd.2, ?_⟩
          intro y hy hmem
          rcases List.mem_append.mp hmem with h | h
          · exact hdis y (List.mem_cons_of_mem a hy) h
          · apply hnd.1
            rw [← List.mem_singleton.mp h]
            exact List.mem_map_of_mem _ hy
        have := (ih (earlier ++ [a.ID])).mp h2 pre' x post hs
        simpa [List.append_assoc] using this
    · intro h
      have h0 : a.ID ∉ earlier := by simpa using h [] a rest rfl
      have hrest : ∀ pre x post, rest = pre ++ x :: post →
          x.ID ∉ (earlier ++ [a.ID]) ++ pre.map (fun c => c.ID) := by
        intro pre x post hs
        have := h (a :: pre) x post (by rw [hs]; rfl)
        simpa [List.append_assoc] using this
      obtain ⟨hnd, hdis⟩ := (ih (earlier ++ [a.ID])).mpr hrest
      refine ⟨by
        rw [List.map_cons, List.nodup_cons]
        refine ⟨?_, hnd⟩
        intro hmem
        obtain ⟨y, hy, e⟩ := List.mem_map.mp hmem
        exact hdis y hy (by simp [e]), ?_⟩
      intro x hx
      rcases List.mem_cons.mp hx with e | hx'
      · rw [e]; exact h0
      · intro hmem
        exact hdis x hx' (by simp [hmem])

theorem mem_iff_split {α : Type} (l : List α) (P : α → Prop) :
    (∀ x ∈ l, P x) ↔ ∀ pre x post, l = pre ++ x :: post → P x := by
  constructor
  · intro h pre x post e
    exact h x (by rw [e]; simp)
  · intro h x hx
    obtain ⟨pre, post, e⟩ := List.append_of_mem hx
    exact h pre x post e

theorem casesViolations_eq_nil_iff (E : Env) (isNotExist : Str → Bool) (dir : Str)
    (cs : List Case) :
    collectCases (caseViolations E isNotExist dir) 0 [] cs = [] ↔
      (∀ c ∈ cs, WellFormedID c.ID) ∧ (cs.map (fun c => c.ID)).Nodup ∧
        (∀ c ∈ cs, c.Assertions ≠ []) ∧
        (∀ c ∈ cs, ∀ a ∈ c.Assertions, a.Type_ ∈ recognisedTypes ∧ a.Expected ≠ .null) ∧
        (∀ c ∈ cs, isNotExist (GetFixturePath E dir c.ID) = false) := by
  rw [collectCases_eq_nil_iff]
  simp only [caseViolations_eq_nil_iff]
  have hnd := nodup_ids_iff_split cs []
  simp only [List.not_mem_nil, not_false_eq_true, implies_true, and_true] at hnd
  rw [hnd, mem_iff_split cs (fun c => WellFormedID c.ID),
    mem_iff_split cs (fun c => c.Assertions ≠ []),
    mem_iff_split cs (fun c => ∀ a ∈ c.Assertions, a.Type_ ∈ recognisedTypes ∧ a.Expected ≠ .null),
    mem_iff_split cs (fun c => isNotExist (GetFixturePath E dir c.ID) = false)]
  constructor
  · intro h
    refine ⟨?_, ?_, ?_, ?_, ?_⟩ <;> intro pre c post e
    · exact (h pre c post e).1
    · exact (h pre c post e).2.1
    · exact (h pre c post e).2.2.1
    · exact (h pre c post e).2.2.2.1
    · exact (h pre c post e).2.2.2.2
  · rintro ⟨h1, h2, h3, h4, h5⟩ pre c post e
    exact ⟨h1 pre c post e, h2 pre c post e, h3 pre c post e, h4 pre c post e, h5 pre c post e⟩

theorem headerViolations_eq_nil_iff (s : Suite) :
    headerViolations s = [] ↔ s.Name ≠ [] ∧ s.Cases ≠ [] := by
  unfold headerViolations
  have hl : s.Cases.isEmpty = true ↔ s.Cases = [] := List.isEmpty_iff
  by_cases h1 : s.Name = [] <;> by_cases h2 : s.Cases = [] <;> simp [h1, h2, hl]

theorem groundingViolations_eq_nil_iff (s : Suite) :
    groundingViolations s = [] ↔
      (s.Grounding.CitationFormat ≠ [] →
        ∀ id ∈ s.Grounding.ValidDocIDs, ∃ d ∈ s.Docs, d.ID = id) := by
  unfold groundingViolations
  by_cases h : s.Grounding.CitationFormat = []
  · simp [h]
  · simp only [h, if_false, List.map_eq_nil_iff, List.filter_eq_nil_iff, ne_eq,
      not_false_eq_true, true_implies]
    constructor
    · intro hx id hid
      have := hx id hid
      simpa using this
    · intro hx id hid
      obtain ⟨d, hd, e⟩ := hx id hid
      simp only [List.all_eq_true, decide_eq_true_eq, not_forall]
      exact ⟨d, hd, by simpa using e⟩

theorem schemaViolation_eq_nil_iff (i : Nat) (id : Str) (j : Nat) (a : Assertion) :
    schemaViolation i id j a = [] ↔
      (a.Type_ = "json_schema".toList → breaksAdditionalPropertiesRule a.Expected = false) := by
  unfold schemaViolation
  by_cases ht : a.Type_ = "json_schema".toList
  · cases hb : breaksAdditionalPropertiesRule a.Expected
    · rw [if_neg (fun h => absurd h.2 (by simp))]
      simp
    · rw [if_pos ⟨ht, rfl⟩]
      simp [ht]
  · rw [if_neg (fun h => ht h.1)]
    exact ⟨fun _ h => absurd h ht, fun _ => rfl⟩

theorem schemaAssertionViolations_eq_nil_iff (i : Nat) (id : Str) (j : Nat)
    (as : List Assertion) :
    schemaAssertionViolations i id j as = [] ↔
      ∀ a ∈ as, a.Type_ = "json_schema".toList →
        breaksAdditionalPropertiesRule a.Expected = false := by
  induction as generalizing j with
  | nil => simp [schemaAssertionViolations]
  | cons a rest ih =>
    rw [schemaAssertionViolations, List.append_eq_nil, schemaViolation_eq_nil_iff, ih]
    simp

theorem schemaViolations_eq_nil_iff (i : Nat) (cs : List Case) :
    schemaViolations i cs = [] ↔
      ∀ c ∈ cs, ∀ a ∈ c.Assertions, a.Type_ = "json_schema".toList →
        breaksAdditionalPropertiesRule a.Expected = false := by
  induction cs generalizing i with
  | nil => simp [schemaViolations]
  | cons c rest ih =>
    rw [schemaViolations, List.append_eq_nil, schemaAssertionViolations_eq_nil_iff, ih]
    simp

/-- C13: with the missing fixtures given by a predicate on paths, `ValidateSuite` returns
no error iff the suite name is non-empty, there is at least one case, every case id
matches `^[a-z0-9_]{1,32}$`, no two cases share an id, every case has at least one
assertion, every assertion has one of the six recognised types and a non-null
expected value, the fixture at `GetFixturePath` exists for every case, every valid doc
id is the id of a doc when the citation format is non-empty, and every `json_schema`
assertion keeps the additionalProperties rule.  When it fails, its error list holds
every violation of every check, in the order of discovery, and is not empty. -/
theorem C13_validate_suite_accepts_iff (E : Env) (isNotExist : Str → Bool) (s : Suite)
    (dir : Str) :
    (ValidateSuite E isNotExist s dir = none ↔
        s.Name ≠ [] ∧ s.Cases ≠ [] ∧
        (∀ c ∈ s.Cases, WellFormedID c.ID) ∧
        (s.Cases.map (fun c => c.ID)).Nodup ∧
        (∀ c ∈ s.Cases, c.Assertions ≠ []) ∧
        (∀ c ∈ s.Cases, ∀ a ∈ c.Assertions,
          a.Type_ ∈ recognisedTypes ∧ a.Expected ≠ .null) ∧
        (∀ c ∈ s.Cases, isNotExist (GetFixturePath E dir c.ID) = false) ∧
        (s.Grounding.CitationFormat ≠ [] →
          ∀ id ∈ s.Grounding.ValidDocIDs, ∃ d ∈ s.Docs, d.ID = id) ∧
        (∀ c ∈ s.Cases, ∀ a ∈ c.Assertions, a.Type_ = "json_schema".toList →
          breaksAdditionalPropertiesRule a.Expected = false)) ∧
      (∀ ve, ValidateSuite E isNotExist s dir = some ve →
        ve.Errors = suiteViolations E isNotExist s dir ∧ ve.Errors ≠ []) := by
  constructor
  · rw [validateSuite_eq_none_iff]
    unfold suiteViolations
    rw [List.append_eq_nil, List.append_eq_nil, List.append_eq_nil,
      headerViolations_eq_nil_iff, casesViolations_eq_nil_iff, groundingViolations_eq_nil_iff,
      schemaViolations_eq_nil_iff]
    constructor
    · rintro ⟨⟨⟨⟨h1, h2⟩, h3, h4, h5, h6, h7⟩, h8⟩, h9⟩
      exact ⟨h1, h2, h3, h4, h5, h6, h7, h8, h9⟩
    · rintro ⟨h1, h2, h3, h4, h5, h6, h7, h8, h9⟩
      exact ⟨⟨⟨⟨h1, h2⟩, h3, h4, h5, h6, h7⟩, h8⟩, h9⟩
  · intro ve h
    rw [validateSuite_eq] at h
    cases hl : suiteViolations E isNotExist s dir with
    | nil => rw [hl] at h; simp at h
    | cons a t =>
      rw [hl] at h
      simp only [List.length_cons, gt_iff_lt, Nat.zero_lt_succ, if_true, Option.some.injEq] at h
      rw [← h]
      exact ⟨rfl, by simp⟩
theorem breaks_aux (ty ap : Option Value) :
    ((match ty with
        | some (Value.str t) => decide (t = "object".toList)
        | _ => false) &&
      !match ap with
        | some (Value.bool false) => true
        | _ => false) = true ↔
      ty = some (.str "object".toList) ∧ ap ≠ some (.bool false) := by
  cases ty with
  | none => simp
  | some v =>
    cases v with
    | str t =>
      cases ap with
      | none => simp
      | some w =>
        cases w with
        | bool b => cases b <;> simp
        | _ => simp
    | _ => simp

theorem breaksAdditionalPropertiesRule_iff (expected : Value) :
    breaksAdditionalPropertiesRule expected = true ↔
      ∃ schema, expected = .map schema ∧
        schema.lookup "type".toList = some (.str "object".toList) ∧
        schema.lookup "additionalProperties".toList ≠ some (.bool false) := by
  cases expected with
  | map schema =>
    have key := breaks_aux (schema.lookup "type".toList)
      (schema.lookup "additionalProperties".toList)
    constructor
    · intro h
      exact ⟨schema, rfl, key.mp h⟩
    · rintro ⟨schema', e, h⟩
      cases e
      exact key.mpr h
  | _ =>
    unfold breaksAdditionalPropertiesRule
    constructor
    · intro h; exact absurd h (by simp)
    · rintro ⟨schema, e, _⟩; exact absurd e (by simp)

/-- C16: for a `json_schema` assertion `ValidateSuite` reports the additionalProperties
error iff the expected value is a map whose `type` entry is the string `object` and
whose `additionalProperties` entry is absent or is not the boolean false; an
assertion of another type is never checked.  These errors are the last part of the
error list, one per offending assertion in case and assertion order.  A schema with
type object and no additionalProperties key fails validation, and adding
`additionalProperties: false` removes the error. -/
theorem C16_additional_properties_rule :
    (∀ (expected : Value) (i j : Nat) (id : Str),
        validateSchemaHasAdditionalPropertiesFalse expected i j id =
            some (msgAdditionalProperties i id j) ∨
          validateSchemaHasAdditionalPropertiesFalse expected i j id = none) ∧
      (∀ (expected : Value) (i j : Nat) (id : Str),
        validateSchemaHasAdditionalPropertiesFalse expected i j id =
            some (msgAdditionalProperties i id j) ↔
          ∃ schema, expected = .map schema ∧
            schema.lookup "type".toList = some (.str "object".toList) ∧
            schema.lookup "additionalProperties".toList ≠ some (.bool false)) ∧
      (∀ (E : Env) (isNotExist : Str → Bool) (s : Suite) (dir : Str),
        validationErrors (ValidateSuite E isNotExist s dir) =
          (headerViolations s ++ collectCases (caseViolations E isNotExist dir) 0 [] s.Cases
            ++ groundingViolations s) ++ schemaViolations 0 s.Cases) ∧
      (∀ (i : Nat) (id : Str) (j : Nat) (a : Assertion),
        schemaViolation i id j a =
          if a.Type_ = "json_schema".toList ∧
              validateSchemaHasAdditionalPropertiesFalse a.Expected i j id =
                some (msgAdditionalProperties i id j)
          then [msgAdditionalProperties i id j] else []) ∧
      ValidateSuite sampleEnv sampleNotExist
          (sampleSuite [] [caseSchemaA "json_schema".toList schemaObjectOpen]) "fx".toList =
        some ⟨[utf8 ("case[0] 'schema_a' assertion[0]: json_schema must have "
          ++ "additionalProperties: false").toList]⟩ ∧
      ValidateSuite sampleEnv sampleNotExist
          (sampleSuite [] [caseSchemaA "json_schema".toList schemaObjectClosed]) "fx".toList =
        none ∧
      ValidateSuite sampleEnv sampleNotExist
          (sampleSuite [] [caseSchemaA "json_schema".toList schemaObjectAllowing]) "fx".toList =
        some ⟨[msgAdditionalProperties 0 "schema_a".toList 0]⟩ ∧
      ValidateSuite sampleEnv sampleNotExist
          (sampleSuite [] [caseSchemaA "json_schema".toList schemaString]) "fx".toList = none ∧
      ValidateSuite sampleEnv sampleNotExist
          (sampleSuite [] [caseSchemaA "json_schema".toList (.str "object".toList)])
          "fx".toList = none ∧
      ValidateSuite sampleEnv sampleNotExist
          (sampleSuite [] [caseSchemaA "contains".toList schemaObjectOpen]) "fx".toList =
        none := by
  have hsome : ∀ (expected : Value) (i j : Nat) (id : Str),
      validateSchemaHasAdditionalPropertiesFalse expected i j id =
          some (msgAdditionalProperties i id j) ↔
        breaksAdditionalPropertiesRule expected = true := by
    intro expected i j id
    rw [validateSchema_eq]
    cases breaksAdditionalPropertiesRule expected <;> simp
  refine ⟨?_, ?_, ?_, ?_, by decide, by decide, by decide, by decide, by decide, by decide⟩
  · intro expected i j id
    rw [validateSchema_eq]
    cases breaksAdditionalPropertiesRule expected
    · exact Or.inr rfl
    · exact Or.inl rfl
  · intro expected i j id
    rw [hsome, breaksAdditionalPropertiesRule_iff]
  · intro E isNotExist s dir
    rw [validationErrors_eq]
    rfl
  · intro i id j a
    unfold schemaViolation
    simp only [hsome]
theorem collectCases_append (f : Nat → List Str → Case → List Bytes) (i : Nat)
    (earlier : List Str) (l1 l2 : List Case) :
    collectCases f i earlier (l1 ++ l2) =
      collectCases f i earlier l1 ++
        collectCases f (i + l1.length) (earlier ++ l1.map (fun c => c.ID)) l2 := by
  induction l1 generalizing i earlier with
  | nil => simp [collectCases]
  | cons c rest ih =>
    rw [List.cons_append, collectCases, collectCases, ih, List.append_assoc]
    simp only [List.length_cons, List.map_cons, List.append_assoc, List.singleton_append]
    rw [show i + 1 + rest.length = i + (rest.length + 1) by omega]

theorem collectCases_split (f : Nat → List Str → Case → List Bytes) (pre post : List Case)
    (c : Case) :
    collectCases f 0 [] (pre ++ c :: post) =
      collectCases f 0 [] pre ++ f pre.length (pre.map (fun c => c.ID)) c ++
        collectCases f (pre.length + 1) (pre.map (fun c => c.ID) ++ [c.ID]) post := by
  rw [collectCases_append, collectCases]
  simp only [Nat.zero_add, List.nil_append, List.append_assoc]

theorem collectCases_congr (f g : Nat → List Str → Case → List Bytes) (i : Nat)
    (earlier : List Str) (cs : List Case) (h : ∀ c ∈ cs, ∀ j e, f j e c = g j e c) :
    collectCases f i earlier cs = collectCases g i earlier cs := by
  induction cs generalizing i earlier with
  | nil => rfl
  | cons c rest ih =>
    rw [collectCases, collectCases, h c (List.mem_cons_self c rest),
      ih _ _ (fun c' hc' => h c' (List.mem_cons_of_mem c hc'))]

theorem duplicates_eq_nil (i : Nat) (earlier : List Str) (cs : List Case)
    (hnd : (cs.map (fun c => c.ID)).Nodup) (hdis : ∀ c ∈ cs, c.ID ∉ earlier) :
    collectCases duplicateViolation i earlier cs = [] := by
  rw [collectCases_eq_nil_iff]
  intro pre c post e
  unfold duplicateViolation
  rw [if_neg ((nodup_ids_iff_split cs earlier).mp ⟨hnd, hdis⟩ pre c post e)]

theorem caseViolations_of_valid (E : Env) (isNotExist : Str → Bool) (dir : Str) (c : Case)
    (hwf : WellFormedID c.ID) (hne : c.Assertions ≠ [])
    (ha : ∀ a ∈ c.Assertions, a.Type_ ∈ recognisedTypes ∧ a.Expected ≠ .null)
    (hf : isNotExist (GetFixturePath E dir c.ID) = false) (i : Nat) (earlier : List Str) :
    caseViolations E isNotExist dir i earlier c = duplicateViolation i earlier c := by
  unfold caseViolations formatViolation otherCaseViolations
  have h1 := (caseIDPatternMatch_iff c.ID).mpr hwf
  have h2 : c.Assertions.isEmpty = false := by
    cases hc : c.Assertions with
    | nil => exact absurd hc hne
    | cons a t => rfl
  have h3 := (assertionViolations_eq_nil_iff i c.ID 0 c.Assertions).mpr ha
  simp [h1, h2, h3, hf]

theorem duplicate_count (x : Str) (i : Nat) (earlier : List Str) (cs : List Case) :
    (collectCases (fun i earlier c => if c.ID = x then duplicateViolation i earlier c else [])
        i earlier cs).length =
      if x ∈ earlier then (cs.map (fun c => c.ID)).count x
      else (cs.map (fun c => c.ID)).count x - 1 := by
  induction cs generalizing i earlier with
  | nil => simp [collectCases]
  | cons c rest ih =>
    rw [collectCases, List.length_append, ih, List.map_cons]
    by_cases hx : c.ID = x
    · subst hx
      rw [if_pos rfl, List.count_cons_self]
      unfold duplicateViolation
      by_cases he : c.ID ∈ earlier
      · simp [he]
        omega
      · simp [he]
    · have hc : (c.ID == x) = false := by simpa using hx
      have hmem : x ∈ earlier ++ [c.ID] ↔ x ∈ earlier := by
        simp only [List.mem_append, List.mem_singleton, or_iff_left_iff_imp]
        intro e
        exact absurd e.symm hx
      rw [if_neg hx, List.count_cons, hc]
      simp only [List.length_nil, Nat.zero_add, Bool.false_eq_true, if_false, Nat.add_zero, hmem]
theorem msgBadID_ne_msgDuplicateID (i : Nat) (id : Str) :
    msgBadID i id ≠ msgDuplicateID i id := by
  unfold msgBadID msgDuplicateID
  have e1 : utf8 ": id '".toList = (58 : UInt8) :: 32 :: 105 :: utf8 "d '".toList := by decide
  have e2 : utf8 ": duplicate case id '".toList =
      (58 : UInt8) :: 32 :: 100 :: utf8 "uplicate case id '".toList := by decide
  rw [e1, e2]
  intro h
  simp only [List.append_assoc] at h
  have h2 := List.append_cancel_left h
  simp at h2

/-- C14 (as amended): for every suite that is otherwise valid and in which exactly two
cases share a well-formed id, `ValidateSuite` reports exactly one validation error:
the duplicate error of the second of the two cases. -/
theorem C14_one_error_for_a_duplicate_id (E : Env) (isNotExist : Str → Bool) (s : Suite)
    (dir : Str) (pre mid post : List Case) (c1 c2 : Case)
    (hcases : s.Cases = pre ++ c1 :: (mid ++ c2 :: post))
    (hsame : c2.ID = c1.ID)
    (hdistinct : ((pre ++ c1 :: (mid ++ post)).map (fun c => c.ID)).Nodup)
    (hname : s.Name ≠ [])
    (hwf : ∀ c ∈ s.Cases, WellFormedID c.ID)
    (hne : ∀ c ∈ s.Cases, c.Assertions ≠ [])
    (ha : ∀ c ∈ s.Cases, ∀ a ∈ c.Assertions, a.Type_ ∈ recognisedTypes ∧ a.Expected ≠ .null)
    (hf : ∀ c ∈ s.Cases, isNotExist (GetFixturePath E dir c.ID) = false)
    (hg : s.Grounding.CitationFormat ≠ [] →
      ∀ id ∈ s.Grounding.ValidDocIDs, ∃ d ∈ s.Docs, d.ID = id)
    (hs : ∀ c ∈ s.Cases, ∀ a ∈ c.Assertions, a.Type_ = "json_schema".toList →
      breaksAdditionalPropertiesRule a.Expected = false) :
    validationErrors (ValidateSuite E isNotExist s dir) =
        [msgDuplicateID (pre.length + 1 + mid.length) c2.ID] ∧
      (validationErrors (ValidateSuite E isNotExist s dir)).length = 1 := by
  have hcne : s.Cases ≠ [] := by rw [hcases]; simp
  have key : validationErrors (ValidateSuite E isNotExist s dir) =
      [msgDuplicateID (pre.length + 1 + mid.length) c2.ID] := by
    rw [validationErrors_eq]
    unfold suiteViolations
    rw [(headerViolations_eq_nil_iff s).mpr ⟨hname, hcne⟩,
      (groundingViolations_eq_nil_iff s).mpr hg, (schemaViolations_eq_nil_iff 0 s.Cases).mpr hs,
      List.nil_append, List.append_nil, List.append_nil,
      collectCases_congr (caseViolations E isNotExist dir) duplicateViolation 0 [] s.Cases
        (fun c hc j e =>
          caseViolations_of_valid E isNotExist dir c (hwf c hc) (hne c hc) (ha c hc) (hf c hc) j e),
      hcases]
    have hids : ((pre ++ c1 :: (mid ++ post)).map (fun c => c.ID)) =
        pre.map (fun c => c.ID) ++ c1.ID :: (mid.map (fun c => c.ID) ++ post.map (fun c => c.ID)) := by
      simp
    rw [hids] at hdistinct
    have hfront : ((pre ++ c1 :: mid).map (fun c => c.ID)).Nodup := by
      have : List.Sublist ((pre ++ c1 :: mid).map (fun c => c.ID))
          (pre.map (fun c => c.ID) ++
            c1.ID :: (mid.map (fun c => c.ID) ++ post.map (fun c => c.ID))) := by
        simp only [List.map_append, List.map_cons]
        apply List.Sublist.append (List.Sublist.refl _)
        apply List.Sublist.cons₂
        exact List.sublist_append_left _ _
      exact hdistinct.sublist this
    have hpost : (post.map (fun c => c.ID)).Nodup ∧
        ∀ c ∈ post, c.ID ∉ ([] ++ (pre ++ c1 :: mid).map (fun c => c.ID)) ++ [c2.ID] := by
      have hsub : List.Sublist (post.map (fun c => c.ID))
          (pre.map (fun c => c.ID) ++
            c1.ID :: (mid.map (fun c => c.ID) ++ post.map (fun c => c.ID))) := by
        apply List.sublist_append_of_sublist_right
        apply List.Sublist.cons
        exact List.sublist_append_right _ _
      refine ⟨hdistinct.sublist hsub, ?_⟩
      intro c hc hmem
      have hcid : c.ID ∈ post.map (fun c => c.ID) := List.mem_map_of_mem _ hc
      have hin : c.ID ∈ pre.map (fun c => c.ID) ++ c1.ID :: mid.map (fun c => c.ID) := by
        simp only [List.nil_append, List.map_append, List.map_cons, List.mem_append,
          List.mem_cons, List.mem_singleton, hsame] at hmem
        simp only [List.mem_append, List.mem_cons]
        tauto
      have hd2 : (pre.map (fun c => c.ID) ++ c1.ID :: mid.map (fun c => c.ID)
          ++ post.map (fun c => c.ID)).Nodup := by
        simpa [List.append_assoc] using hdistinct
      exact (List.disjoint_of_nodup_append hd2) hin hcid
    have e1 : pre ++ c1 :: (mid ++ c2 :: post) = (pre ++ c1 :: mid) ++ c2 :: post := by simp
    rw [e1, collectCases_append, collectCases,
      duplicates_eq_nil 0 [] (pre ++ c1 :: mid) hfront (by simp),
      duplicates_eq_nil _ _ post hpost.1 hpost.2]
    unfold duplicateViolation
    have hmem : c2.ID ∈ [] ++ (pre ++ c1 :: mid).map (fun c => c.ID) := by
      rw [hsame]; simp
    rw [if_pos hmem]
    simp only [List.nil_append, List.append_nil, List.length_append, List.length_cons,
      Nat.zero_add]
    rw [show pre.length + (mid.length + 1) = pre.length + 1 + mid.length by omega]
  exact ⟨key, by rw [key]; rfl⟩

/-- C14 (witness): the cases `schema_a`, `schema_a` of the sample file system. -/
theorem C14_one_error_for_a_duplicate_id_witness :
    validationErrors (ValidateSuite sampleEnv sampleNotExist
        (sampleSuite [] [caseContainsOk "schema_a".toList, caseContainsOk "schema_a".toList])
        "fx".toList) =
      [msgDuplicateID (([] : List Case).length + 1 + ([] : List Case).length)
        (caseContainsOk "schema_a".toList).ID] :=
  (C14_one_error_for_a_duplicate_id sampleEnv sampleNotExist
    (sampleSuite [] [caseContainsOk "schema_a".toList, caseContainsOk "schema_a".toList])
    "fx".toList [] [] [] (caseContainsOk "schema_a".toList) (caseContainsOk "schema_a".toList)
    rfl rfl (by decide) (by decide)
    (by
      intro c hc
      have : c = caseContainsOk "schema_a".toList := by simpa [sampleSuite] using hc
      subst this
      exact (caseIDPatternMatch_iff _).mp (by decide))
    (by
      intro c hc
      have : c = caseContainsOk "schema_a".toList := by simpa [sampleSuite] using hc
      subst this
      simp [caseContainsOk])
    (by
      intro c hc a hac
      have : c = caseContainsOk "schema_a".toList := by simpa [sampleSuite] using hc
      subst this
      have : a = ⟨"contains".toList, .str "ok".toList, 0⟩ := by simpa [caseContainsOk] using hac
      subst this
      exact ⟨by decide, by simp⟩)
    (by
      intro c hc
      have : c = caseContainsOk "schema_a".toList := by simpa [sampleSuite] using hc
      subst this
      decide)
    (by intro h; exact absurd rfl h)
    (by
      intro c hc a hac
      have : c = caseContainsOk "schema_a".toList := by simpa [sampleSuite] using hc
      subst this
      have : a = ⟨"contains".toList, .str "ok".toList, 0⟩ := by simpa [caseContainsOk] using hac
      subst this
      intro h
      exact absurd h (by decide))).1

/-- C14 (counterexample): with every fixture present, the suite of the two cases `case_a`,
`case_a` gets one validation error, `case[1]: duplicate case id 'case_a'`, not two. -/
theorem C14_counterexample_one_error_not_two :
    ValidateSuite sampleEnv (fun _ => false)
        (sampleSuite [] [caseContainsOk "case_a".toList, caseContainsOk "case_a".toList])
        "fx".toList =
      some ⟨[utf8 "case[1]: duplicate case id 'case_a'".toList]⟩ ∧
    (validationErrors (ValidateSuite sampleEnv (fun _ => false)
        (sampleSuite [] [caseContainsOk "case_a".toList, caseContainsOk "case_a".toList])
        "fx".toList)).length ≠ 2 := by
  decide
/-- C15: in `ValidateSuite` the id-format check and the id-uniqueness check fire
independently for each case.  The error list holds, at the place of each case, its
format error, then its duplicate error, then its other errors; the format error is
there iff the id does not match `^[a-z0-9_]{1,32}$`, and the duplicate error is there
iff an earlier case has the same id.  So a case whose id is malformed and repeats an
earlier id gets the two distinct reasons, and the cases that share an id occurring k
times get k-1 duplicate errors. -/
theorem C15_format_and_uniqueness_checks (E : Env) (isNotExist : Str → Bool) (s : Suite)
    (dir : Str) :
    (∀ pre c post, s.Cases = pre ++ c :: post →
        validationErrors (ValidateSuite E isNotExist s dir) =
          headerViolations s ++
            (collectCases (caseViolations E isNotExist dir) 0 [] pre ++
              (formatViolation pre.length c ++
                duplicateViolation pre.length (pre.map (fun c => c.ID)) c ++
                otherCaseViolations E isNotExist dir pre.length c) ++
              collectCases (caseViolations E isNotExist dir) (pre.length + 1)
                (pre.map (fun c => c.ID) ++ [c.ID]) post) ++
            groundingViolations s ++ schemaViolations 0 s.Cases) ∧
      (∀ (i : Nat) (c : Case),
        (WellFormedID c.ID → formatViolation i c = []) ∧
          (¬ WellFormedID c.ID → formatViolation i c = [msgBadID i c.ID])) ∧
      (∀ (i : Nat) (pre : List Case) (c : Case),
        ((∃ c' ∈ pre, c'.ID = c.ID) →
            duplicateViolation i (pre.map (fun c => c.ID)) c = [msgDuplicateID i c.ID]) ∧
          ((¬ ∃ c' ∈ pre, c'.ID = c.ID) →
            duplicateViolation i (pre.map (fun c => c.ID)) c = [])) ∧
      (∀ (i : Nat) (pre : List Case) (c : Case),
        ¬ WellFormedID c.ID → (∃ c' ∈ pre, c'.ID = c.ID) →
          formatViolation i c ++ duplicateViolation i (pre.map (fun c => c.ID)) c =
              [msgBadID i c.ID, msgDuplicateID i c.ID] ∧
            msgBadID i c.ID ≠ msgDuplicateID i c.ID) ∧
      (∀ x : Str,
        (duplicateViolationsOf x s.Cases).length = (s.Cases.map (fun c => c.ID)).count x - 1) ∧
      validationErrors (ValidateSuite sampleEnv (fun _ => false)
          (sampleSuite [] [caseBadID, caseBadID]) "fx".toList) =
        [msgBadID 0 "Bad-ID".toList, msgBadID 1 "Bad-ID".toList,
          msgDuplicateID 1 "Bad-ID".toList] := by
  have hfmt : ∀ (i : Nat) (c : Case),
      (WellFormedID c.ID → formatViolation i c = []) ∧
        (¬ WellFormedID c.ID → formatViolation i c = [msgBadID i c.ID]) := by
    intro i c
    unfold formatViolation
    constructor
    · intro h
      rw [if_pos ((caseIDPatternMatch_iff c.ID).mpr h)]
    · intro h
      rw [if_neg (fun e => h ((caseIDPatternMatch_iff c.ID).mp e))]
  have hdup : ∀ (i : Nat) (pre : List Case) (c : Case),
      ((∃ c' ∈ pre, c'.ID = c.ID) →
          duplicateViolation i (pre.map (fun c => c.ID)) c = [msgDuplicateID i c.ID]) ∧
        ((¬ ∃ c' ∈ pre, c'.ID = c.ID) →
          duplicateViolation i (pre.map (fun c => c.ID)) c = []) := by
    intro i pre c
    unfold duplicateViolation
    have hm : c.ID ∈ pre.map (fun c => c.ID) ↔ ∃ c' ∈ pre, c'.ID = c.ID := by
      simp [List.mem_map]
    constructor
    · intro h
      rw [if_pos (hm.mpr h)]
    · intro h
      rw [if_neg (fun e => h (hm.mp e))]
  refine ⟨?_, hfmt, hdup, ?_, ?_, by decide⟩
  · intro pre c post hsplit
    rw [validationErrors_eq]
    unfold suiteViolations
    rw [hsplit, collectCases_split]
    rfl
  · intro i pre c hwf hrep
    rw [(hfmt i c).2 hwf, (hdup i pre c).1 hrep]
    exact ⟨rfl, msgBadID_ne_msgDuplicateID i c.ID⟩
  · intro x
    unfold duplicateViolationsOf
    rw [duplicate_count]
    simp
theorem validateContains_reason (content : Str) (expected : Value) :
    (ValidateContains content expected).2 = [] ↔ (ValidateContains content expected).1 = true := by
  have hne : ∀ x y : Bytes, utf8 "content does not contain expected string '".toList ++ x ++ y
      ≠ [] := by
    intro x y e
    exact absurd (List.append_eq_nil.mp (List.append_eq_nil.mp e).1).1 (by decide)
  have hne2 : utf8 "expected must be a string, got ".toList ++ utf8 (goTypeName expected) ≠ [] := by
    intro e
    exact absurd (List.append_eq_nil.mp e).1 (by decide)
  cases expected with
  | str e =>
    by_cases h : Contains content e = true
    · simp [ValidateContains, h]
    · simp only [ValidateContains, h, if_false]
      exact ⟨fun e' => absurd e' (hne _ _), fun e' => absurd e' (by simp)⟩
  | _ => exact ⟨fun e' => absurd e' hne2, fun e' => absurd e' (by simp [ValidateContains])⟩

theorem validateExactMatch_reason (content : Str) (expected : Value) :
    (ValidateExactMatch content expected).2 = [] ↔
      (ValidateExactMatch content expected).1 = true := by
  have hne2 : utf8 "expected must be a string, got ".toList ++ utf8 (goTypeName expected) ≠ [] := by
    intro e
    exact absurd (List.append_eq_nil.mp e).1 (by decide)
  cases expected with
  | str e =>
    by_cases h : TrimSpace content = TrimSpace e
    · simp [ValidateExactMatch, h]
    · simp only [ValidateExactMatch, h, if_false]
      exact ⟨fun e' => absurd e' (by decide), fun e' => absurd e' (by simp)⟩
  | _ => exact ⟨fun e' => absurd e' hne2, fun e' => absurd e' (by simp [ValidateExactMatch])⟩

theorem validateRegex_reason (E : Env) (content : Str) (expected : Value) :
    (ValidateRegex E content expected).2 = [] ↔ (ValidateRegex E content expected).1 = true := by
  have hne2 : utf8 "expected must be a string pattern, got ".toList
      ++ utf8 (goTypeName expected) ≠ [] := by
    intro e
    exact absurd (List.append_eq_nil.mp e).1 (by decide)
  cases expected with
  | str p =>
    unfold ValidateRegex
    simp only []
    cases hc : E.regexpCompile p with
    | error err =>
      simp only []
      refine ⟨fun e' => ?_, fun e' => absurd e' (by simp)⟩
      exact absurd (List.append_eq_nil.mp (List.append_eq_nil.mp
        (List.append_eq_nil.mp e').1).1).1 (by decide)
    | ok re =>
      simp only []
      by_cases h : re content = true
      · simp [h]
      · simp only [h, if_false]
        refine ⟨fun e' => ?_, fun e' => absurd e' (by simp)⟩
        exact absurd (List.append_eq_nil.mp (List.append_eq_nil.mp e').1).1 (by decide)
  | _ => exact ⟨fun e' => absurd e' hne2, fun e' => absurd e' (by simp [ValidateRegex])⟩

theorem validateJSONSchema_reason (E : Env) (content : Str) (expected : Value) :
    (ValidateJSONSchema E content expected).2 = [] ↔
      (ValidateJSONSchema E content expected).1 = true := by
  have hlit : ∀ (l x : Bytes), l ≠ [] → l ++ x ≠ [] := by
    intro l x hl e
    exact hl (List.append_eq_nil.mp e).1
  unfold ValidateJSONSchema
  simp only []
  split
  · exact ⟨fun e' => absurd e' (by decide), fun e' => absurd e' (by simp)⟩
  · split
    · exact ⟨fun e' => absurd e' (hlit _ _ (by decide)), fun e' => absurd e' (by simp)⟩
    · split
      · exact ⟨fun e' => absurd e' (hlit _ _ (by decide)), fun e' => absurd e' (by simp)⟩
      · split
        · exact ⟨fun e' => absurd e' (hlit _ _ (by decide)), fun e' => absurd e' (by simp)⟩
        · split
          · exact ⟨fun e' => absurd e' (hlit _ _ (by decide)), fun e' => absurd e' (by simp)⟩
          · split
            · exact ⟨fun e' => absurd e' (hlit _ _ (by decide)), fun e' => absurd e' (by simp)⟩
            · simp
theorem validateJSONSchema_passes_iff (E : Env) (content : Str) (expected : Value) :
    (ValidateJSONSchema E content expected).1 = true ↔
      extractJSON content ≠ [] ∧
        ∃ data sb sch, E.jsonUnmarshal (extractJSON content) = .ok data ∧
          E.jsonMarshal expected = .ok sb ∧ E.schemaAddResource sb = none ∧
          E.schemaCompile sb = .ok sch ∧ E.schemaValidate sch data = none := by
  unfold ValidateJSONSchema
  simp only []
  by_cases h0 : extractJSON content = []
  · simp [h0]
  · rw [if_neg h0]
    cases h1 : E.jsonUnmarshal (extractJSON content) with
    | error err => simp
    | ok data =>
      cases h2 : E.jsonMarshal expected with
      | error err => simp
      | ok sb =>
        cases h3 : E.schemaAddResource sb with
        | some err => simp [h0, h3]
        | none =>
          cases h4 : E.schemaCompile sb with
          | error err => simp [h0, h3, h4]
          | ok sch =>
            cases h5 : E.schemaValidate sch data with
            | some err => simp [h0, h3, h4, h5]
            | none => simp [h0, h3, h4, h5]

theorem validateAssertion_reason (E : Env) (content : Str) (a : Assertion) (s : Suite) :
    (ValidateAssertion E content a s).2 = [] ↔ (ValidateAssertion E content a s).1 = true := by
  unfold ValidateAssertion
  split
  · exact validateContains_reason content a.Expected
  · split
    · exact validateRegex_reason E content a.Expected
    · split
      · exact validateJSONSchema_reason E content a.Expected
      · split
        · exact validateExactMatch_reason content a.Expected
        · refine ⟨fun e => ?_, fun e => absurd e (by simp)⟩
          exact absurd (List.append_eq_nil.mp e).1 (by decide)

theorem failsWithReason_of_not_passed (E : Env) (content : Str) (a : Assertion) (s : Suite)
    (h : (ValidateAssertion E content a s).1 ≠ true) :
    failsWithReason (ValidateAssertion E content a s) :=
  ⟨by simpa using h, fun e => h ((validateAssertion_reason E content a s).mp e)⟩

theorem validateAssertion_of_unknown (E : Env) (content : Str) (a : Assertion) (s : Suite)
    (h : a.Type_ ∉ validatedTypes) :
    ValidateAssertion E content a s =
      (false, utf8 "unknown assertion type: ".toList ++ utf8 a.Type_) := by
  simp only [validatedTypes, List.mem_cons, List.mem_singleton, List.not_mem_nil, or_false,
    not_or] at h
  unfold ValidateAssertion
  rw [if_neg h.1, if_neg h.2.1, if_neg h.2.2.1, if_neg h.2.2.2]

/-- C21: for every content and every assertion, with the regex, JSON and JSON-schema
libraries arbitrary total functions, the reason `ValidateAssertion` returns is empty iff
the assertion passed.  Every failure mode is a failure with a non-empty reason: an
expected value that is not text (for `contains`, `regex`, `exact_match`), a pattern
that does not compile, content whose extracted candidate does not parse as JSON, a
schema that does not marshal, is refused as a resource or does not compile, a
validation error of the schema, and a type without validator. -/
theorem C21_reason_empty_iff_passed (E : Env) (content : Str) (a : Assertion) (s : Suite) :
    ((ValidateAssertion E content a s).2 = [] ↔ (ValidateAssertion E content a s).1 = true) ∧
      ((a.Type_ = "contains".toList ∨ a.Type_ = "regex".toList ∨
          a.Type_ = "exact_match".toList) → (∀ e, a.Expected ≠ .str e) →
        failsWithReason (ValidateAssertion E content a s)) ∧
      (a.Type_ = "regex".toList →
        (∃ p err, a.Expected = .str p ∧ E.regexpCompile p = .error err) →
        failsWithReason (ValidateAssertion E content a s)) ∧
      (a.Type_ = "json_schema".toList →
        (∃ err, E.jsonUnmarshal (extractJSON content) = .error err) →
        failsWithReason (ValidateAssertion E content a s)) ∧
      (a.Type_ = "json_schema".toList →
        (∃ err, E.jsonMarshal a.Expected = .error err) →
        failsWithReason (ValidateAssertion E content a s)) ∧
      (a.Type_ = "json_schema".toList →
        (∃ sb, E.jsonMarshal a.Expected = .ok sb ∧
          ((∃ err, E.schemaAddResource sb = some err) ∨ ∃ err, E.schemaCompile sb = .error err)) →
        failsWithReason (ValidateAssertion E content a s)) ∧
      (a.Type_ = "json_schema".toList →
        (∃ data sb sch err, E.jsonUnmarshal (extractJSON content) = .ok data ∧
          E.jsonMarshal a.Expected = .ok sb ∧ E.schemaCompile sb = .ok sch ∧
          E.schemaValidate sch data = some err) →
        failsWithReason (ValidateAssertion E content a s)) ∧
      (a.Type_ ∉ validatedTypes → failsWithReason (ValidateAssertion E content a s)) := by
  have hjs : a.Type_ = "json_schema".toList →
      ValidateAssertion E content a s = ValidateJSONSchema E content a.Expected := by
    intro h
    unfold ValidateAssertion
    rw [h, if_neg (by decide), if_neg (by decide), if_pos rfl]
  refine ⟨validateAssertion_reason E content a s, ?_, ?_, ?_, ?_, ?_, ?_, ?_⟩
  · intro ht he
    apply failsWithReason_of_not_passed
    cases hx : a.Expected with
    | str e => exact absurd hx (he e)
    | _ =>
      rcases ht with h | h | h <;>
        simp [ValidateAssertion, h, hx, ValidateContains, ValidateRegex, ValidateExactMatch]
  · rintro ht ⟨p, err, hp, hc⟩
    apply failsWithReason_of_not_passed
    unfold ValidateAssertion
    rw [ht, if_neg (by decide), if_pos rfl, hp]
    simp [ValidateRegex, hc]
  · rintro ht ⟨err, he⟩
    apply failsWithReason_of_not_passed
    rw [hjs ht, Ne, validateJSONSchema_passes_iff]
    rintro ⟨_, data, sb, sch, h1, _⟩
    rw [he] at h1
    cases h1
  · rintro ht ⟨err, he⟩
    apply failsWithReason_of_not_passed
    rw [hjs ht, Ne, validateJSONSchema_passes_iff]
    rintro ⟨_, data, sb, sch, _, h2, _⟩
    rw [he] at h2
    cases h2
  · rintro ht ⟨sb, hm, hor⟩
    apply failsWithReason_of_not_passed
    rw [hjs ht, Ne, validateJSONSchema_passes_iff]
    rintro ⟨_, data, sb', sch, _, h2, h3, h4, _⟩
    rw [hm] at h2
    cases h2
    rcases hor with ⟨err, h⟩ | ⟨err, h⟩
    · rw [h] at h3; cases h3
    · rw [h] at h4; cases h4
  · rintro ht ⟨data, sb, sch, err, hu, hm, hc, hv⟩
    apply failsWithReason_of_not_passed
    rw [hjs ht, Ne, validateJSONSchema_passes_iff]
    rintro ⟨_, data', sb', sch', h1, h2, _, h4, h5⟩
    rw [hu] at h1
    rw [hm] at h2
    cases h1
    cases h2
    rw [hc] at h4
    cases h4
    rw [hv] at h5
    cases h5
  · intro ht
    apply failsWithReason_of_not_passed
    rw [validateAssertion_of_unknown E content a s ht]
    simp
/-- C22: for every content and every assertion whose type is not `contains`, `regex`,
`json_schema` or `exact_match`, `ValidateAssertion` fails with the reason
`unknown assertion type: <type>`.  The types `semantic_similarity` and `llm_judge` are
such types although `validateAssertion` of the suite validator accepts them (with a
non-null expected value), so a case that carries such an assertion has, once its fixture
loads, the status `FAIL` whatever the content of the fixture, with the reason
`[<type>] unknown assertion type: <type>` among its failure reasons. -/
theorem C22_unknown_assertion_type (E : Env) (a : Assertion) (s : Suite)
    (h : a.Type_ ∉ validatedTypes) :
    (∀ content, ValidateAssertion E content a s =
        (false, utf8 "unknown assertion type: ".toList ++ utf8 a.Type_)) ∧
      ("semantic_similarity".toList ∉ validatedTypes ∧ "llm_judge".toList ∉ validatedTypes) ∧
      ((a.Type_ = "semantic_similarity".toList ∨ a.Type_ = "llm_judge".toList) →
        a.Expected.isNull = false →
        ∀ i j id schemaIndex toolIndex, validateAssertion a i j id schemaIndex toolIndex = none) ∧
      ∀ (c : Case) (dir content : Str), a ∈ c.Assertions →
        LoadFixture E dir c.ID = .ok content →
        (runCase E c s dir).Status = StatusFail ∧
          utf8 "[".toList ++ utf8 a.Type_ ++ utf8 "] ".toList
            ++ (utf8 "unknown assertion type: ".toList ++ utf8 a.Type_)
            ∈ (runCase E c s dir).FailureReasons := by
  refine ⟨fun content => validateAssertion_of_unknown E content a s h, ⟨by decide, by decide⟩,
    ?_, ?_⟩
  · intro ht hn i j id si ti
    have hv : validTypes a.Type_ = true := by
      rcases ht with e | e <;> rw [e] <;> decide
    unfold validateAssertion
    rw [hv]
    cases hx : a.Expected with
    | null => rw [hx] at hn; simp [Value.isNull] at hn
    | _ => simp
  · intro c dir content ha hl
    obtain ⟨h1, _, h3⟩ := runCase_ok_fields E c s dir content hl
    have hmem : utf8 "[".toList ++ utf8 a.Type_ ++ utf8 "] ".toList
        ++ (utf8 "unknown assertion type: ".toList ++ utf8 a.Type_)
        ∈ (runCase E c s dir).FailureReasons := by
      rw [h1]
      apply List.mem_append_left
      unfold assertionReasons
      refine List.mem_map.mpr ⟨a, List.mem_filter.mpr ⟨ha, ?_⟩, ?_⟩
      · rw [validateAssertion_of_unknown E content a s h]
        rfl
      · rw [validateAssertion_of_unknown E content a s h]
    exact ⟨h3 (List.ne_nil_of_mem hmem), hmem⟩

/-- C22 (witness): the suite validator accepts the suite whose case `schema_a` carries an
`llm_judge` assertion, and the case, whose fixture loads, has the status `FAIL`. -/
theorem C22_unknown_assertion_type_witness :
    assertionLLMJudge.Type_ ∉ validatedTypes ∧
      ValidateSuite sampleEnv sampleNotExist
        (sampleSuite [] [caseSchemaA "llm_judge".toList (.str "polite".toList)]) "fx".toList
        = none ∧
      (runCase sampleEnv (caseSchemaA "llm_judge".toList (.str "polite".toList))
        (sampleSuite [] [caseSchemaA "llm_judge".toList (.str "polite".toList)])
        "fx".toList).Status = StatusFail :=
  ⟨by decide, by decide,
    ((C22_unknown_assertion_type sampleEnv assertionLLMJudge
      (sampleSuite [] [caseSchemaA "llm_judge".toList (.str "polite".toList)])
      (by decide)).2.2.2 (caseSchemaA "llm_judge".toList (.str "polite".toList)) "fx".toList
      "ok".toList (List.mem_singleton.mpr rfl) rfl).1⟩
theorem buildDocIndex_congr (s1 s2 : Suite) (h : s1.Docs = s2.Docs) :
    BuildDocIndex s1 = BuildDocIndex s2 := by
  unfold BuildDocIndex
  rw [h]

/-- C25: the grounding check reads the content (with the fixed citation grammar) and the
docs of the suite only: for every content, two suites with the same `Docs` list get the
same result `(passed, failures)` from `ValidateGroundingCitations`, and from
`ValidateGrounding`, whatever their grounding configuration (citation format, valid doc
ids, valid chunk ids, citation pattern), cases, schemas, tools, capability and name. -/
theorem C25_grounding_reads_docs_only (E : Env) (content : Str) (s1 s2 : Suite)
    (h : s1.Docs = s2.Docs) :
    ValidateGroundingCitations E content s1 = ValidateGroundingCitations E content s2 ∧
      ValidateGrounding E content s1 = ValidateGrounding E content s2 := by
  have e : ValidateGroundingCitations E content s1 = ValidateGroundingCitations E content s2 := by
    unfold ValidateGroundingCitations
    rw [buildDocIndex_congr s1 s2 h]
  exact ⟨e, e⟩

/-- C25 (witness): two suites with the docs `d1` that differ in name, capability, schemas,
tools, grounding configuration and cases give the same grounding result. -/
theorem C25_grounding_reads_docs_only_witness :
    (sampleSuite [docD1] []).Docs = (suiteOtherFields [docD1]).Docs ∧
      (sampleSuite [docD1] []).Grounding.CitationPattern
        ≠ (suiteOtherFields [docD1]).Grounding.CitationPattern ∧
      ValidateGroundingCitations sampleEnv "the sky is blue and clear [doc:d1#c9]".toList
          (sampleSuite [docD1] [])
        = ValidateGroundingCitations sampleEnv "the sky is blue and clear [doc:d1#c9]".toList
          (suiteOtherFields [docD1]) :=
  ⟨rfl, by decide,
    (C25_grounding_reads_docs_only sampleEnv "the sky is blue and clear [doc:d1#c9]".toList
      (sampleSuite [docD1] []) (suiteOtherFields [docD1]) rfl).1⟩

theorem runCase_validator (E : Env) (c : Case) (s : Suite) (dir : Str) :
    (runCase E c s dir).Validator = getValidatorType c := by
  cases h : LoadFixture E dir c.ID with
  | error err => rw [runCase_error E c s dir err h]
  | ok content => rw [runCase_ok E c s dir content h]

/-- C26: the `Validator` label of a result is a function of the category of the case
alone: `getValidatorType` returns `grounding` for the cases of the grounding category
(so also for an id with none of the three prefixes), `json_schema` for the cases of the
schema category and `tool` for the cases of the tool category.  It never returns
`contains`, two cases with the same id get the same label whatever their assertions,
and `runCase` puts this label on every result, with status `ERROR`, `FAIL` or `PASS`. -/
theorem C26_validator_label_by_category (c : Case) :
    (GetCaseType c.ID = CaseTypeGrounding → getValidatorType c = "grounding".toList) ∧
      (GetCaseType c.ID = CaseTypeSchema → getValidatorType c = "json_schema".toList) ∧
      (GetCaseType c.ID = CaseTypeTool → getValidatorType c = "tool".toList) ∧
      (¬ "grounding".toList <+: c.ID → ¬ "schema".toList <+: c.ID → ¬ "tool".toList <+: c.ID →
        getValidatorType c = "grounding".toList) ∧
      getValidatorType c ≠ "contains".toList ∧
      (∀ c' : Case, c'.ID = c.ID → getValidatorType c' = getValidatorType c) ∧
      (∀ (E : Env) (s : Suite) (dir : Str),
        (runCase E c s dir).Validator = getValidatorType c) ∧
      getValidatorType (caseContainsOk "case_a".toList) = "grounding".toList ∧
      getValidatorType (caseSchemaA "contains".toList (.str "ok".toList)) = "json_schema".toList ∧
      getValidatorType (caseContainsOk "tool_call".toList) = "tool".toList ∧
      getValidatorType (caseSchemaA "json_schema".toList schemaObjectClosed)
        = getValidatorType (caseSchemaA "contains".toList (.str "ok".toList)) := by
  have hg : GetCaseType c.ID = CaseTypeGrounding → getValidatorType c = "grounding".toList := by
    intro h
    unfold getValidatorType
    rw [h]
    rfl
  have hs : GetCaseType c.ID = CaseTypeSchema → getValidatorType c = "json_schema".toList := by
    intro h
    unfold getValidatorType
    rw [h]
    rfl
  have ht : GetCaseType c.ID = CaseTypeTool → getValidatorType c = "tool".toList := by
    intro h
    unfold getValidatorType
    rw [h]
    rfl
  refine ⟨hg, hs, ht, ?_, ?_, fun c' h => getValidatorType_of_id c c' h,
    fun E s dir => runCase_validator E c s dir, by decide, by decide, by decide, by decide⟩
  · intro h1 h2 h3
    apply hg
    rw [getCaseType_eq]
    unfold categoryByPrefix
    rw [if_neg h1, if_neg h2, if_neg h3]
  · rcases getCaseType_cases c.ID with e | e | e
    · rw [hg e]; decide
    · rw [hs e]; decide
    · rw [ht e]; decide
theorem bracketCount_nil (op cl : Char) : bracketCount op cl [] = 0 := by
  simp [bracketCount]

theorem bracketCount_cons (op cl c : Char) (s : Str) :
    bracketCount op cl (c :: s) =
      (if c = op then 1 else 0) - (if c = cl then 1 else 0) + bracketCount op cl s := by
  unfold bracketCount
  rw [List.count_cons, List.count_cons]
  by_cases h1 : c = op <;> by_cases h2 : c = cl <;> simp [h1, h2] <;> omega

theorem scanSpan_sound (op cl : Char) (hne : op ≠ cl) (s : Str) :
    ∀ (d : Int) (span : Str), 1 ≤ d → scanSpan op cl d s = some span →
      ∃ post, s = span ++ post ∧ d + bracketCount op cl span = 0 ∧
        ∀ m, m < span.length → 1 ≤ d + bracketCount op cl (span.take m) := by
  induction s with
  | nil => intro d span _ h; simp [scanSpan] at h
  | cons c cs ih =>
    intro d span hd h
    rw [scanSpan] at h
    have step : ∀ (d' : Int) (r : Str), 1 ≤ d' →
        d' = d + ((if c = op then 1 else 0) - (if c = cl then 1 else 0)) →
        scanSpan op cl d' cs = some r →
        ∃ post, c :: cs = (c :: r) ++ post ∧ d + bracketCount op cl (c :: r) = 0 ∧
          ∀ m, m < (c :: r).length → 1 ≤ d + bracketCount op cl ((c :: r).take m) := by
      intro d' r hd' he hr
      obtain ⟨post, e1, e2, e3⟩ := ih d' r hd' hr
      refine ⟨post, by rw [e1]; rfl, ?_, ?_⟩
      · rw [bracketCount_cons]; omega
      · intro m hm
        cases m with
        | zero => rw [List.take_zero, bracketCount_nil]; omega
        | succ k =>
          rw [List.take_succ_cons, bracketCount_cons]
          have := e3 k (by simpa using hm)
          omega
    by_cases h1 : c = op
    · rw [if_pos h1] at h
      cases hr : scanSpan op cl (d + 1) cs with
      | none => rw [hr] at h; simp at h
      | some r =>
        rw [hr] at h
        simp only [Option.map_some', Option.some.injEq] at h
        rw [← h]
        have hc : c ≠ cl := fun e => hne (h1.symm.trans e)
        exact step (d + 1) r (by omega) (by rw [if_pos h1, if_neg hc]; omega) hr
    · rw [if_neg h1] at h
      by_cases h2 : c = cl
      · rw [if_pos h2] at h
        by_cases h3 : d - 1 = 0
        · rw [if_pos h3] at h
          simp only [Option.some.injEq] at h
          rw [← h]
          refine ⟨cs, rfl, ?_, ?_⟩
          · rw [bracketCount_cons, bracketCount_nil, if_neg h1, if_pos h2]; omega
          · intro m hm
            have : m = 0 := by simpa using hm
            rw [this, List.take_zero, bracketCount_nil]; omega
        · rw [if_neg h3] at h
          cases hr : scanSpan op cl (d - 1) cs with
          | none => rw [hr] at h; simp at h
          | some r =>
            rw [hr] at h
            simp only [Option.map_some', Option.some.injEq] at h
            rw [← h]
            exact step (d - 1) r (by omega) (by rw [if_neg h1, if_pos h2]; omega) hr
      · rw [if_neg h2] at h
        cases hr : scanSpan op cl d cs with
        | none => rw [hr] at h; simp at h
        | some r =>
          rw [hr] at h
          simp only [Option.map_some', Option.some.injEq] at h
          rw [← h]
          exact step d r hd (by rw [if_neg h1, if_neg h2]; omega) hr

theorem scanSpan_none (op cl : Char) (hne : op ≠ cl) (s : Str) :
    ∀ (d : Int), 1 ≤ d → scanSpan op cl d s = none →
      ∀ m, 1 ≤ d + bracketCount op cl (s.take m) := by
  induction s with
  | nil => intro d hd _ m; rw [List.take_nil, bracketCount_nil]; omega
  | cons c cs ih =>
    intro d hd h m
    rw [scanSpan] at h
    cases m with
    | zero => rw [List.take_zero, bracketCount_nil]; omega
    | succ k =>
      rw [List.take_succ_cons, bracketCount_cons]
      by_cases h1 : c = op
      · rw [if_pos h1] at h
        have hc : c ≠ cl := fun e => hne (h1.symm.trans e)
        have hr : scanSpan op cl (d + 1) cs = none := by
          cases hr : scanSpan op cl (d + 1) cs with
          | none => rfl
          | some r => rw [hr] at h; simp at h
        have := ih (d + 1) (by omega) hr k
        rw [if_pos h1, if_neg hc]; omega
      · rw [if_neg h1] at h
        by_cases h2 : c = cl
        · rw [if_pos h2] at h
          by_cases h3 : d - 1 = 0
          · rw [if_pos h3] at h; simp at h
          · rw [if_neg h3] at h
            have hr : scanSpan op cl (d - 1) cs = none := by
              cases hr : scanSpan op cl (d - 1) cs with
              | none => rfl
              | some r => rw [hr] at h; simp at h
            have := ih (d - 1) (by omega) hr k
            rw [if_neg h1, if_pos h2]; omega
        · rw [if_neg h2] at h
          have hr : scanSpan op cl d cs = none := by
            cases hr : scanSpan op cl d cs with
            | none => rfl
            | some r => rw [hr] at h; simp at h
          have := ih d hd hr k
          rw [if_neg h1, if_neg h2]; omega
theorem scanSpan_complete (op cl : Char) (hne : op ≠ cl) (r post : Str) (d : Int) (hd : 1 ≤ d)
    (h0 : d + bracketCount op cl r = 0)
    (hm : ∀ m, m < r.length → d + bracketCount op cl (r.take m) ≠ 0) :
    scanSpan op cl d (r ++ post) = some r := by
  cases hs : scanSpan op cl d (r ++ post) with
  | none =>
    have := scanSpan_none op cl hne (r ++ post) d hd hs r.length
    rw [List.take_left'  rfl] at this
    omega
  | some x =>
    obtain ⟨post', e1, e2, e3⟩ := scanSpan_sound op cl hne (r ++ post) d x hd hs
    have px : x <+: r ++ post := ⟨post', e1.symm⟩
    have pr : r <+: r ++ post := List.prefix_append r post
    rcases lt_trichotomy x.length r.length with hlt | heq | hgt
    · have hp : x <+: r := List.prefix_of_prefix_length_le px pr (le_of_lt hlt)
      have := hm x.length hlt
      rw [← List.prefix_iff_eq_take.mp hp] at this
      exact absurd e2 this
    · have hp : x <+: r := List.prefix_of_prefix_length_le px pr (le_of_eq heq)
      rw [hp.eq_of_length heq]
    · have hp : r <+: x := List.prefix_of_prefix_length_le pr px (le_of_lt hgt)
      have := e3 r.length hgt
      rw [← List.prefix_iff_eq_take.mp hp] at this
      omega

theorem dropWhile_ne_of_not_mem (op : Char) (pre rest : Str) (h : op ∉ pre) :
    (pre ++ op :: rest).dropWhile (fun c => c != op) = op :: rest := by
  induction pre with
  | nil => simp [List.dropWhile_cons]
  | cons a pre ih =>
    have ha : a ≠ op := fun e => h (by simp [e])
    have hp : op ∉ pre := fun e => h (List.mem_cons_of_mem _ e)
    rw [List.cons_append, List.dropWhile_cons, if_pos (by simpa using ha)]
    exact ih hp

theorem dropWhile_ne_cases (op : Char) (t : Str) :
    (t.dropWhile (fun c => c != op) = [] ∧ op ∉ t) ∨
      ∃ pre rest, t = pre ++ op :: rest ∧ op ∉ pre := by
  induction t with
  | nil => exact Or.inl ⟨rfl, by simp⟩
  | cons a t ih =>
    by_cases ha : a = op
    · exact Or.inr ⟨[], t, by simp [ha], by simp⟩
    · rcases ih with ⟨e, hn⟩ | ⟨pre, rest, e, hn⟩
      · refine Or.inl ⟨?_, ?_⟩
        · rw [List.dropWhile_cons, if_pos (by simpa using ha)]
          exact e
        · intro hmem
          rcases List.mem_cons.mp hmem with h | h
          · exact ha h.symm
          · exact hn h
      · refine Or.inr ⟨a :: pre, rest, by rw [e]; rfl, ?_⟩
        intro hmem
        rcases List.mem_cons.mp hmem with h | h
        · exact ha h.symm
        · exact hn h

theorem balancedSpan_cons_iff (op cl : Char) (hne : op ≠ cl) (r : Str) :
    BalancedSpan op cl (op :: r) ↔
      1 + bracketCount op cl r = 0 ∧
        ∀ m, m < r.length → 1 + bracketCount op cl (r.take m) ≠ 0 := by
  have hc : ∀ x : Str, bracketCount op cl (op :: x) = 1 + bracketCount op cl x := by
    intro x
    rw [bracketCount_cons, if_pos rfl, if_neg hne]
    omega
  unfold BalancedSpan
  constructor
  · rintro ⟨_, h2, h3⟩
    refine ⟨by rw [← hc]; exact h2, ?_⟩
    intro m hm
    have := h3 (m + 1) (by simpa using hm) (by omega)
    rw [List.take_succ_cons, hc] at this
    exact this
  · rintro ⟨h2, h3⟩
    refine ⟨rfl, by rw [hc]; exact h2, ?_⟩
    intro m hm hpos
    obtain ⟨k, rfl⟩ : ∃ k, m = k + 1 := ⟨m - 1, by omega⟩
    rw [List.take_succ_cons, hc]
    exact h3 k (by simpa using hm)

theorem firstSpan_iff (op cl : Char) (hne : op ≠ cl) (t span : Str) :
    (fromFirst op t).bind (scanSpan op cl 0) = some span ↔ IsFirstSpan op cl t span := by
  have hscan : ∀ rest, scanSpan op cl 0 (op :: rest)
      = (scanSpan op cl 1 rest).map (fun r => op :: r) := by
    intro rest
    rw [scanSpan, if_pos rfl]
    rfl
  rcases dropWhile_ne_cases op t with ⟨e, hn⟩ | ⟨pre, rest, e, hn⟩
  · have hf : fromFirst op t = none := by
      unfold fromFirst
      rw [e]
    rw [hf]
    refine ⟨fun h => by simp at h, ?_⟩
    rintro ⟨before, after, e1, _, h1, _⟩
    exfalso
    apply hn
    rw [e1]
    cases span with
    | nil => simp at h1
    | cons a span' =>
      simp only [List.head?_cons, Option.some.injEq] at h1
      simp [h1]
  · have hf : fromFirst op t = some (op :: rest) := by
      unfold fromFirst
      rw [e, dropWhile_ne_of_not_mem op pre rest hn]
    rw [hf, Option.some_bind, hscan]
    constructor
    · intro h
      cases hr : scanSpan op cl 1 rest with
      | none => rw [hr] at h; simp at h
      | some r =>
        rw [hr] at h
        simp only [Option.map_some', Option.some.injEq] at h
        obtain ⟨post, e1, e2, e3⟩ := scanSpan_sound op cl hne rest 1 r (le_refl 1) hr
        refine ⟨pre, post, by rw [e, e1, ← h]; simp, hn, ?_⟩
        rw [← h, balancedSpan_cons_iff op cl hne]
        refine ⟨e2, fun m hm => ?_⟩
        have := e3 m hm
        omega
    · rintro ⟨before, after, e1, hb, hbal⟩
      cases span with
      | nil => simp [BalancedSpan] at hbal
      | cons a r =>
        have ha : a = op := by
          have := hbal.1
          simpa using this
        subst ha
        have hrest : rest = r ++ after := by
          have h1 := dropWhile_ne_of_not_mem a pre rest hn
          have h2 := dropWhile_ne_of_not_mem a before (r ++ after) hb
          rw [← e] at h1
          rw [show before ++ a :: (r ++ after) = t by rw [e1]; simp] at h2
          rw [h1] at h2
          exact (List.cons.inj h2).2
        obtain ⟨h0, hm⟩ := (balancedSpan_cons_iff a cl hne r).mp hbal
        rw [hrest, scanSpan_complete a cl hne r after 1 (le_refl 1) h0 hm]
        rfl
theorem extractJSON_of_object (content span : Str)
    (h : IsFirstSpan lbrace rbrace (TrimSpace content) span) : extractJSON content = span := by
  have := (firstSpan_iff lbrace rbrace (by decide) (TrimSpace content) span).mpr h
  unfold extractJSON
  simp only []
  rw [this]

theorem extractJSON_no_object (content : Str)
    (h : ¬ ∃ span, IsFirstSpan lbrace rbrace (TrimSpace content) span) :
    (fromFirst lbrace (TrimSpace content)).bind (scanSpan lbrace rbrace 0) = none := by
  cases hs : (fromFirst lbrace (TrimSpace content)).bind (scanSpan lbrace rbrace 0) with
  | none => rfl
  | some span =>
    exact absurd ⟨span, (firstSpan_iff lbrace rbrace (by decide) _ span).mp hs⟩ h

theorem extractJSON_of_array (content span : Str)
    (h : ¬ ∃ span, IsFirstSpan lbrace rbrace (TrimSpace content) span)
    (ha : IsFirstSpan '[' ']' (TrimSpace content) span) : extractJSON content = span := by
  have h1 := extractJSON_no_object content h
  have h2 := (firstSpan_iff '[' ']' (by decide) (TrimSpace content) span).mpr ha
  unfold extractJSON
  simp only []
  rw [h1, h2]

theorem extractJSON_of_none (content : Str)
    (h : ¬ ∃ span, IsFirstSpan lbrace rbrace (TrimSpace content) span)
    (ha : ¬ ∃ span, IsFirstSpan '[' ']' (TrimSpace content) span) :
    extractJSON content = TrimSpace content := by
  have h1 := extractJSON_no_object content h
  have h2 : (fromFirst '[' (TrimSpace content)).bind (scanSpan '[' ']' 0) = none := by
    cases hs : (fromFirst '[' (TrimSpace content)).bind (scanSpan '[' ']' 0) with
    | none => rfl
    | some span =>
      exact absurd ⟨span, (firstSpan_iff '[' ']' (by decide) _ span).mp hs⟩ ha
  unfold extractJSON
  simp only []
  rw [h1, h2]

theorem extractJSON_cases (content : Str) :
    (∃ op cl, IsFirstSpan op cl (TrimSpace content) (extractJSON content)) ∨
      extractJSON content = TrimSpace content := by
  by_cases h : ∃ span, IsFirstSpan lbrace rbrace (TrimSpace content) span
  · obtain ⟨span, hs⟩ := h
    rw [extractJSON_of_object content span hs]
    exact Or.inl ⟨_, _, hs⟩
  · by_cases ha : ∃ span, IsFirstSpan '[' ']' (TrimSpace content) span
    · obtain ⟨span, hs⟩ := ha
      rw [extractJSON_of_array content span h hs]
      exact Or.inl ⟨_, _, hs⟩
    · exact Or.inr (extractJSON_of_none content h ha)

/-- C23: for every content, `extractJSON` works on the content with leading and trailing
white space removed.  If that text has a first object span (a `{` occurs and, scanning
from the first `{`, the running count of `{` minus `}` returns to zero; the span runs
from the first `{` to the earliest position where it does), the result is that span,
also when a `[` comes before the first `{`.  Otherwise, if it has a first array span
(the same with `[` and `]`), the result is that span.  Otherwise the result is the
trimmed content itself. -/
theorem C23_extractJSON_first_span (content : Str) :
    (∀ span, IsFirstSpan lbrace rbrace (TrimSpace content) span →
        extractJSON content = span) ∧
      ((¬ ∃ span, IsFirstSpan lbrace rbrace (TrimSpace content) span) →
        ∀ span, IsFirstSpan '[' ']' (TrimSpace content) span → extractJSON content = span) ∧
      ((¬ ∃ span, IsFirstSpan lbrace rbrace (TrimSpace content) span) →
        (¬ ∃ span, IsFirstSpan '[' ']' (TrimSpace content) span) →
        extractJSON content = TrimSpace content) ∧
      extractJSON " noise \x7b\"a\": \x7b\"b\": 1\x7d\x7d tail \x7d ".toList
        = "\x7b\"a\": \x7b\"b\": 1\x7d\x7d".toList ∧
      extractJSON "[1, \x7b\"a\": 2\x7d]".toList = "\x7b\"a\": 2\x7d".toList ∧
      extractJSON "x [1, [2]] y".toList = "[1, [2]]".toList ∧
      extractJSON " \x7bopen [1] ".toList = "[1]".toList ∧
      extractJSON " plain [ ".toList = "plain [".toList :=
  ⟨fun span h => extractJSON_of_object content span h,
    fun h span ha => extractJSON_of_array content span h ha,
    fun h ha => extractJSON_of_none content h ha,
    by decide, by decide, by decide, by decide, by decide⟩

/-- C23 (witness): in ` [1, {"a": 2}] ` the first object span is `{"a": 2}`, after a `[`,
and it is the result. -/
theorem C23_extractJSON_first_span_witness :
    IsFirstSpan lbrace rbrace (TrimSpace " [1, \x7b\"a\": 2\x7d] ".toList)
        "\x7b\"a\": 2\x7d".toList ∧
      extractJSON " [1, \x7b\"a\": 2\x7d] ".toList = "\x7b\"a\": 2\x7d".toList :=
  have h : IsFirstSpan lbrace rbrace (TrimSpace " [1, \x7b\"a\": 2\x7d] ".toList)
      "\x7b\"a\": 2\x7d".toList :=
    ⟨"[1, ".toList, "]".toList, by decide, by decide, by unfold BalancedSpan; decide⟩
  ⟨h, (C23_extractJSON_first_span " [1, \x7b\"a\": 2\x7d] ".toList).1 _ h⟩
theorem isFirstSpan_self (op cl : Char) (t : Str) (h : BalancedSpan op cl t) :
    IsFirstSpan op cl t t :=
  ⟨[], [], by simp, by simp, h⟩

theorem isFirstSpan_of_not_mem (op cl : Char) (t span : Str) (h : op ∉ t) :
    ¬ IsFirstSpan op cl t span := by
  rintro ⟨before, after, e, _, h1, _⟩
  apply h
  rw [e]
  cases span with
  | nil => simp at h1
  | cons a r =>
    simp only [List.head?_cons, Option.some.injEq] at h1
    simp [h1]

/-- C24: for every content whose trimmed form is a top-level array span (it begins with
`[` and the running count of `[` minus `]` returns to zero at its last character and
no earlier), `extractJSON` returns that whole array when the trimmed form has no object
span, in particular when it contains no `{`; when it has a first object span, the
result is that object span, which is not the whole array. -/
theorem C24_top_level_array_without_object (content : Str)
    (h : BalancedSpan '[' ']' (TrimSpace content)) :
    ((¬ ∃ span, IsFirstSpan lbrace rbrace (TrimSpace content) span) →
        extractJSON content = TrimSpace content) ∧
      (lbrace ∉ TrimSpace content → extractJSON content = TrimSpace content) ∧
      ∀ span, IsFirstSpan lbrace rbrace (TrimSpace content) span →
        extractJSON content = span ∧ extractJSON content ≠ TrimSpace content := by
  have ha := isFirstSpan_self '[' ']' (TrimSpace content) h
  refine ⟨fun hn => extractJSON_of_array content _ hn ha, fun hn => ?_, fun span hs => ?_⟩
  · refine extractJSON_of_array content _ ?_ ha
    rintro ⟨span, hs⟩
    exact isFirstSpan_of_not_mem lbrace rbrace _ span hn hs
  · have e := extractJSON_of_object content span hs
    refine ⟨e, ?_⟩
    rw [e]
    intro hc
    obtain ⟨_, _, _, _, h1, _⟩ := hs
    rw [hc, h.1] at h1
    exact absurd h1 (by decide)

/-- C24 (witness): ` [1, [2, 3]]` followed by a newline trims to a top-level array span
without `{`, and the result is the whole array. -/
theorem C24_top_level_array_without_object_witness :
    BalancedSpan '[' ']' (TrimSpace " [1, [2, 3]]\n".toList) ∧
      lbrace ∉ TrimSpace " [1, [2, 3]]\n".toList ∧
      extractJSON " [1, [2, 3]]\n".toList = "[1, [2, 3]]".toList :=
  ⟨by unfold BalancedSpan; decide, by decide,
    (C24_top_level_array_without_object " [1, [2, 3]]\n".toList
      (by unfold BalancedSpan; decide)).2.1 (by decide)⟩

/-- C24 (counterexample): `[{"a": 1}, {"b": 2}]` is a top-level array span, and the
result is its first object `{"a": 1}`, not the array. -/
theorem C24_counterexample_array_of_objects :
    BalancedSpan '[' ']' (TrimSpace "[\x7b\"a\": 1\x7d, \x7b\"b\": 2\x7d]".toList) ∧
      extractJSON "[\x7b\"a\": 1\x7d, \x7b\"b\": 2\x7d]".toList = "\x7b\"a\": 1\x7d".toList ∧
      extractJSON "[\x7b\"a\": 1\x7d, \x7b\"b\": 2\x7d]".toList
        ≠ TrimSpace "[\x7b\"a\": 1\x7d, \x7b\"b\": 2\x7d]".toList :=
  ⟨by unfold BalancedSpan; decide, by decide, by decide⟩
theorem trimSpace_eq_nil_iff (s : Str) :
    TrimSpace s = [] ↔ ∀ c ∈ s, unicodeIsSpace c = true := by
  unfold TrimSpace
  rw [List.rdropWhile_eq_nil_iff, ← List.all_eq_true,
    all_dropWhile_of_imp (fun _ h => h)]
  exact List.all_eq_true

theorem isFirstSpan_ne_nil (op cl : Char) (t span : Str) (h : IsFirstSpan op cl t span) :
    span ≠ [] ∧ span <:+: t := by
  obtain ⟨before, after, e, _, h1, _⟩ := h
  refine ⟨?_, before, after, e.symm⟩
  intro hn
  rw [hn] at h1
  simp at h1

theorem extractJSON_isInfix (content : Str) : extractJSON content <:+: TrimSpace content := by
  rcases extractJSON_cases content with ⟨op, cl, h⟩ | h
  · exact (isFirstSpan_ne_nil op cl _ _ h).2
  · rw [h]

theorem extractJSON_eq_nil_iff (content : Str) :
    extractJSON content = [] ↔ ∀ c ∈ content, unicodeIsSpace c = true := by
  rw [← trimSpace_eq_nil_iff]
  constructor
  · intro h
    rcases extractJSON_cases content with ⟨op, cl, hs⟩ | hs
    · exact absurd h (isFirstSpan_ne_nil op cl _ _ hs).1
    · rw [← hs]; exact h
  · intro h
    have := extractJSON_isInfix content
    rw [h] at this
    exact List.eq_nil_of_infix_nil this

theorem append_ne_of_head (l x m : Bytes) (hl : l ≠ []) (h : l.head? ≠ m.head?) :
    l ++ x ≠ m := by
  intro e
  apply h
  rw [← e]
  cases l with
  | nil => exact absurd rfl hl
  | cons a l => rfl

/-- C28: for every content, the result of `extractJSON` is a contiguous part of the
content with leading and trailing white space removed, and it is empty iff the content
is empty or consists of white space only.  In exactly that case `ValidateJSONSchema`
fails with the reason `no valid JSON found in content`, and it does so whatever the JSON
and JSON-schema libraries are, that is without parsing JSON or compiling the schema. -/
theorem C28_empty_candidate (E : Env) (content : Str) (expected : Value) :
    extractJSON content <:+: TrimSpace content ∧
      (extractJSON content = [] ↔ ∀ c ∈ content, unicodeIsSpace c = true) ∧
      ((∀ c ∈ content, unicodeIsSpace c = true) →
        ValidateJSONSchema E content expected
          = (false, utf8 "no valid JSON found in content".toList)) ∧
      ((ValidateJSONSchema E content expected).2 = utf8 "no valid JSON found in content".toList →
        ∀ c ∈ content, unicodeIsSpace c = true) ∧
      ValidateJSONSchema sampleEnv " \t\n".toList schemaObjectClosed
        = (false, utf8 "no valid JSON found in content".toList) ∧
      (ValidateJSONSchema sampleEnv "ok".toList schemaObjectClosed).2
        = utf8 "content is not valid JSON: unsupported".toList := by
  refine ⟨extractJSON_isInfix content, extractJSON_eq_nil_iff content, ?_, ?_, by decide,
    by decide⟩
  · intro h
    unfold ValidateJSONSchema
    simp only []
    rw [if_pos ((extractJSON_eq_nil_iff content).mpr h)]
  · intro h
    rw [← extractJSON_eq_nil_iff]
    by_contra h0
    revert h
    unfold ValidateJSONSchema
    simp only []
    rw [if_neg h0]
    split
    · exact append_ne_of_head _ _ _ (by decide) (by decide)
    · split
      · exact append_ne_of_head _ _ _ (by decide) (by decide)
      · split
        · exact append_ne_of_head _ _ _ (by decide) (by decide)
        · split
          · exact append_ne_of_head _ _ _ (by decide) (by decide)
          · split
            · exact append_ne_of_head _ _ _ (by decide) (by decide)
            · intro e
              exact absurd e.symm (by decide)
theorem splitSentenceEnds_true (s : Str) :
    splitSentenceEnds true s = splitSentenceEnds false (s.dropWhile reSpace) := by
  induction s with
  | nil => rfl
  | cons c cs ih =>
    by_cases h : reSpace c = true
    · rw [splitSentenceEnds, if_pos (by simp [h]), ih, List.dropWhile_cons, if_pos h]
    · rw [List.dropWhile_cons, if_neg h, splitSentenceEnds, if_neg (by simp [h])]
      conv_rhs => rw [splitSentenceEnds, if_neg (by simp)]

theorem splitsInto_cons (c : Char) (cs p : Str) (ps : List Str)
    (h : SplitsInto cs (p :: ps))
    (hc : ((c = '.' || c = '!' || c = '?') && (cs.head?.map reSpace).getD false) = false) :
    SplitsInto (c :: cs) ((c :: p) :: ps) := by
  cases h with
  | last _ hp =>
    refine SplitsInto.last _ ?_
    rw [hasSentenceEnd, hc, hp]
    rfl
  | more _ sep rest _ hp hsep hrest hrec =>
    have : c :: (p ++ sep ++ rest) = (c :: p) ++ sep ++ rest := by simp
    rw [this]
    refine SplitsInto.more _ sep rest ps ?_ hsep hrest hrec
    rw [hasSentenceEnd, hp, Bool.or_false]
    cases p with
    | nil => simp
    | cons a p' => simpa using hc
theorem splitsInto_splitSentenceEnds (n : Nat) :
    ∀ s : Str, s.length ≤ n → SplitsInto s (splitSentenceEnds false s) := by
  induction n with
  | zero =>
    intro s hs
    have : s = [] := List.length_eq_zero.mp (by omega)
    subst this
    exact SplitsInto.last [] rfl
  | succ n ih =>
    intro s hs
    cases s with
    | nil => exact SplitsInto.last [] rfl
    | cons c cs =>
      have hlen : cs.length ≤ n := by simpa using hs
      rw [splitSentenceEnds, if_neg (by simp)]
      by_cases h2 : ((c = '.' || c = '!' || c = '?') && (cs.head?.map reSpace).getD false) = true
      · rw [if_pos h2, splitSentenceEnds_true]
        have hrec := ih (cs.dropWhile reSpace)
          (le_trans (List.dropWhile_suffix reSpace).length_le hlen)
        have e : c :: cs = [] ++ (c :: cs.takeWhile reSpace) ++ cs.dropWhile reSpace := by
          simp [List.takeWhile_append_dropWhile]
        rw [Bool.and_eq_true] at h2
        have hsep : IsSeparator (c :: cs.takeWhile reSpace) := by
          refine ⟨c, cs.takeWhile reSpace, rfl, by have := h2.1; simp at this; tauto, ?_,
            fun x hx => List.mem_takeWhile_imp hx⟩
          cases cs with
          | nil => simp at h2
          | cons a t =>
            have ha : reSpace a = true := by simpa using h2.2
            rw [List.takeWhile_cons, if_pos ha]
            simp
        have hhead : ((cs.dropWhile reSpace).head?.map reSpace).getD false = false := by
          have := List.head?_dropWhile_not reSpace cs
          cases hd : (cs.dropWhile reSpace).head? with
          | none => rfl
          | some x =>
            rw [hd] at this
            simpa using this
        have := SplitsInto.more [] (c :: cs.takeWhile reSpace) (cs.dropWhile reSpace) _ rfl hsep
          hhead hrec
        rw [← e] at this
        exact this
      · rw [if_neg h2]
        have hrec := ih cs hlen
        obtain ⟨p, ps, e, _⟩ := splitSentenceEnds_pieces false cs
        rw [e] at hrec ⊢
        exact splitsInto_cons c cs p ps hrec (by simpa using h2)
theorem reSpace_not_punct (c : Char) (h : c = '.' ∨ c = '!' ∨ c = '?') : reSpace c = false := by
  rcases h with e | e | e <;> rw [e] <;> decide

theorem dropWhile_reSpace_append (ws rest : Str) (hws : ∀ c ∈ ws, reSpace c = true)
    (hrest : (rest.head?.map reSpace).getD false = false) :
    (ws ++ rest).dropWhile reSpace = rest := by
  induction ws with
  | nil =>
    cases rest with
    | nil => rfl
    | cons a t =>
      have ha : reSpace a = false := by simpa using hrest
      simp [List.dropWhile_cons, ha]
  | cons a ws ih =>
    rw [List.cons_append, List.dropWhile_cons, if_pos (hws a (by simp))]
    exact ih (fun c hc => hws c (List.mem_cons_of_mem _ hc))

theorem splitSentenceEnds_piece_sep (p sep rest : Str) (hp : hasSentenceEnd p = false)
    (hsep : IsSeparator sep) (hrest : (rest.head?.map reSpace).getD false = false) :
    splitSentenceEnds false (p ++ sep ++ rest) = p :: splitSentenceEnds false rest := by
  obtain ⟨c, ws, rfl, hc, hne, hws⟩ := hsep
  induction p with
  | nil =>
    have hhead : ((ws ++ rest).head?.map reSpace).getD false = true := by
      cases ws with
      | nil => exact absurd rfl hne
      | cons a t => simpa using hws a (by simp)
    have hpunct : (c = '.' || c = '!' || c = '?') = true := by
      rcases hc with e | e | e <;> simp [e]
    rw [List.nil_append, List.cons_append, splitSentenceEnds, if_neg (by simp),
      if_pos (by rw [hpunct, hhead]; rfl), splitSentenceEnds_true,
      dropWhile_reSpace_append ws rest hws hrest]
  | cons a p ih =>
    rw [hasSentenceEnd, Bool.or_eq_false_iff] at hp
    have hstep : ((a = '.' || a = '!' || a = '?')
        && (((p ++ c :: ws ++ rest).head?).map reSpace).getD false) = false := by
      cases p with
      | nil =>
        simp only [List.nil_append, List.cons_append, List.head?_cons, Option.map_some',
          Option.getD_some, reSpace_not_punct c hc, Bool.and_false]
      | cons b p' => simpa using hp.1
    have e : a :: p ++ c :: ws ++ rest = a :: (p ++ c :: ws ++ rest) := by simp
    rw [e, splitSentenceEnds, if_neg (by simp), if_neg (by rw [hstep]; simp), ih hp.2]

theorem splitsInto_unique (s : Str) (ps : List Str) (h : SplitsInto s ps) :
    ps = splitSentenceEnds false s := by
  induction h with
  | last p hp => rw [splitSentenceEnds_of_no_end p hp]
  | more p sep rest ps hp hsep hrest _ ih =>
    rw [splitSentenceEnds_piece_sep p sep rest hp hsep hrest, ih]

theorem splitsInto_iff (s : Str) (ps : List Str) :
    SplitsInto s ps ↔ ps = splitSentenceEnds false s :=
  ⟨splitsInto_unique s ps, fun e => e ▸ splitsInto_splitSentenceEnds s.length s (le_refl _)⟩

theorem splitsInto_no_end (s : Str) (ps : List Str) (h : SplitsInto s ps) :
    ∀ p ∈ ps, hasSentenceEnd p = false := by
  induction h with
  | last p hp =>
    intro q hq
    rw [List.mem_singleton.mp hq]
    exact hp
  | more p sep rest ps hp _ _ _ ih =>
    intro q hq
    rcases List.mem_cons.mp hq with e | e
    · rw [e]; exact hp
    · exact ih q e

theorem hasSentenceEnd_of_isInfix (x p : Str) (hx : x <:+: p) (hp : hasSentenceEnd p = false) :
    hasSentenceEnd x = false := by
  obtain ⟨a, b, e⟩ := hx
  subst e
  induction a with
  | nil =>
    simp only [List.nil_append] at hp
    induction x with
    | nil => rfl
    | cons c x ih =>
      rw [List.cons_append, hasSentenceEnd, Bool.or_eq_false_iff] at hp
      rw [hasSentenceEnd, ih hp.2, Bool.or_false]
      cases x with
      | nil => simp
      | cons d x' => simpa using hp.1
  | cons c a ih =>
    apply ih
    have e : c :: a ++ x ++ b = c :: (a ++ x ++ b) := by simp
    rw [e, hasSentenceEnd, Bool.or_eq_false_iff] at hp
    exact hp.2
theorem splitIntoSentences_filter (content : Str) :
    splitIntoSentences content =
      ((splitSentenceEnds false content).map TrimSpace).filter (fun p => decide (p ≠ [])) := by
  rw [splitIntoSentences_eq]
  induction splitSentenceEnds false content with
  | nil => rfl
  | cons a t ih =>
    rw [List.flatMap_cons, ih, List.map_cons, List.filter_cons]
    by_cases h : TrimSpace a = [] <;> simp [h]

theorem reSpace_unicodeIsSpace (c : Char) (h : reSpace c = true) : unicodeIsSpace c = true := by
  unfold reSpace at h
  simp only [Bool.or_eq_true, decide_eq_true_eq] at h
  rcases h with (((e | e) | e) | e) | e <;> rw [e] <;> decide

theorem trimSpace_head (t : Str) (c : Char) (h : (TrimSpace t).head? = some c) :
    unicodeIsSpace c = false := by
  unfold TrimSpace at h
  obtain ⟨r, hr⟩ := List.rdropWhile_prefix unicodeIsSpace (t.dropWhile unicodeIsSpace)
  have hd := List.head?_dropWhile_not unicodeIsSpace t
  cases hx : (t.dropWhile unicodeIsSpace).rdropWhile unicodeIsSpace with
  | nil => rw [hx] at h; simp at h
  | cons a x =>
    rw [hx] at h hr
    simp only [List.head?_cons, Option.some.injEq] at h
    rw [← hr] at hd
    simp only [List.cons_append, List.head?_cons] at hd
    rw [← h]
    exact hd

theorem trimSpace_getLast (t : Str) (c : Char) (h : (TrimSpace t).getLast? = some c) :
    unicodeIsSpace c = false := by
  unfold TrimSpace at h
  have hne : (t.dropWhile unicodeIsSpace).rdropWhile unicodeIsSpace ≠ [] := by
    intro e
    rw [e] at h
    simp at h
  have hl := List.rdropWhile_last_not unicodeIsSpace (t.dropWhile unicodeIsSpace) hne
  rw [List.getLast?_eq_getLast _ hne, Option.some.injEq] at h
  rw [h] at hl
  simpa using hl

theorem unicodeIsSpace_not_punct (c : Char) (h : unicodeIsSpace c = true) :
    (c = '.' || c = '!' || c = '?') = false := by
  by_contra hc
  simp only [Bool.not_eq_false, Bool.or_eq_true, decide_eq_true_eq] at hc
  rcases hc with (e | e) | e <;> rw [e] at h <;> exact absurd h (by decide)

theorem hasSentenceEnd_of_spaces (s : Str) (h : ∀ c ∈ s, unicodeIsSpace c = true) :
    hasSentenceEnd s = false := by
  induction s with
  | nil => rfl
  | cons c cs ih =>
    rw [hasSentenceEnd, unicodeIsSpace_not_punct c (h c (by simp)), Bool.false_and,
      Bool.false_or]
    exact ih (fun x hx => h x (List.mem_cons_of_mem _ hx))

/-- C27 (as amended): for every content, `splitIntoSentences` returns, in order of
appearance, the pieces of the content between its separators, each with leading and
trailing white space of Unicode (`unicode.IsSpace`) removed and the empty ones dropped.
A separator is a `.`, `!` or `?` followed by one or more characters of the class `\s`
of the pattern (tab, newline, form feed, carriage return, space), a part of the white
space of Unicode, and it takes all of them; the pieces exist and are unique.  Every
returned sentence is non-empty, neither starts nor ends with white space of Unicode,
and contains no `.`, `!` or `?` that is immediately followed by a character of the class
`\s`.  Content that is empty or of white space of Unicode only yields no sentence. -/
theorem C27_sentences_between_separators (content : Str) :
    (∃ pieces, SplitsInto content pieces) ∧
      (∀ c, reSpace c = true → unicodeIsSpace c = true) ∧
      (∀ pieces, SplitsInto content pieces →
        splitIntoSentences content
          = (pieces.map TrimSpace).filter (fun p => decide (p ≠ []))) ∧
      (∀ x ∈ splitIntoSentences content,
        x ≠ [] ∧
          (∀ c, x.head? = some c → unicodeIsSpace c = false ∧ reSpace c = false) ∧
          (∀ c, x.getLast? = some c → unicodeIsSpace c = false ∧ reSpace c = false) ∧
          hasSentenceEnd x = false) ∧
      ((∀ c ∈ content, unicodeIsSpace c = true) → splitIntoSentences content = []) ∧
      splitIntoSentences [] = [] ∧
      splitIntoSentences " \n\t ".toList = [] ∧
      splitIntoSentences "Hello world.  How are you?\nFine! ".toList
        = ["Hello world".toList, "How are you".toList, "Fine".toList] ∧
      splitIntoSentences "e.g.this... or that".toList
        = ["e.g.this..".toList, "or that".toList] := by
  have hnot : ∀ c, unicodeIsSpace c = false → unicodeIsSpace c = false ∧ reSpace c = false := by
    intro c hc
    refine ⟨hc, ?_⟩
    cases hr : reSpace c with
    | false => rfl
    | true => rw [reSpace_unicodeIsSpace c hr] at hc; exact absurd hc (by simp)
  refine ⟨⟨_, splitsInto_splitSentenceEnds content.length content (le_refl _)⟩,
    reSpace_unicodeIsSpace, ?_, ?_, ?_, by decide, by decide, by decide, by decide⟩
  · intro pieces hp
    rw [splitsInto_unique content pieces hp]
    exact splitIntoSentences_filter content
  · intro x hx
    obtain ⟨part, hpart, hxe, hne⟩ := mem_splitIntoSentences hx
    have hsplit := splitsInto_splitSentenceEnds content.length content (le_refl _)
    have hend := splitsInto_no_end content _ hsplit part hpart
    refine ⟨hne, ?_, ?_, ?_⟩
    · intro c hc
      rw [hxe] at hc
      exact hnot c (trimSpace_head part c hc)
    · intro c hc
      rw [hxe] at hc
      exact hnot c (trimSpace_getLast part c hc)
    · rw [hxe]
      exact hasSentenceEnd_of_isInfix _ part (trimSpace_isInfix part) hend
  · intro h
    rw [splitIntoSentences_filter,
      splitSentenceEnds_of_no_end content (hasSentenceEnd_of_spaces content h)]
    have : TrimSpace content = [] := (trimSpace_eq_nil_iff content).mpr h
    simp [this]
theorem pathElements_ne_nil (s : Str) : pathElements s ≠ [] := by
  cases s with
  | nil => simp [pathElements]
  | cons c cs =>
    rw [pathElements]
    split
    · simp
    · split <;> simp

theorem pathElements_cons_slash (cs : Str) : pathElements ('/' :: cs) = [] :: pathElements cs := by
  rw [pathElements, if_pos rfl]

theorem pathElements_cons_other (c : Char) (cs : Str) (h : c ≠ '/') :
    ∃ e es, pathElements cs = e :: es ∧ pathElements (c :: cs) = (c :: e) :: es := by
  cases hp : pathElements cs with
  | nil => exact absurd hp (pathElements_ne_nil cs)
  | cons e es =>
    refine ⟨e, es, rfl, ?_⟩
    rw [pathElements, if_neg h, hp]

theorem pathElements_append_slash (a b : Str) :
    pathElements (a ++ '/' :: b) = pathElements a ++ pathElements b := by
  induction a with
  | nil => rw [List.nil_append, pathElements_cons_slash]; rfl
  | cons c a ih =>
    by_cases h : c = '/'
    · subst h
      rw [List.cons_append, pathElements_cons_slash, pathElements_cons_slash, ih]
      rfl
    · obtain ⟨e, es, h1, h2⟩ := pathElements_cons_other c a h
      obtain ⟨e', es', h1', h2'⟩ := pathElements_cons_other c (a ++ '/' :: b) h
      rw [List.cons_append, h2', h2]
      rw [ih, h1] at h1'
      simp only [List.cons_append, List.cons.injEq] at h1'
      rw [← h1'.1, ← h1'.2]
      rfl

theorem pathElements_of_no_slash (s : Str) (h : '/' ∉ s) : pathElements s = [s] := by
  induction s with
  | nil => rfl
  | cons c cs ih =>
    have hc : c ≠ '/' := fun e => h (by simp [e])
    have ht : '/' ∉ cs := fun e => h (List.mem_cons_of_mem _ e)
    rw [pathElements, if_neg hc, ih ht]

theorem intercalate_pathElements (s : Str) :
    List.intercalate "/".toList (pathElements s) = s := by
  induction s with
  | nil => rfl
  | cons c cs ih =>
    by_cases h : c = '/'
    · subst h
      rw [pathElements_cons_slash]
      cases hp : pathElements cs with
      | nil => exact absurd hp (pathElements_ne_nil cs)
      | cons e es =>
        rw [hp] at ih
        rw [← ih]
        simp [List.intercalate, List.intersperse]
    · obtain ⟨e, es, h1, h2⟩ := pathElements_cons_other c cs h
      rw [h2]
      rw [h1] at ih
      rw [← ih]
      cases es <;> simp [List.intercalate, List.intersperse]

theorem cleanElements_plain (rooted : Bool) (es : List Str)
    (h : ∀ e ∈ es, plainElement e = true) (out : List Str) (dotdot : Nat) :
    cleanElements rooted es out dotdot = out ++ es := by
  induction es generalizing out with
  | nil => simp [cleanElements]
  | cons e es ih =>
    have he := h e (by simp)
    unfold plainElement at he
    simp only [Bool.and_eq_true, Bool.not_eq_true', bne_iff_ne, ne_eq, List.isEmpty_eq_false] at he
    rw [cleanElements, if_neg (by
      rintro (e1 | e1)
      · exact he.1.1 e1
      · exact he.1.2 e1), if_neg he.2, ih (fun x hx => h x (List.mem_cons_of_mem _ hx))]
    simp
theorem filepathClean_of_plain (p : Str) (h : ∀ e ∈ pathElements p, plainElement e = true) :
    filepathClean p = p := by
  have hhead : ¬ (p.head? = some '/') := by
    cases p with
    | nil => simp
    | cons c cs =>
      intro hc
      simp only [List.head?_cons, Option.some.injEq] at hc
      subst hc
      have := h [] (by rw [pathElements_cons_slash]; simp)
      exact absurd this (by decide)
  have hne : pathElements p ≠ [] := pathElements_ne_nil p
  unfold filepathClean
  simp only [hhead, decide_False, Bool.false_eq_true, if_false]
  rw [cleanElements_plain false _ h, List.nil_append]
  cases hp : pathElements p with
  | nil => exact absurd hp hne
  | cons e es =>
    rw [← hp, intercalate_pathElements]
    simp [hp]

theorem filepathClean_of_plain_rooted (r : Str)
    (h : ∀ e ∈ pathElements r, plainElement e = true) :
    filepathClean ('/' :: r) = '/' :: r := by
  unfold filepathClean
  simp only [List.head?_cons, decide_True, if_true, pathElements_cons_slash]
  rw [cleanElements, if_pos (Or.inl rfl), cleanElements_plain true _ h, List.nil_append,
    intercalate_pathElements]

theorem categoryByPrefix_plain (id : Str) :
    '/' ∉ categoryByPrefix id ∧ plainElement (categoryByPrefix id) = true ∧
      categoryByPrefix id ≠ [] := by
  rcases categoryByPrefix_cases id with h | h | h <;> rw [h] <;> decide

theorem fixtureExt_cases (id : Str) :
    fixtureExt id = ".out.txt".toList ∨ fixtureExt id = ".out.json".toList := by
  unfold fixtureExt
  split
  · exact Or.inl rfl
  · split
    · exact Or.inr rfl
    · split
      · exact Or.inl rfl
      · exact Or.inr rfl

theorem fixtureName_plain (id : Str) (h : '/' ∉ id) :
    '/' ∉ id ++ fixtureExt id ∧ plainElement (id ++ fixtureExt id) = true := by
  have hext : '/' ∉ fixtureExt id ∧ 8 ≤ (fixtureExt id).length := by
    rcases fixtureExt_cases id with e | e <;> rw [e] <;> decide
  refine ⟨fun hm => ?_, ?_⟩
  · rcases List.mem_append.mp hm with hm | hm
    · exact h hm
    · exact hext.1 hm
  · have hlen : 8 ≤ (id ++ fixtureExt id).length := by
      rw [List.length_append]
      omega
    unfold plainElement
    simp only [Bool.and_eq_true, Bool.not_eq_true', bne_iff_ne, ne_eq, List.isEmpty_eq_false]
    refine ⟨⟨?_, ?_⟩, ?_⟩ <;> intro e <;> rw [e] at hlen <;> simp at hlen

theorem fixturePath_elements_plain (r id : Str) (hr : ∀ e ∈ pathElements r, plainElement e = true)
    (h : '/' ∉ id) :
    ∀ e ∈ pathElements (r ++ '/' :: (categoryByPrefix id ++ '/' :: (id ++ fixtureExt id))),
      plainElement e = true := by
  rw [pathElements_append_slash, pathElements_append_slash,
    pathElements_of_no_slash _ (categoryByPrefix_plain id).1,
    pathElements_of_no_slash _ (fixtureName_plain id h).1]
  intro e he
  simp only [List.mem_append, List.mem_singleton] at he
  rcases he with he | he | he
  · exact hr e he
  · rw [he]; exact (categoryByPrefix_plain id).2.1
  · rw [he]; exact (fixtureName_plain id h).2

theorem getFixturePath_unix (E : Env) (root id : Str) (hE : E.filepathJoin = filepathJoinUnix) :
    (root ≠ [] → GetFixturePath E root id =
        filepathClean (root ++ '/' :: (categoryByPrefix id ++ '/' :: (id ++ fixtureExt id)))) ∧
      (root = [] → GetFixturePath E root id =
        filepathClean (categoryByPrefix id ++ '/' :: (id ++ fixtureExt id))) := by
  rw [getFixturePath_eq, hE]
  have hc := (categoryByPrefix_plain id).2.2
  constructor
  · intro hroot
    cases root with
    | nil => exact absurd rfl hroot
    | cons a t =>
      simp [filepathJoinUnix, List.dropWhile_cons, List.intercalate, List.intersperse]
  · intro hroot
    subst hroot
    cases hcat : categoryByPrefix id with
    | nil => exact absurd hcat hc
    | cons a t =>
      simp [filepathJoinUnix, List.dropWhile_cons, List.intercalate, List.intersperse]
theorem wellFormedID_no_slash (id : Str) (h : WellFormedID id) : '/' ∉ id := by
  intro hm
  rcases h.2.2 '/' hm with h1 | h1 | h1
  · exact absurd h1.1 (by decide)
  · exact absurd h1.1 (by decide)
  · exact absurd h1 (by decide)

/-- C18 (as amended): for every fixtures root and every case id, `GetFixturePath` returns
`filepath.Join` of the root, the sub-directory named after the category of the id
(`grounding`, `schema` or `tool`) and the id followed by its extension: `.out.txt` for
grounding-category ids (the default category included), `.out.txt` for tool ids that
end in `_secret` or `_behavior`, `.out.json` for the other tool ids and for every
schema id.  With `filepath.Join` of Unix this is the cleaned form of
`<root>/<subdir>/<id><ext>` (of `<subdir>/<id><ext>` for the empty root); for an id
without `/`, so for every id that matches the pattern, it is the text
`<root>/<subdir>/<id><ext>` itself when the root is clean and `<subdir>/<id><ext>`
when the root is empty.  The roots `./fixtures`, `fx/` and `a//b/../c` are not clean. -/
theorem C18_fixture_path (E : Env) (root id : Str) :
    GetFixturePath E root id =
        E.filepathJoin [root, categoryByPrefix id, id ++ fixtureExt id] ∧
      (E.filepathJoin = filepathJoinUnix → root ≠ [] →
        GetFixturePath E root id =
          filepathClean
            (root ++ "/".toList ++ categoryByPrefix id ++ "/".toList ++ id ++ fixtureExt id)) ∧
      (E.filepathJoin = filepathJoinUnix → root = [] →
        GetFixturePath E root id =
          filepathClean (categoryByPrefix id ++ "/".toList ++ id ++ fixtureExt id)) ∧
      (E.filepathJoin = filepathJoinUnix → IsCleanRoot root → '/' ∉ id →
        GetFixturePath E root id =
          root ++ "/".toList ++ categoryByPrefix id ++ "/".toList ++ id ++ fixtureExt id) ∧
      (E.filepathJoin = filepathJoinUnix → root = [] → '/' ∉ id →
        GetFixturePath E root id = categoryByPrefix id ++ "/".toList ++ id ++ fixtureExt id) ∧
      (WellFormedID id → '/' ∉ id) ∧
      (categoryByPrefix id = CaseTypeGrounding → fixtureExt id = ".out.txt".toList) ∧
      (categoryByPrefix id = CaseTypeSchema → fixtureExt id = ".out.json".toList) ∧
      (categoryByPrefix id = CaseTypeTool →
        fixtureExt id =
          if "_secret".toList <:+ id ∨ "_behavior".toList <:+ id then ".out.txt".toList
          else ".out.json".toList) ∧
      GetFixturePath sampleEnv "fx".toList "case_a".toList
        = "fx/grounding/case_a.out.txt".toList ∧
      GetFixturePath sampleEnv "fx".toList "schema_user_secret".toList
        = "fx/schema/schema_user_secret.out.json".toList ∧
      GetFixturePath sampleEnv "fx".toList "tool_api_secret".toList
        = "fx/tool/tool_api_secret.out.txt".toList ∧
      GetFixturePath sampleEnv "fx".toList "tool_api_behavior".toList
        = "fx/tool/tool_api_behavior.out.txt".toList ∧
      GetFixturePath sampleEnv "/srv/fx".toList "tool_api".toList
        = "/srv/fx/tool/tool_api.out.json".toList ∧
      GetFixturePath sampleEnv "./fixtures".toList "tool_api".toList
        = "fixtures/tool/tool_api.out.json".toList ∧
      GetFixturePath sampleEnv "fx/".toList "tool_api".toList
        = "fx/tool/tool_api.out.json".toList ∧
      GetFixturePath sampleEnv "a//b/../c".toList "tool_api".toList
        = "a/c/tool/tool_api.out.json".toList ∧
      GetFixturePath sampleEnv [] "tool_api".toList = "tool/tool_api.out.json".toList := by
  have e1 : ∀ x y z w : Str, x ++ "/".toList ++ y ++ "/".toList ++ z ++ w
      = x ++ '/' :: (y ++ '/' :: (z ++ w)) := by
    intro x y z w
    simp
  have e2 : ∀ y z w : Str, y ++ "/".toList ++ z ++ w = y ++ '/' :: (z ++ w) := by
    intro y z w
    simp
  refine ⟨getFixturePath_eq E root id, ?_, ?_, ?_, ?_, wellFormedID_no_slash id, ?_, ?_, ?_,
    by decide, by decide, by decide, by decide, by decide, by decide, by decide, by decide,
    by decide⟩
  · intro hE hroot
    rw [e1]
    exact (getFixturePath_unix E root id hE).1 hroot
  · intro hE hroot
    rw [e2]
    exact (getFixturePath_unix E root id hE).2 hroot
  · rintro hE ⟨r, hr, hplain⟩ hid
    have hne : root ≠ [] := by
      rcases hr with e | e
      · rw [e]
        intro hnil
        rw [hnil] at hplain
        exact absurd (hplain [] (by simp [pathElements])) (by decide)
      · rw [e]; simp
    rw [(getFixturePath_unix E root id hE).1 hne, e1]
    rcases hr with e | e
    · rw [e]
      exact filepathClean_of_plain _ (fixturePath_elements_plain r id hplain hid)
    · rw [e]
      exact filepathClean_of_plain_rooted _ (fixturePath_elements_plain r id hplain hid)
  · intro hE hroot hid
    rw [(getFixturePath_unix E root id hE).2 hroot, e2]
    apply filepathClean_of_plain
    rw [pathElements_append_slash, pathElements_of_no_slash _ (categoryByPrefix_plain id).1,
      pathElements_of_no_slash _ (fixtureName_plain id hid).1]
    intro e he
    simp only [List.mem_append, List.mem_singleton] at he
    rcases he with he | he
    · rw [he]; exact (categoryByPrefix_plain id).2.1
    · rw [he]; exact (fixtureName_plain id hid).2
  · intro h
    unfold fixtureExt
    rw [if_pos h]
  · intro h
    unfold fixtureExt
    rw [h, if_neg (by decide), if_pos rfl]
  · intro h
    unfold fixtureExt
    rw [h, if_neg (by decide), if_neg (by decide)]

/-- C18 (witness): the clean root `fx` and the id `tool_api_secret`, which matches the
pattern. -/
theorem C18_fixture_path_witness :
    IsCleanRoot "fx".toList ∧ caseIDPatternMatch "tool_api_secret".toList = true ∧
      GetFixturePath sampleEnv "fx".toList "tool_api_secret".toList =
        "fx".toList ++ "/".toList ++ categoryByPrefix "tool_api_secret".toList ++ "/".toList
          ++ "tool_api_secret".toList ++ fixtureExt "tool_api_secret".toList :=
  have h : IsCleanRoot "fx".toList := ⟨"fx".toList, Or.inl rfl, by decide⟩
  ⟨h, by decide,
    (C18_fixture_path sampleEnv "fx".toList "tool_api_secret".toList).2.2.2.1 rfl h
      (by decide)⟩

/-- C18 (counterexample): the id `tool_x` matches the pattern, and for the root
`./fixtures` (the default of the `--fixtures` flag) the path is
`fixtures/tool/tool_x.out.json`, which is not `<root>/<subdir>/<id><ext>`. -/
theorem C18_counterexample_root_is_cleaned :
    caseIDPatternMatch "tool_x".toList = true ∧
      GetFixturePath sampleEnv "./fixtures".toList "tool_x".toList
        = "fixtures/tool/tool_x.out.json".toList ∧
      GetFixturePath sampleEnv "./fixtures".toList "tool_x".toList ≠
        "./fixtures".toList ++ "/".toList ++ "tool".toList ++ "/".toList ++ "tool_x".toList
          ++ ".out.json".toList := by
  decide

/-- C27 (counterexample): in `No.` + vertical tab + `Still no` the `.` is followed by a
vertical tab, a white-space character that is not of the class `\s`: the content is
returned as one sentence, with a `.` immediately followed by white space.  And with
white space read as the class `\s` throughout, the piece vertical tab + `Yes` would be
returned as it is, while the result is `Yes`. -/
theorem C27_counterexample_vertical_tab :
    unicodeIsSpace (Char.ofNat 0x0B) = true ∧
      splitIntoSentences "No.\x0bStill no".toList = ["No.\x0bStill no".toList] ∧
      hasPunctBeforeWhiteSpace "No.\x0bStill no".toList = true ∧
      splitIntoSentences "\x0bYes".toList = ["Yes".toList] ∧
      ("\x0bYes".toList.dropWhile reSpace).rdropWhile reSpace = "\x0bYes".toList := by
  decide
theorem findAllCitations_skip (a b : Str) :
    findAllCitations a.length (a ++ b) = findAllCitations 0 b := by
  induction a with
  | nil => rfl
  | cons c a ih =>
    rw [List.length_cons, List.cons_append, findAllCitations]
    exact ih

theorem findAllCitations_before (pre rest : Str)
    (h : ∀ a b, pre = a ++ b → b ≠ [] → matchCitationAt (b ++ rest) = none) :
    findAllCitations 0 (pre ++ rest) = findAllCitations 0 rest := by
  induction pre with
  | nil => rfl
  | cons c pre ih =>
    have h0 := h [] (c :: pre) rfl (by simp)
    rw [List.cons_append] at h0 ⊢
    rw [findAllCitations, h0]
    exact ih (fun a b e hb => h (c :: a) b (by rw [e]; rfl) hb)

theorem findAllCitations_at (doc : Str) (d : Char) (ds post : Str) (hp : CitationParts doc d ds) :
    findAllCitations 0 ((mkCitation doc d ds).Full ++ post) =
      mkCitation doc d ds :: findAllCitations 0 post := by
  have hm := matchCitationAt_full_append hp post
  have hfull : (mkCitation doc d ds).Full
      = '[' :: ("doc:".toList ++ doc ++ '#' :: 'c' :: d :: ds ++ [']']) := by
    simp [mkCitation]
  rw [hfull] at hm ⊢
  rw [List.cons_append] at hm ⊢
  rw [findAllCitations, hm]
  simp only []
  have hl : (mkCitation doc d ds).Full.length - 1
      = ("doc:".toList ++ doc ++ '#' :: 'c' :: d :: ds ++ [']']).length := by
    rw [hfull]
    simp
  rw [hl, findAllCitations_skip]

theorem matchCitationAt_eq_none (t : Str)
    (h : ∀ doc d ds, CitationParts doc d ds → ¬ (mkCitation doc d ds).Full <+: t) :
    matchCitationAt t = none := by
  cases hm : matchCitationAt t with
  | none => rfl
  | some cit =>
    obtain ⟨doc, d, ds, rest, hp, ht, _⟩ := matchCitationAt_eq_some hm
    exact absurd ⟨rest, ht.symm⟩ (h doc d ds hp)

theorem findAllCitations_ne_nil (s : Str) (h : containsCitation s = true) :
    findAllCitations 0 s ≠ [] := by
  induction s with
  | nil => simp [containsCitation] at h
  | cons c cs ih =>
    rw [containsCitation_cons, Bool.or_eq_true] at h
    rw [findAllCitations]
    cases hm : matchCitationAt (c :: cs) with
    | some cit => simp
    | none =>
      rw [hm] at h
      simp only [Option.isSome_none, Bool.false_eq_true, false_or] at h
      exact ih h

theorem extractCitations_eq_nil_iff (content : Str) :
    extractCitations content = [] ↔
      ∀ pre doc d ds post, CitationParts doc d ds →
        content ≠ pre ++ (mkCitation doc d ds).Full ++ post := by
  unfold extractCitations
  constructor
  · intro h pre doc d ds post hp e
    apply findAllCitations_ne_nil content _ h
    rw [containsCitation_iff]
    exact ⟨(mkCitation doc d ds).Full ++ post, mkCitation doc d ds,
      ⟨pre, by rw [e, List.append_assoc]⟩, matchCitationAt_full_append hp post⟩
  · intro h
    apply findAllCitations_eq_nil
    cases hc : containsCitation content with
    | false => rfl
    | true =>
      obtain ⟨t, cit, ⟨pre, ht⟩, hm⟩ := (containsCitation_iff content).mp hc
      obtain ⟨doc, d, ds, rest, hp, e, _⟩ := matchCitationAt_eq_some hm
      exact absurd (by rw [← ht, e, List.append_assoc]) (h pre doc d ds rest hp)

theorem extractCitations_first (pre doc : Str) (d : Char) (ds post : Str)
    (hp : CitationParts doc d ds)
    (h : ∀ a b, pre = a ++ b → b ≠ [] → ∀ doc' d' ds', CitationParts doc' d' ds' →
      ¬ (mkCitation doc' d' ds').Full <+: b ++ ((mkCitation doc d ds).Full ++ post)) :
    extractCitations (pre ++ (mkCitation doc d ds).Full ++ post) =
      mkCitation doc d ds :: extractCitations post := by
  unfold extractCitations
  rw [List.append_assoc, findAllCitations_before pre _
    (fun a b e hb => matchCitationAt_eq_none _ (h a b e hb)), findAllCitations_at doc d ds post hp]

theorem specResolution_length (s : Suite) (cit : Citation) :
    (specResolution s cit).length = if resolves s cit = true then 0 else 1 := by
  unfold specResolution resolves
  cases lastDocWithID s.Docs cit.DocID with
  | none => rfl
  | some doc =>
    simp only []
    by_cases h : doc.Chunks.any (fun ch => decide (ch.ID = cit.ChunkID)) = true
    · rw [if_pos h, if_pos h]; rfl
    · rw [if_neg h, if_neg h]; rfl

theorem flatMap_specResolution_length (s : Suite) (l : List Citation) :
    (l.flatMap (specResolution s)).length = (l.filter (fun cit => !resolves s cit)).length := by
  induction l with
  | nil => rfl
  | cons a t ih =>
    rw [List.flatMap_cons, List.length_append, ih, specResolution_length, List.filter_cons]
    cases h : resolves s a with
    | false => simp; omega
    | true => simp
/-- C7: `ValidateGroundingCitations` passes iff the failure list it returns is empty, and
fails iff it is non-empty.  The list is one reason for every citation occurrence that
does not resolve, in order of occurrence, followed by one reason for every sentence that
must cite and does not, in sentence order: its length is the number of such occurrences
plus the number of such sentences, so every issue is reported.  The citation
occurrences are all of them: none is extracted iff no citation text occurs in the
content, and a citation text with no citation text starting before it is extracted
first, the extraction going on behind it.  A content with two unresolved citations and
two long uncited sentences gets the four reasons. -/
theorem C7_grounding_passes_iff_no_failure :
    (∀ (E : Env) (content : Str) (s : Suite),
        ((ValidateGroundingCitations E content s).1 = true ↔
          (ValidateGroundingCitations E content s).2 = []) ∧
        ((ValidateGroundingCitations E content s).1 = false ↔
          (ValidateGroundingCitations E content s).2 ≠ []) ∧
        (ValidateGroundingCitations E content s).2 =
          (extractCitations content).flatMap (specResolution s) ++
            ((splitIntoSentences content).filter (mustCite E len)).map
              (fun x => msgLacksCitation (countTokens x) x) ∧
        (ValidateGroundingCitations E content s).2.length =
          ((extractCitations content).filter (fun cit => !resolves s cit)).length +
            ((splitIntoSentences content).filter (mustCite E len)).length) ∧
      (∀ content : Str,
        extractCitations content = [] ↔
          ∀ pre doc d ds post, CitationParts doc d ds →
            content ≠ pre ++ (mkCitation doc d ds).Full ++ post) ∧
      (∀ (pre doc : Str) (d : Char) (ds post : Str), CitationParts doc d ds →
        (∀ a b, pre = a ++ b → b ≠ [] → ∀ doc' d' ds', CitationParts doc' d' ds' →
          ¬ (mkCitation doc' d' ds').Full <+: b ++ ((mkCitation doc d ds).Full ++ post)) →
        extractCitations (pre ++ (mkCitation doc d ds).Full ++ post) =
          mkCitation doc d ds :: extractCitations post) ∧
      (∀ E : Env,
        ValidateGroundingCitations E "[doc:d1#c9] [doc:d9#c1]".toList (sampleSuite [docD1] []) =
          (false,
            [utf8 "citation [doc:d1#c9] references non-existent chunk 'c9'".toList,
              utf8 "citation [doc:d9#c1] references non-existent doc 'd9'".toList])) ∧
      ValidateGroundingCitations sampleEnv fourIssues (sampleSuite [docD1] []) =
        (false,
          [utf8 "citation [doc:d1#c9] references non-existent chunk 'c9'".toList,
            utf8 "citation [doc:d9#c1] references non-existent doc 'd9'".toList,
            utf8 "sentence with 7 tokens lacks citation: 'The grass is green and wet now'".toList,
            utf8 ("sentence with 7 tokens lacks citation: "
              ++ "'Water is wet and very cold indeed'").toList]) ∧
      ValidateGroundingCitations sampleEnv
          "The sky is blue and clear today [doc:d1#c1]. It is so.".toList
          (sampleSuite [docD1] []) = (true, []) := by
  refine ⟨?_, extractCitations_eq_nil_iff, extractCitations_first, fun E => rfl, by decide,
    by decide⟩
  intro E content s
  have hl : (ValidateGroundingCitations E content s).2 =
      (extractCitations content).flatMap (specResolution s) ++
        ((splitIntoSentences content).filter (mustCite E len)).map
          (fun x => msgLacksCitation (countTokens x) x) := by
    rw [validateGroundingCitations_snd, unresolvedReasons_eq, uncitedReasons_eq]
  have hp : (ValidateGroundingCitations E content s).1 = true ↔
      (ValidateGroundingCitations E content s).2 = [] := by
    rw [validateGroundingCitations_eq]
    cases h : unresolvedReasons content s ++ uncitedReasons E content with
    | nil => simp
    | cons a t => simp
  refine ⟨hp, ?_, hl, ?_⟩
  · rw [Ne, ← hp]
    cases (ValidateGroundingCitations E content s).1 <;> simp
  · rw [hl, List.length_append, flatMap_specResolution_length, List.length_map]

end PromptCI
